import Mathlib

/-! The package gaoxiaojob: field extraction, keyword filter and notifier.

A shallow embedding of `gaoxiaojob/core.go`.

* A Go `string` is its sequence of bytes (`GoString`, a list of byte values);
  a string literal of the source is the UTF-8 encoding of its text (`utf8`).
* A Go slice is the list of its elements; the nil slice and the empty slice
  are both `[]`. `FilterJobs` is the one function that may write into the
  array of a slice it was given (through `append`); the section on
  `FilterJobs` over the memory keeps the arrays (`Mem.Slice`, `Mem.append`).
* A `time.Time` is its instant (seconds since 1 January 1970 UTC, and
  nanoseconds) and its zone; `time.Date`, `t.Date()` and `t.Clock()` follow
  package `time`, the zone `Asia/Shanghai` the time zone database (2023c).
* A Go `map[string]string` is a list of entries with distinct keys, read with
  `GoMap.get` and written with `GoMap.set`.
* A run-time panic is the `Except.error` result of a function.
* The collaborators the source calls (the HTML document of a detail page, the
  webhook transport) are inputs of the model.
-/

namespace Gaoxiaojob

/-! ## Go strings -/

/-- A Go string: its bytes, each a number below 256. -/
abbrev GoString := List Nat

/-- The UTF-8 encoding of one code point. -/
def utf8EncodeRune (r : Nat) : GoString :=
  if r < 0x80 then [r]
  else if r < 0x800 then [0xC0 + r / 64, 0x80 + r % 64]
  else if r < 0x10000 then [0xE0 + r / 4096, 0x80 + r / 64 % 64, 0x80 + r % 64]
  else [0xF0 + r / 262144, 0x80 + r / 4096 % 64, 0x80 + r / 64 % 64, 0x80 + r % 64]

/-- The bytes of a string literal of the (UTF-8) Go source. -/
def utf8 (s : String) : GoString :=
  s.toList.flatMap (fun c => utf8EncodeRune c.toNat)

/-! ## Package `strings` -/

/-- The call `strings.HasPrefix(s, p)`. -/
def HasPrefix (s p : GoString) : Bool :=
  p.isPrefixOf s

/-- The call `strings.Index(s, substr)`: the index of the first instance of
`substr` in `s`, `none` for Go's `-1`. -/
def Index : GoString → GoString → Option Nat
  | [], substr => if HasPrefix [] substr then some 0 else none
  | c :: s, substr =>
    if HasPrefix (c :: s) substr then some 0
    else (Index s substr).map (fun i => i + 1)

/-- The call `strings.Contains(s, substr)`, which is `Index(s, substr) >= 0`. -/
def Contains (s substr : GoString) : Bool :=
  (Index s substr).isSome

/-- The call `strings.Join(elems, sep)`. -/
def Join : List GoString → GoString → GoString
  | [], _ => []
  | [a], _ => a
  | a :: b :: rest, sep => a ++ sep ++ Join (b :: rest) sep

/-! ## The data model -/

/-- A `*time.Location`: its name and the zone data `time.LoadLocation` reads
for it from the time zone database: the offset from UTC (in seconds) in force
before the first change of the clock (`first`), and the changes in the order
of time, each with the instant it takes effect (in seconds since 1 January
1970 UTC) and the offset in force from then on. -/
structure Location where
  name : GoString
  first : Int
  tx : List (Int × Int)
deriving DecidableEq

/-- A `time.Time`: an instant, in seconds since 1 January 1970 UTC and
nanoseconds, and the zone it is shown in. -/
structure Time where
  unix : Int
  nsec : Int
  loc : Location
deriving DecidableEq

/-- `map[string]string`. -/
abbrev GoMap := List (GoString × GoString)

/-- The lookup `v, ok := m[k]`. -/
def GoMap.get (m : GoMap) (k : GoString) : Option GoString :=
  (m.find? (fun e => e.1 == k)).map (fun e => e.2)

/-- The assignment `m[k] = v`. -/
def GoMap.set (m : GoMap) (k v : GoString) : GoMap :=
  (k, v) :: m.filter (fun e => e.1 != k)

/-- The struct `Job`. -/
structure Job where
  URL : GoString
  Title : GoString
  Meta : GoMap
  Categories : List GoString
  Subjects : List GoString
  Provinces : List GoString
  Locations : List GoString
  PublishedAt : Option Time
  ExpireAt : Option Time
  Body : GoString
deriving DecidableEq

/-! ## `FilterJobs` -/

/-- The text `FilterJobs` searches for one job, the job taken as a value:
`strings.Join(append(job.Provinces, append(job.Locations,
append(job.Categories, append(job.Subjects)...)...)...), " ")`, where each
`append` gives the elements of its first argument and then the others. This
is the text of the source when no slice of the job has room after its last
element that holds an element of another slice (`FilterJobs_private_capacity`);
`Mem.FilterJobs.text` is the text over the memory, where `append` writes into
such room. -/
def FilterJobs.text (job : Job) : GoString :=
  Join (job.Provinces ++ (job.Locations ++ (job.Categories ++ job.Subjects))) (utf8 " ")

/-- The function `FilterJobs` on jobs taken as values: both loops append to
`filteredJobs` in order. `Mem.FilterJobs` is the function over the memory. -/
def FilterJobs (jobs : List Job) (keywords : List GoString) : List Job :=
  if keywords.length = 0 then jobs
  else
    jobs.foldl (fun filteredJobs job =>
      let text := FilterJobs.text job
      keywords.foldl (fun filteredJobs keyword =>
        if Contains text keyword then filteredJobs ++ [job] else filteredJobs)
        filteredJobs) []


/-- The call `strings.Count(s, substr)` for a non-empty `substr`: the number of
non-overlapping instances, found from the left. The loop runs at most
`len(s)` times, since each round drops at least one byte. -/
def Count.loop (substr : GoString) : Nat → GoString → Nat
  | 0, _ => 0
  | fuel + 1, s =>
    match Index s substr with
    | none => 0
    | some i => Count.loop substr fuel (s.drop (i + substr.length)) + 1

/-- See `Count.loop`. -/
def Count (s substr : GoString) : Nat :=
  Count.loop substr (s.length + 1) s

/-- The loop of `strings.genSplit`: `k` is the number of rounds left
(`n - 1 - i` of the source); a round cuts `s` at the first `sep`. -/
def genSplit.loop (sep : GoString) (sepSave : Nat) : Nat → GoString → List GoString
  | 0, s => [s]
  | k + 1, s =>
    match Index s sep with
    | none => [s]
    | some m => s.take (m + sepSave) :: genSplit.loop sep sepSave k (s.drop (m + sep.length))

/-- The call `strings.genSplit(s, sep, sepSave, n)` for a non-empty `sep`
(the branch for `sep == ""` is not reached by this program, whose separators
are `" "` and `"："`, and is not modelled). -/
def genSplit (s sep : GoString) (sepSave : Nat) (n : Int) : List GoString :=
  if n = 0 then []
  else
    let n := if n < 0 then (Count s sep : Int) + 1 else n
    let n := if n > (s.length : Int) + 1 then (s.length : Int) + 1 else n
    genSplit.loop sep sepSave (n - 1).toNat s

/-- The call `strings.SplitN(s, sep, n)`. -/
def SplitN (s sep : GoString) (n : Int) : List GoString :=
  genSplit s sep 0 n

/-- The call `strings.Split(s, sep)`. -/
def Split (s sep : GoString) : List GoString :=
  genSplit s sep 0 (-1)

/-- The code points for which `unicode.IsSpace` holds: tab, line feed, vertical
tab, form feed, carriage return, space, U+0085, U+00A0 and the other code
points of the Unicode White_Space property. -/
def whiteSpace : List Nat :=
  [0x09, 0x0A, 0x0B, 0x0C, 0x0D, 0x20, 0x85, 0xA0, 0x1680,
   0x2000, 0x2001, 0x2002, 0x2003, 0x2004, 0x2005, 0x2006, 0x2007, 0x2008, 0x2009, 0x200A,
   0x2028, 0x2029, 0x202F, 0x205F, 0x3000]

/-- The byte sequences that decode to a white-space rune. `utf8.DecodeRune`
yields a rune other than the error rune exactly when the bytes start with the
(one) UTF-8 encoding of that rune, and `utf8.DecodeLastRune` exactly when they
end with it, so a string starts (ends) with white space exactly when one of
these sequences is a prefix (suffix) of it. -/
def whiteSpaceBytes : List GoString :=
  whiteSpace.map utf8EncodeRune

/-- The width of the white-space rune `s` starts with, if it starts with one. -/
def leadingSpace (s : GoString) : Option Nat :=
  (whiteSpaceBytes.find? (fun w => w.isPrefixOf s)).map List.length

/-- The width of the white-space rune `s` ends with, if it ends with one. -/
def trailingSpace (s : GoString) : Option Nat :=
  (whiteSpaceBytes.find? (fun w => w.isSuffixOf s)).map List.length

/-- The loop of `strings.TrimLeftFunc(s, unicode.IsSpace)`; a round drops one
rune, so `len(s)` rounds are enough. -/
def TrimLeftSpace.loop : Nat → GoString → GoString
  | 0, s => s
  | fuel + 1, s =>
    match leadingSpace s with
    | none => s
    | some w => TrimLeftSpace.loop fuel (s.drop w)

/-- The loop of `strings.TrimRightFunc(s, unicode.IsSpace)`. -/
def TrimRightSpace.loop : Nat → GoString → GoString
  | 0, s => s
  | fuel + 1, s =>
    match trailingSpace s with
    | none => s
    | some w => TrimRightSpace.loop fuel (s.take (s.length - w))

/-- The call `strings.TrimSpace(s)`: leading white space is cut first, then
trailing white space (the ASCII fast path of the source gives the same
result as `TrimFunc(s, unicode.IsSpace)`). -/
def TrimSpace (s : GoString) : GoString :=
  let s := TrimLeftSpace.loop s.length s
  TrimRightSpace.loop s.length s

/-! ## Package `fmt`, `net/url` -/

/-- The verb `%d` for an `int`. -/
def formatInt (i : Int) : GoString :=
  if i < 0 then 0x2D :: (Nat.toDigits 10 i.natAbs).map Char.toNat
  else (Nat.toDigits 10 i.natAbs).map Char.toNat

/-- The function `shouldEscape(c, encodeQueryComponent)` of `net/url`: letters,
digits and `-`, `_`, `.`, `~` are kept. -/
def shouldEscape (c : Nat) : Bool :=
  if (0x61 ≤ c ∧ c ≤ 0x7A) ∨ (0x41 ≤ c ∧ c ≤ 0x5A) ∨ (0x30 ≤ c ∧ c ≤ 0x39) then false
  else if c = 0x2D ∨ c = 0x5F ∨ c = 0x2E ∨ c = 0x7E then false
  else true

/-- The table `upperhex` of `net/url`, `"0123456789ABCDEF"`. -/
def upperhex (n : Nat) : Nat :=
  if n < 10 then 0x30 + n else 0x41 + (n - 10)

/-- The call `url.QueryEscape(s)`: a space becomes `+`, any other byte that
`shouldEscape` names becomes `%XX`. -/
def QueryEscape (s : GoString) : GoString :=
  s.flatMap (fun c =>
    if c = 0x20 then [0x2B]
    else if shouldEscape c then [0x25, upperhex (c / 16), upperhex (c % 16)]
    else [c])

/-- The function `DummyImage`:
`fmt.Sprintf("https://dummyimage.com/%dx%d/%s/%s.%s&text=%s", width, height,
backgroundColor, foregroundColor, format, url.QueryEscape(text))`. -/
def DummyImage (width height : Int) (backgroundColor foregroundColor text format : GoString) :
    GoString :=
  utf8 "https://dummyimage.com/" ++ formatInt width ++ utf8 "x" ++ formatInt height
    ++ utf8 "/" ++ backgroundColor ++ utf8 "/" ++ foregroundColor ++ utf8 "." ++ format
    ++ utf8 "&text=" ++ QueryEscape text

/-! ## Package `time`: `ParseInLocation` for the two layouts of the program -/

/-- The layout elements `nextStdChunk` finds in the two layouts. -/
inductive StdChunk where
  | stdLongYear
  | stdZeroMonth
  | stdNumMonth
  | stdZeroDay
  | stdDay
deriving DecidableEq

/-- A layout as `nextStdChunk` cuts it: the literal text before each element
and the element, then the literal text after the last element. -/
structure Layout where
  text : GoString
  chunks : List (GoString × StdChunk)
  suffix : GoString
deriving DecidableEq

/-- The layout `"2006-01-02"`: `2006`, then `-` and `01`, then `-` and `02`. -/
def layoutISO : Layout :=
  { text := utf8 "2006-01-02"
    chunks := [([], StdChunk.stdLongYear), (utf8 "-", StdChunk.stdZeroMonth), (utf8 "-", StdChunk.stdZeroDay)]
    suffix := [] }

/-- The layout `"2006年1月2日"`: `2006`, then `年` and `1`, then `月` and `2`,
then `日` (no byte of the three characters starts a layout element). -/
def layoutCN : Layout :=
  { text := utf8 "2006年1月2日"
    chunks := [([], StdChunk.stdLongYear), (utf8 "年", StdChunk.stdNumMonth), (utf8 "月", StdChunk.stdDay)]
    suffix := utf8 "日" }

/-- A `*time.ParseError`: the layout and the value that did not parse. -/
structure ParseError where
  layout : GoString
  value : GoString
deriving DecidableEq

/-- The function `isDigit(s, i)` of `time`. -/
def isDigit (s : GoString) (i : Nat) : Bool :=
  match s.get? i with
  | none => false
  | some c => decide (0x30 ≤ c ∧ c ≤ 0x39)

/-- The function `leadingInt` of `time`: the digits `s` starts with, as a
`uint64` `x`, and the rest; `none` on overflow. -/
def leadingInt : GoString → Nat → Option (Nat × GoString)
  | [], x => some (x, [])
  | c :: s, x =>
    if c < 0x30 ∨ c > 0x39 then some (x, c :: s)
    else if x > 2 ^ 63 / 10 then none
    else if x * 10 + c - 0x30 > 2 ^ 63 then none
    else leadingInt s (x * 10 + c - 0x30)

/-- The function `atoi` of `time`: an optional sign, then digits only. -/
def atoi (s : GoString) : Option Int :=
  let neg := decide (s.head? = some 0x2D)
  let s := if s.head? = some 0x2D ∨ s.head? = some 0x2B then s.drop 1 else s
  match leadingInt s 0 with
  | none => none
  | some (q, rem) =>
    if rem ≠ [] then none
    else
      let x : Int := if q < 2 ^ 63 then (q : Int) else (q : Int) - 2 ^ 64
      some (if neg then -x else x)

/-- The function `getnum(s, fixed)` of `time`: one or two digits, two when
`fixed`. -/
def getnum (s : GoString) (fixed : Bool) : Option (Int × GoString) :=
  if !isDigit s 0 then none
  else if !isDigit s 1 then
    if fixed then none else some (((s.getD 0 0 - 0x30 : Nat) : Int), s.drop 1)
  else
    some ((((s.getD 0 0 - 0x30) * 10 + (s.getD 1 0 - 0x30) : Nat) : Int), s.drop 2)

/-- The function `skip(value, prefix)` of `time` for literal text without a
space (the literal text of the two layouts has none): `value` must start with
the text, which is cut off. -/
def skip : GoString → GoString → Option GoString
  | value, [] => some value
  | [], _ :: _ => none
  | v :: value, p :: pre => if v ≠ p then none else skip value pre

/-- The function `isLeap` of `time`. -/
def isLeap (year : Int) : Bool :=
  year % 4 = 0 ∧ (year % 100 ≠ 0 ∨ year % 400 = 0)

/-- The function `daysIn(m, year)` of `time`. -/
def daysIn (m : Int) (year : Int) : Int :=
  if m = 2 ∧ isLeap year then 29
  else if m = 2 then 28
  else if m = 4 ∨ m = 6 ∨ m = 9 ∨ m = 11 then 30
  else 31

/-- The fields `parse` collects; `month` and `day` start at `-1`. -/
structure Fields where
  year : Int
  month : Int
  day : Int
deriving DecidableEq

/-- One round of the loop of `parse` for the element `std`: the value's text
for the element is read and cut off; `none` is the parse error (a text that
is no number, or a month outside 1..12). -/
def parse.element (std : StdChunk) (value : GoString) (f : Fields) : Option (Fields × GoString) :=
  match std with
  | StdChunk.stdLongYear =>
    if value.length < 4 ∨ !isDigit value 0 then none
    else
      match atoi (value.take 4) with
      | none => none
      | some year => some ({ f with year := year }, value.drop 4)
  | StdChunk.stdNumMonth | StdChunk.stdZeroMonth =>
    match getnum value (decide (std = StdChunk.stdZeroMonth)) with
    | none => none
    | some (month, value) =>
      if month ≤ 0 ∨ 12 < month then none else some ({ f with month := month }, value)
  | StdChunk.stdDay | StdChunk.stdZeroDay =>
    match getnum value (decide (std = StdChunk.stdZeroDay)) with
    | none => none
    | some (day, value) => some ({ f with day := day }, value)

/-- The loop of `parse`: before each element its literal text is skipped. -/
def parse.loop : List (GoString × StdChunk) → GoString → Fields → Option (Fields × GoString)
  | [], value, f => some (f, value)
  | (pre, std) :: chunks, value, f =>
    match skip value pre with
    | none => none
    | some value =>
      match parse.element std value f with
      | none => none
      | some (f, value) => parse.loop chunks value f

/-- The constant `alpha` of `time`, the start of all time. -/
def alphaSec : Int :=
  -(2 ^ 63)

/-- The constant `omega` of `time`, the end of all time. -/
def omegaSec : Int :=
  2 ^ 63 - 1

/-- The search of `(*Location).lookup` through the changes of the clock, from
the offset `offset` in force since `start`: the offset in force at `sec`, the
instant it came into force and the instant it ends. The changes are in the
order of time; the source finds the last change not after `sec` by bisection,
the model by going through them. -/
def Location.lookup.search : List (Int × Int) → Int → Int → Int → Int × Int × Int
  | [], _, offset, start => (offset, start, omegaSec)
  | (when, nextOffset) :: tx, sec, offset, start =>
    if sec < when then (offset, start, when)
    else Location.lookup.search tx sec nextOffset when

/-- The method `(*Location).lookup(sec)`: the offset in force at the instant
`sec`, with the start and the end of the time it is in force; before the
first change it is in force since `alpha`, after the last until `omega`. -/
def Location.lookup (l : Location) (sec : Int) : Int × Int × Int :=
  Location.lookup.search l.tx sec l.first alphaSec

/-- The conversion `uint64(x)`. -/
def uint64 (x : Int) : Int :=
  x % 18446744073709551616

/-- The conversion `int64(x)`, and the value the arithmetic of `int64` keeps
of the integer `x`. -/
def int64 (x : Int) : Int :=
  (x + 9223372036854775808) % 18446744073709551616 - 9223372036854775808

/-- The constant `secondsPerMinute` of `time`. -/
def secondsPerMinute : Int :=
  60

/-- The constant `secondsPerHour` of `time`. -/
def secondsPerHour : Int :=
  60 * secondsPerMinute

/-- The constant `secondsPerDay` of `time`. -/
def secondsPerDay : Int :=
  24 * secondsPerHour

/-- The constant `daysPer400Years` of `time`. -/
def daysPer400Years : Int :=
  365 * 400 + 97

/-- The constant `daysPer100Years` of `time`. -/
def daysPer100Years : Int :=
  365 * 100 + 24

/-- The constant `daysPer4Years` of `time`. -/
def daysPer4Years : Int :=
  365 * 4 + 1

/-- The constant `absoluteZeroYear` of `time`: the year the absolute count of
seconds starts with. -/
def absoluteZeroYear : Int :=
  -292277022399

/-- The constant `internalYear` of `time`. -/
def internalYear : Int :=
  1

/-- The constant `absoluteToInternal` of `time`, in the source
`(absoluteZeroYear - internalYear) * 365.2425 * secondsPerDay`; a year of
365.2425 days has 31556952 seconds. -/
def absoluteToInternal : Int :=
  (absoluteZeroYear - internalYear) * 31556952

/-- The constant `internalToAbsolute` of `time`. -/
def internalToAbsolute : Int :=
  -absoluteToInternal

/-- The constant `unixToInternal` of `time`. -/
def unixToInternal : Int :=
  (1969 * 365 + 1969 / 4 - 1969 / 100 + 1969 / 400) * secondsPerDay

/-- The constant `internalToUnix` of `time`. -/
def internalToUnix : Int :=
  -unixToInternal

/-- The function `norm(hi, lo, base)` of `time`: `lo` brought into
`0 ≤ lo < base`, the carry added to `hi`. -/
def norm (hi lo base : Int) : Int × Int :=
  let n1 := (-lo - 1) / base + 1
  let hi1 := if lo < 0 then hi - n1 else hi
  let lo1 := if lo < 0 then lo + n1 * base else lo
  let n2 := lo1 / base
  let hi2 := if lo1 ≥ base then hi1 + n2 else hi1
  let lo2 := if lo1 ≥ base then lo1 - n2 * base else lo1
  (hi2, lo2)

/-- The table `daysBefore` of `time`: `daysBefore[m]` counts the days of a
year without a leap day before the month `m + 1`. -/
def daysBefore : List Int :=
  [0, 31, 31 + 28, 31 + 28 + 31, 31 + 28 + 31 + 30, 31 + 28 + 31 + 30 + 31,
    31 + 28 + 31 + 30 + 31 + 30, 31 + 28 + 31 + 30 + 31 + 30 + 31,
    31 + 28 + 31 + 30 + 31 + 30 + 31 + 31, 31 + 28 + 31 + 30 + 31 + 30 + 31 + 31 + 30,
    31 + 28 + 31 + 30 + 31 + 30 + 31 + 31 + 30 + 31,
    31 + 28 + 31 + 30 + 31 + 30 + 31 + 31 + 30 + 31 + 30,
    31 + 28 + 31 + 30 + 31 + 30 + 31 + 31 + 30 + 31 + 30 + 31]

/-- The function `daysSinceEpoch(year)` of `time`: the days from 1 January of
the absolute zero year to 1 January of `year`. -/
def daysSinceEpoch (year : Int) : Int :=
  let y := uint64 (year - absoluteZeroYear)
  let n := y / 400
  let y := y - 400 * n
  let d := daysPer400Years * n
  let n := y / 100
  let y := y - 100 * n
  let d := d + daysPer100Years * n
  let n := y / 4
  let y := y - 4 * n
  let d := d + daysPer4Years * n
  let n := y
  d + 365 * n

/-- The first half of `time.Date`, after the fields are normalized: the days
since the absolute epoch, the seconds `abs` since the absolute epoch, and the
seconds `unix` since 1 January 1970 the reading would stand for in UTC. -/
def Date.unix (year month day hour min sec : Int) : Int :=
  let d := daysSinceEpoch year
  let d := d + uint64 (daysBefore.getD (month - 1).toNat 0)
  let d := if isLeap year ∧ month ≥ 3 then d + 1 else d
  let d := d + uint64 (day - 1)
  let abs := uint64 (d * secondsPerDay)
  let abs := uint64 (abs + uint64 (hour * secondsPerHour + min * secondsPerMinute + sec))
  int64 (int64 abs + (absoluteToInternal + internalToUnix))

/-- The second half of `time.Date`: the offset in force at `unix` is looked
up and, if `unix` minus that offset lies outside the time the offset is in
force, the offset in force at `unix` minus that offset is taken instead; the
result is `unix` minus the offset. -/
def Date.utc (unix : Int) (loc : Location) : Int :=
  let found := loc.lookup unix
  let offset := found.1
  let start := found.2.1
  let end_ := found.2.2
  if offset ≠ 0 then
    let utc := unix - offset
    let offset := if utc < start ∨ utc ≥ end_ then (loc.lookup utc).1 else offset
    unix - offset
  else unix

/-- The call `time.Date(year, month, day, hour, min, sec, nsec, loc)`: the
fields are normalized, the month into the year and the smaller units into the
day; the reading is taken as the seconds it would stand for in UTC
(`Date.unix`) and the offset of the zone is taken off (`Date.utc`). -/
def Date (year month day hour min sec nsec : Int) (loc : Location) : Time :=
  let m := month - 1
  let ym := norm year m 12
  let year := ym.1
  let month := ym.2 + 1
  let sn := norm sec nsec 1000000000
  let ms := norm min sn.1 60
  let hm := norm hour ms.1 60
  let dh := norm day hm.1 24
  let nsec := sn.2
  let sec := ms.2
  let min := hm.2
  let hour := dh.2
  let day := dh.1
  let unix := Date.unix year month day hour min sec
  { unix := Date.utc unix loc, nsec := nsec, loc := loc }

/-- The offset of `t.Zone()`: the offset from UTC in force in the zone of `t`
at the instant of `t`, in seconds. -/
def Time.Zone (t : Time) : Int :=
  (t.loc.lookup t.unix).1

/-- The method `t.abs()`: the reading of the clock of the zone at `t`, in
seconds since 1 January of the absolute zero year. -/
def Time.abs (t : Time) : Int :=
  uint64 (t.unix + (t.loc.lookup t.unix).1 + (unixToInternal + internalToAbsolute))

/-- The first half of `absDate`, what it returns when `full` is not set: the
year and the day of the year (from 0) of the reading `abs`. -/
def absDate.yday (abs : Int) : Int × Int :=
  let d := abs / secondsPerDay
  let n := d / daysPer400Years
  let y := 400 * n
  let d := d - daysPer400Years * n
  let n := d / daysPer100Years
  let n := n - n / 4
  let y := y + 100 * n
  let d := d - daysPer100Years * n
  let n := d / daysPer4Years
  let y := y + 4 * n
  let d := d - daysPer4Years * n
  let n := d / 365
  let n := n - n / 4
  let y := y + n
  let d := d - 365 * n
  (int64 y + absoluteZeroYear, d)

/-- The function `absDate(abs, true)` of `time`: the year, the month and the
day of the month of the reading `abs` (the day of the year, which `t.Date()`
drops, is left out). -/
def absDate (abs : Int) : Int × Int × Int :=
  let year := (absDate.yday abs).1
  let day := (absDate.yday abs).2
  if isLeap year ∧ day = 31 + 29 - 1 then (year, 2, 29)
  else
    let day := if isLeap year ∧ day > 31 + 29 - 1 then day - 1 else day
    let month := day / 31
    let end_ := daysBefore.getD (month + 1).toNat 0
    if day ≥ end_ then (year, month + 1 + 1, day - end_ + 1)
    else (year, month + 1, day - daysBefore.getD month.toNat 0 + 1)

/-- The function `absClock(abs)` of `time`: the hour, the minute and the
second of the reading `abs`. -/
def absClock (abs : Int) : Int × Int × Int :=
  let sec := abs % secondsPerDay
  let hour := sec / secondsPerHour
  let sec := sec - hour * secondsPerHour
  let min := sec / secondsPerMinute
  let sec := sec - min * secondsPerMinute
  (hour, min, sec)

/-- The method `t.Date()`: the year, the month and the day the clock of the
zone of `t` shows at `t`. -/
def Time.Date (t : Time) : Int × Int × Int :=
  absDate t.abs

/-- The method `t.Clock()`: the hour, the minute and the second the clock of
the zone of `t` shows at `t`. -/
def Time.Clock (t : Time) : Int × Int × Int :=
  absClock t.abs

/-- The call `time.ParseInLocation(layout, value, loc)` for a layout whose
elements are a year, a month and a day: after the last element the literal
tail is skipped and nothing may be left of the value; a month or day that was
not set is 1; the day must exist in the month; the time is
`Date(year, month, day, 0, 0, 0, 0, loc)`. -/
def ParseInLocation (layout : Layout) (value : GoString) (loc : Location) :
    Except ParseError Time :=
  match parse.loop layout.chunks value { year := 0, month := -1, day := -1 } with
  | none => Except.error { layout := layout.text, value := value }
  | some (f, rest) =>
    match skip rest layout.suffix with
    | none => Except.error { layout := layout.text, value := value }
    | some rest =>
      if rest ≠ [] then Except.error { layout := layout.text, value := value }
      else
        let month := if f.month < 0 then 1 else f.month
        let day := if f.day < 0 then 1 else f.day
        if day < 1 ∨ day > daysIn month f.year then
          Except.error { layout := layout.text, value := value }
        else Except.ok (Date f.year month day 0 0 0 0 loc)

/-! ## Panics -/

/-- The value a run-time panic of the program carries. -/
inductive Panic where
  /-- The run-time error `index out of range [index] with length length`. -/
  | indexOutOfRange (index : Int) (length : Nat)
  /-- The call `panic(err)` with the error of `time.ParseInLocation`. -/
  | parseError (err : ParseError)
deriving DecidableEq

deriving instance DecidableEq for Except

/-- The index expression `a[i]` on a slice. -/
def sliceIndex {α : Type} (a : List α) (i : Int) : Except Panic α :=
  if i < 0 then Except.error (Panic.indexOutOfRange i a.length)
  else
    match a.get? i.toNat with
    | some x => Except.ok x
    | none => Except.error (Panic.indexOutOfRange i a.length)

/-! ## `FetchJobs`: the extraction of one detail page -/

/-- The zone `init` stores in `LOCATION`: the result of
`time.LoadLocation("Asia/Shanghai")`. The error of that call is dropped by
`init`; the model is of a process whose zone database holds the zone.
Modelled from the time zone database (the zone is data of the host, not of
this repository), release 2023c: before 1901 local mean time, 8:05:43 ahead
of UTC; since then 8 hours ahead, and 9 hours while daylight saving time was
in force, in 1919, between 1940 and 1949 and in the summers of 1986 to 1991.
After the last change, on 14 September 1991 at 17:00 UTC, the rule `CST-8` of
the zone keeps the offset of 8 hours. -/
def LOCATION : Location :=
  { name := utf8 "Asia/Shanghai"
    first := 29143
    tx := [(-2177481943, 28800), (-1600675200, 32400), (-1585904400, 28800),
      (-933667200, 32400), (-922093200, 28800), (-908870400, 32400), (-888829200, 28800),
      (-881049600, 32400), (-767869200, 28800), (-745833600, 32400), (-733827600, 28800),
      (-716889600, 32400), (-699613200, 28800), (-683884800, 32400), (-670669200, 28800),
      (-652348800, 32400), (-650019600, 28800), (515527200, 32400), (527014800, 28800),
      (545162400, 32400), (558464400, 28800), (577216800, 32400), (589914000, 28800),
      (608666400, 32400), (621968400, 28800), (640116000, 32400), (653418000, 28800),
      (671565600, 32400), (684867600, 28800)] }

/-- An `a` element of the page: its position among the element children of
its parent (from 1) and its text. -/
structure Anchor where
  nthChild : Nat
  text : GoString
deriving DecidableEq

/-- What the callback for `body.articleview` reads of the element it gets. -/
structure Document where
  /-- The value of `e.Request.URL.String()`. -/
  url : GoString
  /-- The `a` elements below a `div.position`, in document order. -/
  position : List Anchor
  /-- The text of `div.article_left.border > h1.title-a`. -/
  title : GoString
  /-- The text of `div.article_body`. -/
  body : GoString
  /-- The text of each `ul.article_fenlei > li`, in document order. -/
  fenlei : List GoString
deriving DecidableEq

/-- The full-width colon of the call `strings.SplitN(selection.Text(), "：", 2)`. -/
def colon : GoString :=
  utf8 "："

/-- The body of the callback over `ul.article_fenlei > li`:
`meta := strings.SplitN(selection.Text(), "：", 2)` and
`job.Meta[strings.TrimSpace(meta[0])] = strings.TrimSpace(meta[1])`. -/
def FetchJobs.fenlei (Meta : GoMap) (text : GoString) : Except Panic GoMap := do
  let parts := SplitN text colon 2
  let key ← sliceIndex parts 0
  let value ← sliceIndex parts 1
  pure (Meta.set (TrimSpace key) (TrimSpace value))

/-- The `Each` over `ul.article_fenlei > li`, from the empty map of
`Job{Meta: make(map[string]string, 5)}`. -/
def FetchJobs.Meta : List GoString → GoMap → Except Panic GoMap
  | [], Meta => pure Meta
  | text :: rest, Meta => do
    let Meta ← FetchJobs.fenlei Meta text
    FetchJobs.Meta rest Meta

/-- The three blocks `if v, ok := job.Meta[label]; ok { ... = strings.Split(v, " ") }`. -/
def FetchJobs.labels (Meta : GoMap) (label : GoString) : List GoString :=
  match Meta.get label with
  | some v => Split v (utf8 " ")
  | none => []

/-- The block for `"发布时间"`: a value that does not parse panics. -/
def FetchJobs.PublishedAt (Meta : GoMap) : Except Panic (Option Time) :=
  match Meta.get (utf8 "发布时间") with
  | some v =>
    match ParseInLocation layoutISO v LOCATION with
    | Except.error err => Except.error (Panic.parseError err)
    | Except.ok t => Except.ok (some t)
  | none => Except.ok none

/-- The block for `"截止日期"`: a value that does not parse leaves the field nil. -/
def FetchJobs.ExpireAt (Meta : GoMap) : Option Time :=
  match Meta.get (utf8 "截止日期") with
  | some v =>
    match ParseInLocation layoutCN v LOCATION with
    | Except.error _ => none
    | Except.ok t => some t
  | none => none

/-- The callback `jobCollector.OnHTML("body.articleview", ...)` of `FetchJobs`:
the job it appends to `jobs`, or the panic it ends in. The selector
`div.position a:nth-child(n+2)` takes the anchors that are the second or a
later child of their parent. -/
def FetchJobs.articleview (e : Document) : Except Panic Job := do
  let Categories := (e.position.filter (fun a => decide (2 ≤ a.nthChild))).map (fun a => a.text)
  let Meta ← FetchJobs.Meta e.fenlei []
  let Provinces := FetchJobs.labels Meta (utf8 "所属省份")
  let Locations := FetchJobs.labels Meta (utf8 "工作地点")
  let Subjects := FetchJobs.labels Meta (utf8 "需求学科")
  let PublishedAt ← FetchJobs.PublishedAt Meta
  let ExpireAt := FetchJobs.ExpireAt Meta
  pure
    { URL := e.url, Title := e.title, Meta := Meta, Categories := Categories,
      Subjects := Subjects, Provinces := Provinces, Locations := Locations,
      PublishedAt := PublishedAt, ExpireAt := ExpireAt, Body := e.body }

/-- The function `FetchJobs` over the detail pages the collector hands to the
callback, in the order of the calls: the jobs appended, or the first panic. -/
def FetchJobs : List Document → Except Panic (List Job)
  | [] => pure []
  | e :: pages => do
    let job ← FetchJobs.articleview e
    let jobs ← FetchJobs pages
    pure (job :: jobs)

/-! ## `Notify` -/

/-- The struct `dingtalk.FeedCardLink`. -/
structure FeedCardLink where
  Title : GoString
  MessageURL : GoString
  PictureURL : GoString
deriving DecidableEq

/-- The struct `dingtalk.FeedCard`. -/
structure FeedCard where
  Links : List FeedCardLink
deriving DecidableEq

/-- The struct `dingtalk.At`, of which `Notify` sets `IsAtAll`. -/
structure At where
  IsAtAll : Bool
deriving DecidableEq

/-- The struct `dingtalk.Message`, of which `Notify` sets three fields
(`MsgType` is its field `Type`). -/
structure Message where
  MsgType : GoString
  FeedCard : Option FeedCard
  At : Option At
deriving DecidableEq

/-- The response of `dingtalk.Send`. -/
structure Response where
  ErrorCode : Int
  ErrorMessage : GoString
deriving DecidableEq

/-- The error `Notify` returns: the one `dingtalk.Send` gave, or the one
`fmt.Errorf` made, known by its text. -/
inductive NotifyError (ε : Type) where
  | transport (err : ε)
  | errorf (text : GoString)
deriving DecidableEq

/-- One call of `Notify`: the calls of `dingtalk.Send` it made, each with the
webhook URL and the message, and how it ended: a panic, or the value returned
(`none` for `nil`). -/
structure NotifyRun (ε : Type) where
  sent : List (GoString × Message)
  result : Except Panic (Option (NotifyError ε))

/-- The first loop of `Notify`, which fills `feedCardLinks` job by job. -/
def Notify.feedCardLinks : List Job → Except Panic (List FeedCardLink)
  | [] => pure []
  | job :: jobs => do
    let category ← sliceIndex job.Categories ((job.Categories.length : Int) - 1)
    let pictureURL := DummyImage 400 400 (utf8 "1ff22a") (utf8 "0011ff") category (utf8 "png")
    let links ← Notify.feedCardLinks jobs
    pure ({ Title := job.Title, MessageURL := job.URL, PictureURL := pictureURL } :: links)

/-- The second loop of `Notify`, over the messages: each is sent; the error of
the transport, or a response with a non-zero `ErrorCode`, ends the loop. -/
def Notify.send {ε : Type} (Send : GoString → Message → Except ε Response)
    (webhookURL : GoString) : List Message → List (GoString × Message) → NotifyRun ε
  | [], sent => { sent := sent, result := Except.ok none }
  | message :: messages, sent =>
    match Send webhookURL message with
    | Except.error err =>
      { sent := sent ++ [(webhookURL, message)],
        result := Except.ok (some (NotifyError.transport err)) }
    | Except.ok resp =>
      if resp.ErrorCode ≠ 0 then
        { sent := sent ++ [(webhookURL, message)],
          result := Except.ok (some (NotifyError.errorf
            (formatInt resp.ErrorCode ++ utf8 " " ++ resp.ErrorMessage))) }
      else Notify.send Send webhookURL messages (sent ++ [(webhookURL, message)])

/-- The function `Notify`, with `dingtalk.Send(http.DefaultClient, ·, ·)` as
the parameter `Send`. -/
def Notify {ε : Type} (Send : GoString → Message → Except ε Response)
    (webhookURL : GoString) (jobs : List Job) : NotifyRun ε :=
  match Notify.feedCardLinks jobs with
  | Except.error p => { sent := [], result := Except.error p }
  | Except.ok feedCardLinks =>
    Notify.send Send webhookURL
      [{ MsgType := utf8 "feedCard", FeedCard := some { Links := feedCardLinks },
         At := some { IsAtAll := true } }] []

/-- The function `Run` after the crawl: `pages` are the detail pages the
collector delivered. -/
def Run {ε : Type} (pages : List Document) (Send : GoString → Message → Except ε Response)
    (webhookURL : GoString) (keywords : List GoString) : NotifyRun ε :=
  match FetchJobs pages with
  | Except.error p => { sent := [], result := Except.error p }
  | Except.ok jobs =>
    let jobs := FilterJobs jobs keywords
    if jobs.length > 0 then Notify Send webhookURL jobs
    else { sent := [], result := Except.ok none }

/-! ## The specification's words, for comparison with the code -/

/-- Spec (Keyword Filter): the text blob of a job, `Provinces`, `Locations`,
`Categories`, `Subjects` in that order, joined by single ASCII spaces. -/
def Spec.blob (job : Job) : GoString :=
  List.intercalate [0x20] (job.Provinces ++ job.Locations ++ job.Categories ++ job.Subjects)

/-- Spec: the decimal digits of `n`, padded with zeros to `width` digits. -/
def Spec.pad : Nat → Nat → GoString
  | 0, _ => []
  | width + 1, n => Spec.pad width (n / 10) ++ [0x30 + n % 10]

/-- Spec: the text `YYYY-MM-DD` of a date. -/
def Spec.ymd (y m d : Nat) : GoString :=
  Spec.pad 4 y ++ [0x2D] ++ Spec.pad 2 m ++ [0x2D] ++ Spec.pad 2 d

/-- Spec: the leap years of the Gregorian calendar. -/
def Spec.isLeapYear (y : Nat) : Bool :=
  (y % 4 = 0 ∧ y % 100 ≠ 0) ∨ y % 400 = 0

/-- Spec: the number of days of month `m` of year `y`. -/
def Spec.daysInMonth (y m : Nat) : Nat :=
  match m with
  | 1 => 31
  | 2 => if Spec.isLeapYear y then 29 else 28
  | 3 => 31
  | 4 => 30
  | 5 => 31
  | 6 => 30
  | 7 => 31
  | 8 => 31
  | 9 => 30
  | 10 => 31
  | 11 => 30
  | 12 => 31
  | _ => 0

/-- Spec: a date of the calendar with a year of four digits. -/
def Spec.IsDate (y m d : Nat) : Prop :=
  y ≤ 9999 ∧ 1 ≤ m ∧ m ≤ 12 ∧ 1 ≤ d ∧ d ≤ Spec.daysInMonth y m

instance Spec.decidableIsDate (y m d : Nat) : Decidable (Spec.IsDate y m d) := by
  unfold Spec.IsDate
  infer_instance

/-- Spec: `s` writes the number `n` in one or two decimal digits. -/
def Spec.IsNumeral (s : GoString) (n : Nat) : Prop :=
  s = Spec.pad 2 n ∨ (n ≤ 9 ∧ s = Spec.pad 1 n)

/-- Spec: `value` is `<year>年<month>月<day>日` for the date `y`, `m`, `d`, the
year in four digits, month and day in one or two. -/
def Spec.IsCNDate (value : GoString) (y m d : Nat) : Prop :=
  ∃ ms ds, Spec.IsNumeral ms m ∧ Spec.IsNumeral ds d
    ∧ value = Spec.pad 4 y ++ utf8 "年" ++ ms ++ utf8 "月" ++ ds ++ utf8 "日"

/-- The days whose midnight the clock of Asia/Shanghai skipped: at 0:00 of
each the clock was set to 1:00. -/
def noMidnight : List (Nat × Nat × Nat) :=
  [(1919, 4, 13), (1940, 6, 1), (1941, 3, 15), (1942, 1, 31), (1946, 5, 15), (1947, 4, 15),
    (1948, 5, 1), (1949, 5, 1)]

/-! ## Example inputs -/

/-- A job with the given title and sequences and nothing else. -/
def Example.job (title : String) (categories provinces locations subjects : List String) : Job :=
  { URL := utf8 "http://www.gaoxiaojob.com/" ++ utf8 title, Title := utf8 title, Meta := [],
    Categories := categories.map utf8, Subjects := subjects.map utf8,
    Provinces := provinces.map utf8, Locations := locations.map utf8,
    PublishedAt := none, ExpireAt := none, Body := [] }

/-- Three jobs: in Beijing, in Shanghai, and in Beijing without a category. -/
def Example.jobs : List Job :=
  [Example.job "a" ["Education", "Engineering"] ["Beijing"] ["Haidian"] ["Physics"],
   Example.job "b" ["Research"] ["Shanghai"] [] [],
   Example.job "c" [] ["Beijing"] [] ["Engineering"]]

/-- A transport that answers every message with the error code 310000. -/
def Example.SendRefused : GoString → Message → Except GoString Response :=
  fun _ _ => Except.ok { ErrorCode := 310000, ErrorMessage := utf8 "keywords not in content" }

/-- A transport that fails. -/
def Example.SendDown : GoString → Message → Except GoString Response :=
  fun _ _ => Except.error (utf8 "dial tcp: i/o timeout")

/-- A transport that accepts every message. -/
def Example.SendOk : GoString → Message → Except GoString Response :=
  fun _ _ => Except.ok { ErrorCode := 0, ErrorMessage := utf8 "ok" }

/-- A detail page with three entries of metadata and the breadcrumb
home, `Education`, `Engineering`. -/
def Example.page : Document :=
  { url := utf8 "http://www.gaoxiaojob.com/zhaopin/1.html"
    position := [{ nthChild := 1, text := utf8 "首页" }, { nthChild := 2, text := utf8 "Education" },
      { nthChild := 3, text := utf8 "Engineering" }]
    title := utf8 "Lecturer"
    body := utf8 "..."
    fenlei := [utf8 "所属省份：Guangdong Fujian", utf8 " 发布时间： 2023-05-01 ",
      utf8 "工作地点：Shenzhen"] }

/-- A detail page whose breadcrumb has the home link only. -/
def Example.pageNoCategory : Document :=
  { Example.page with position := [{ nthChild := 1, text := utf8 "首页" }] }

/-- A detail page whose date of publication is no date. -/
def Example.pageBadDate : Document :=
  { Example.page with fenlei := [utf8 "发布时间：soon"] }

/-- A detail page published on 1 June 1940, a day without a midnight in
Asia/Shanghai. -/
def Example.pageNoMidnight : Document :=
  { Example.page with fenlei := [utf8 "发布时间：1940-06-01"] }

/-- A detail page with a closing date that does not parse. -/
def Example.pageBadExpiry : Document :=
  { Example.page with
    fenlei := [utf8 "发布时间：2023-05-01", utf8 "截止日期：详见正文"] }

/-- The map the metadata list of `Example.page` builds. -/
def Example.pageMeta : GoMap :=
  [(utf8 "工作地点", utf8 "Shenzhen"), (utf8 "发布时间", utf8 "2023-05-01"),
   (utf8 "所属省份", utf8 "Guangdong Fujian")]

/-- A metadata list with white space around labels and values, a value that
holds a colon, and a label that comes twice. -/
def Example.entries : List GoString :=
  [utf8 " 所属省份 ：Guangdong Fujian ", utf8 "备注：a：b", utf8 "所属省份：\tHainan"]

/-- A detail page with a closing date. -/
def Example.pageExpiry : Document :=
  { Example.page with
    fenlei := [utf8 "发布时间：2023-05-01", utf8 "截止日期：2023年6月30日"] }

/-- A detail page whose date of publication is no date and whose closing date
does not parse. -/
def Example.pageBadBoth : Document :=
  { Example.page with fenlei := [utf8 "发布时间：soon", utf8 "截止日期：详见正文"] }

/-- The job `FetchJobs` makes of `Example.pageNoCategory`. -/
def Example.jobNoCategory : Job :=
  { URL := utf8 "http://www.gaoxiaojob.com/zhaopin/1.html", Title := utf8 "Lecturer",
    Meta := Example.pageMeta, Categories := [], Subjects := [],
    Provinces := [utf8 "Guangdong", utf8 "Fujian"], Locations := [utf8 "Shenzhen"],
    PublishedAt := some (Date 2023 5 1 0 0 0 0 LOCATION), ExpireAt := none, Body := utf8 "..." }
/-! ## `FilterJobs` over the memory

`append` writes into the array of its first argument when the array has room
after the slice, and the four slices of a job may point into arrays that
other slices point into. The definitions above take the slices of a job as
the sequences of their elements, which is what `FilterJobs` sees when no slice
has room that another slice uses; the definitions below keep the arrays. -/

/-- A slice `[]string`: the array it points into (by its place in the
memory), the index of its first element in that array, its length and its
capacity. -/
structure Mem.Slice where
  array : Nat
  offset : Nat
  len : Nat
  cap : Nat
deriving DecidableEq

/-- The memory: the arrays of strings that slices point into. -/
abbrev Mem.Memory := List (List GoString)

/-- The nil slice. -/
def Mem.Slice.nil : Mem.Slice :=
  { array := 0, offset := 0, len := 0, cap := 0 }

/-- The elements of the slice `s`: `s[0]`, ..., `s[len(s)-1]`. -/
def Mem.Slice.read (mem : Mem.Memory) (s : Mem.Slice) : List GoString :=
  ((mem.getD s.array []).drop s.offset).take s.len

/-- The call `append(s, xs...)`: when the capacity of `s` holds the elements
of `xs` as well, they are written into the array of `s` after its last
element and the result is `s` with the greater length; otherwise a new array
is made that holds the elements of `s` and then those of `xs`, and the result
points to it. (The capacity of a new array, which the runtime chooses, plays
no part in `FilterJobs`: nothing is appended to such a result.) -/
def Mem.append (mem : Mem.Memory) (s : Mem.Slice) (xs : List GoString) : Mem.Memory × Mem.Slice :=
  if s.len + xs.length ≤ s.cap then
    let array := mem.getD s.array []
    (mem.set s.array
        (array.take (s.offset + s.len) ++ xs ++ array.drop (s.offset + s.len + xs.length)),
      { s with len := s.len + xs.length })
  else
    (mem ++ [s.read mem ++ xs],
      { array := mem.length, offset := 0, len := s.len + xs.length, cap := s.len + xs.length })

/-- The struct `Job`, its four sequences as slices. -/
structure Mem.Job where
  URL : GoString
  Title : GoString
  Meta : GoMap
  Categories : Mem.Slice
  Subjects : Mem.Slice
  Provinces : Mem.Slice
  Locations : Mem.Slice
  PublishedAt : Option Time
  ExpireAt : Option Time
  Body : GoString
deriving DecidableEq

/-- The job with the elements of its slices, as the memory holds them. -/
def Mem.Job.read (mem : Mem.Memory) (job : Mem.Job) : Gaoxiaojob.Job :=
  { URL := job.URL, Title := job.Title, Meta := job.Meta,
    Categories := job.Categories.read mem, Subjects := job.Subjects.read mem,
    Provinces := job.Provinces.read mem, Locations := job.Locations.read mem,
    PublishedAt := job.PublishedAt, ExpireAt := job.ExpireAt, Body := job.Body }

/-- The text `FilterJobs` searches for one job, and the memory after it is
made: `strings.Join(append(job.Provinces, append(job.Locations,
append(job.Categories, append(job.Subjects)...)...)...), " ")`, the innermost
`append` first. -/
def Mem.FilterJobs.text (mem : Mem.Memory) (job : Mem.Job) : Mem.Memory × GoString :=
  let subjects := Mem.append mem job.Subjects []
  let categories := Mem.append subjects.1 job.Categories (subjects.2.read subjects.1)
  let locations := Mem.append categories.1 job.Locations (categories.2.read categories.1)
  let provinces := Mem.append locations.1 job.Provinces (locations.2.read locations.1)
  (provinces.1, Join (provinces.2.read provinces.1) (utf8 " "))

/-- The function `FilterJobs` over the memory: the memory it leaves and the
jobs it returns. The jobs are pointers in the source; `FilterJobs` changes no
field of a job, so they are taken as the values they point to. -/
def Mem.FilterJobs (mem : Mem.Memory) (jobs : List Mem.Job) (keywords : List GoString) :
    Mem.Memory × List Mem.Job :=
  if keywords.length = 0 then (mem, jobs)
  else
    jobs.foldl (fun (state : Mem.Memory × List Mem.Job) job =>
      let text := Mem.FilterJobs.text state.1 job
      (text.1, keywords.foldl (fun filteredJobs keyword =>
        if Contains text.2 keyword then filteredJobs ++ [job] else filteredJobs)
        state.2)) (mem, [])

/-- A memory with two arrays: one of three strings, one of one. -/
def Example.memory : Mem.Memory :=
  [[utf8 "Hebei", utf8 "Physics", utf8 ""], [utf8 "Beijing"]]

/-- A job whose `Provinces` and `Subjects` point into the same array:
`arr := []string{"Hebei", "Physics", ""}`, `Provinces: arr[0:1]`,
`Subjects: arr[1:2]`, `Locations: []string{"Beijing"}`, no category. -/
def Example.jobShared : Mem.Job :=
  { URL := utf8 "http://www.gaoxiaojob.com/zhaopin/2.html", Title := utf8 "Physicist", Meta := [],
    Categories := Mem.Slice.nil,
    Subjects := { array := 0, offset := 1, len := 1, cap := 2 },
    Provinces := { array := 0, offset := 0, len := 1, cap := 3 },
    Locations := { array := 1, offset := 0, len := 1, cap := 1 },
    PublishedAt := none, ExpireAt := none, Body := [] }

/-- The four slices of a job. -/
def Mem.Job.slices (job : Mem.Job) : List Mem.Slice :=
  [job.Provinces, job.Locations, job.Categories, job.Subjects]

/-- The slice `s` lies within its array: its length is at most its capacity
and its capacity ends where the array ends or before. -/
def Mem.Slice.Valid (mem : Mem.Memory) (s : Mem.Slice) : Prop :=
  s.len ≤ s.cap ∧ s.offset + s.cap ≤ (mem.getD s.array []).length

instance Mem.Slice.decidableValid (mem : Mem.Memory) (s : Mem.Slice) :
    Decidable (Mem.Slice.Valid mem s) := by
  unfold Mem.Slice.Valid
  infer_instance

/-- The room the slice `s` has after its last element holds no element of the
slice `t`: they point into different arrays, or `s` has no room, or `t` has no
element, or the elements of `t` end before the room or start after it. -/
def Mem.Slice.Private (s t : Mem.Slice) : Prop :=
  s.array ≠ t.array ∨ s.cap ≤ s.len ∨ t.len = 0 ∨ t.offset + t.len ≤ s.offset + s.len
    ∨ s.offset + s.cap ≤ t.offset

instance Mem.Slice.decidablePrivate (s t : Mem.Slice) : Decidable (Mem.Slice.Private s t) := by
  unfold Mem.Slice.Private
  infer_instance

/-- A memory with four arrays: the categories of a job in an array with room
for four (as `append` leaves it after three calls), and three arrays that are
full. -/
def Example.memoryPrivate : Mem.Memory :=
  [[utf8 "Education", utf8 "Engineering", utf8 "", utf8 ""], [utf8 "Beijing"],
    [utf8 "Haidian"], [utf8 "Physics", utf8 "Chemistry"]]

/-- A job whose slices point into arrays of their own; `Categories` has room
for two more elements. -/
def Example.jobPrivate : Mem.Job :=
  { URL := utf8 "http://www.gaoxiaojob.com/zhaopin/3.html", Title := utf8 "Lecturer", Meta := [],
    Categories := { array := 0, offset := 0, len := 2, cap := 4 },
    Subjects := { array := 3, offset := 0, len := 2, cap := 2 },
    Provinces := { array := 1, offset := 0, len := 1, cap := 1 },
    Locations := { array := 2, offset := 0, len := 1, cap := 1 },
    PublishedAt := none, ExpireAt := none, Body := [] }


/-! ## Facts about the string functions -/

theorem HasPrefix_iff (s p : GoString) : HasPrefix s p = true ↔ p <+: s := by
  simp [HasPrefix]

theorem Index_isSome_iff (s substr : GoString) :
    (Index s substr).isSome = true ↔ substr <:+: s := by
  induction s with
  | nil =>
    unfold Index
    by_cases h : HasPrefix [] substr = true
    · have h2 := (HasPrefix_iff _ _).1 h
      simp [h, h2.isInfix]
    · have h2 : ¬ substr <+: [] := fun hp => h ((HasPrefix_iff _ _).2 hp)
      simp only [h, if_false, Option.isSome_none, Bool.false_eq_true, false_iff]
      intro hi
      have : substr = [] := List.infix_nil.1 hi
      exact h2 (this ▸ List.prefix_refl _)
  | cons c s ih =>
    unfold Index
    by_cases h : HasPrefix (c :: s) substr = true
    · have h2 := (HasPrefix_iff _ _).1 h
      simp [h, h2.isInfix]
    · have h2 : ¬ substr <+: c :: s := fun hp => h ((HasPrefix_iff _ _).2 hp)
      simp only [h, if_false, Option.isSome_map', ih, Bool.false_eq_true]
      rw [List.infix_cons_iff]
      tauto

theorem Contains_iff (s substr : GoString) : Contains s substr = true ↔ substr <:+: s := by
  unfold Contains
  exact Index_isSome_iff s substr

theorem Contains_eq_decide (s substr : GoString) :
    Contains s substr = decide (substr <:+: s) := by
  by_cases h : substr <:+: s
  · simp [h, (Contains_iff s substr).2 h]
  · have : ¬ Contains s substr = true := fun hc => h ((Contains_iff s substr).1 hc)
    simp [h, this]

theorem Join_eq_intercalate (elems : List GoString) (sep : GoString) :
    Join elems sep = sep.intercalate elems := by
  induction elems with
  | nil => rfl
  | cons a rest ih =>
    cases rest with
    | nil => simp [Join, List.intercalate]
    | cons b rest =>
      rw [Join, ih]
      simp [List.intercalate, List.intersperse]

theorem utf8_space : utf8 " " = [0x20] := by decide

/-! ## `FilterJobs` -/

theorem FilterJobs_inner {α : Type} (job : α) (c : GoString → Bool) (keywords : List GoString)
    (acc : List α) :
    keywords.foldl (fun filteredJobs keyword =>
        if c keyword then filteredJobs ++ [job] else filteredJobs) acc
      = acc ++ List.replicate (keywords.countP c) job := by
  induction keywords generalizing acc with
  | nil => simp
  | cons k ks ih =>
    rw [List.foldl_cons, ih]
    by_cases hk : c k = true
    · simp [hk, List.replicate_succ]
    · simp [hk]

theorem FilterJobs_outer (g : Job → List Job) (jobs : List Job) (acc : List Job) :
    jobs.foldl (fun filteredJobs job => filteredJobs ++ g job) acc
      = acc ++ jobs.flatMap g := by
  induction jobs generalizing acc with
  | nil => simp
  | cons j js ih =>
    rw [List.foldl_cons, ih]
    simp

theorem FilterJobs_no_keywords_aux (jobs : List Job) : FilterJobs jobs [] = jobs := by
  simp [FilterJobs]

theorem FilterJobs_text_eq (job : Job) : FilterJobs.text job = Spec.blob job := by
  unfold FilterJobs.text Spec.blob
  rw [Join_eq_intercalate, utf8_space]
  simp

theorem FilterJobs_eq (jobs : List Job) (keywords : List GoString) (h : keywords ≠ []) :
    FilterJobs jobs keywords
      = jobs.flatMap (fun job =>
          List.replicate
            (keywords.countP (fun keyword => decide (keyword <:+: Spec.blob job))) job) := by
  unfold FilterJobs
  have hl : ¬ keywords.length = 0 := by
    intro h0
    exact h (List.length_eq_zero.1 h0)
  rw [if_neg hl]
  have := FilterJobs_outer (fun job =>
          List.replicate
            (keywords.countP (fun keyword => decide (keyword <:+: Spec.blob job))) job) jobs []
  simp only [List.nil_append] at this
  rw [← this]
  congr 1
  funext filteredJobs job
  have hi := FilterJobs_inner job (fun keyword => Contains (FilterJobs.text job) keyword)
    keywords filteredJobs
  simp only [Contains_eq_decide, FilterJobs_text_eq] at hi
  simpa only [Contains_eq_decide, FilterJobs_text_eq] using hi

theorem count_flatMap_replicate {α : Type} [DecidableEq α] (f : α → Nat) (job : α)
    (jobs : List α) :
    (jobs.flatMap (fun j => List.replicate (f j) j)).count job = jobs.count job * f job := by
  induction jobs with
  | nil => simp
  | cons j js ih =>
    rw [List.flatMap_cons, List.count_append, ih, List.count_replicate, List.count_cons]
    by_cases hj : j = job
    · subst hj
      simp [Nat.add_mul, Nat.add_comm]
    · have hj2 : ¬ (j == job) = true := by simpa using hj
      simp [hj, hj2]

theorem flatMap_replicate_single {α : Type} (c : α → Bool) (jobs : List α) :
    jobs.flatMap (fun j => List.replicate ([()].countP (fun _ => c j)) j) = jobs.filter c := by
  induction jobs with
  | nil => simp
  | cons j js ih =>
    rw [List.flatMap_cons, ih]
    by_cases hj : c j = true <;> simp [hj, List.countP_cons]

/-- On jobs taken as values, and with a non-empty keyword list, `FilterJobs`
returns, in the order of the jobs, each job once per keyword position whose
keyword is a substring of the job's blob (provinces, locations, categories,
subjects, joined by single spaces). So a job matching `m` keyword positions
appears `m` times for each time it is in the input, and with a single keyword
the result is the sub-list of the jobs whose blob contains it. -/
theorem FilterJobs_once_per_matching_keyword (jobs : List Job) (keywords : List GoString)
    (h : keywords ≠ []) :
    FilterJobs jobs keywords
        = jobs.flatMap (fun job =>
            List.replicate
              (keywords.countP (fun keyword => decide (keyword <:+: Spec.blob job))) job)
      ∧ (∀ job, (FilterJobs jobs keywords).count job
          = jobs.count job
              * keywords.countP (fun keyword => decide (keyword <:+: Spec.blob job)))
      ∧ (∀ keyword, keywords = [keyword] →
          FilterJobs jobs keywords
            = jobs.filter (fun job => decide (keyword <:+: Spec.blob job))) := by
  refine ⟨FilterJobs_eq jobs keywords h, ?_, ?_⟩
  · intro job
    rw [FilterJobs_eq jobs keywords h]
    exact count_flatMap_replicate _ job jobs
  · intro keyword hk
    subst hk
    rw [FilterJobs_eq jobs [keyword] h]
    induction jobs with
    | nil => simp
    | cons j js ih =>
      rw [List.flatMap_cons, ih]
      by_cases hj : keyword <:+: Spec.blob j <;> simp [hj, List.countP_cons]

/-- At three jobs and the keywords `Beijing`, `Physics`, `Beijing`: the first
job matches all three positions, the second none, the third two. -/
theorem FilterJobs_once_per_matching_keyword_witness :
    [utf8 "Beijing", utf8 "Physics", utf8 "Beijing"] ≠ []
      ∧ FilterJobs Example.jobs [utf8 "Beijing", utf8 "Physics", utf8 "Beijing"]
          = [Example.job "a" ["Education", "Engineering"] ["Beijing"] ["Haidian"] ["Physics"],
             Example.job "a" ["Education", "Engineering"] ["Beijing"] ["Haidian"] ["Physics"],
             Example.job "a" ["Education", "Engineering"] ["Beijing"] ["Haidian"] ["Physics"],
             Example.job "c" [] ["Beijing"] [] ["Engineering"],
             Example.job "c" [] ["Beijing"] [] ["Engineering"]] :=
  ⟨by decide,
   ((FilterJobs_once_per_matching_keyword Example.jobs
      [utf8 "Beijing", utf8 "Physics", utf8 "Beijing"] (by decide)).1).trans (by decide)⟩

/-- C2. With no keyword `FilterJobs` returns the jobs as they are. -/
theorem FilterJobs_no_keywords (jobs : List Job) : FilterJobs jobs [] = jobs := by
  simp [FilterJobs]



theorem getD_set_eq {α : Type} (μ : List (List α)) (i j : Nat) (v : List α) :
    (μ.set i v).getD j [] = if i = j ∧ i < μ.length then v else μ.getD j [] := by
  induction μ generalizing i j with
  | nil => simp
  | cons a μ ih =>
    cases i with
    | zero =>
      cases j with
      | zero => simp
      | succ j => simp
    | succ i =>
      cases j with
      | zero => simp
      | succ j =>
        simp only [List.set_cons_succ, List.getD_cons_succ, ih, List.length_cons,
          Nat.succ_lt_succ_iff, Nat.succ_inj']

theorem write_length {α : Type} (arr xs : List α) (a : Nat) (h : a + xs.length ≤ arr.length) :
    (arr.take a ++ xs ++ arr.drop (a + xs.length)).length = arr.length := by
  simp only [List.length_append, List.length_take, List.length_drop]
  omega

theorem write_get {α : Type} (arr xs : List α) (a : Nat) (h : a + xs.length ≤ arr.length)
    (i : Nat) :
    (arr.take a ++ xs ++ arr.drop (a + xs.length))[i]?
      = if i < a then arr[i]? else if i < a + xs.length then xs[i - a]? else arr[i]? := by
  have ha : (arr.take a).length = a := by
    rw [List.length_take]
    omega
  by_cases h1 : i < a
  · rw [if_pos h1, List.append_assoc, List.getElem?_append_left (by omega),
      List.getElem?_take_of_lt h1]
  · rw [if_neg h1, List.append_assoc, List.getElem?_append_right (by omega), ha]
    by_cases h2 : i < a + xs.length
    · rw [if_pos h2, List.getElem?_append_left (by omega)]
    · rw [if_neg h2, List.getElem?_append_right (by omega), List.getElem?_drop]
      congr 1
      omega

theorem read_get {α : Type} (arr : List α) (o l i : Nat) :
    ((arr.drop o).take l)[i]? = if i < l then arr[o + i]? else none := by
  by_cases h : i < l
  · rw [if_pos h, List.getElem?_take_of_lt h, List.getElem?_drop]
  · rw [if_neg h, List.getElem?_take_eq_none (by omega)]

theorem write_frame {α : Type} (arr xs : List α) (a o l : Nat)
    (h : a + xs.length ≤ arr.length) (hd : l = 0 ∨ o + l ≤ a ∨ a + xs.length ≤ o) :
    ((arr.take a ++ xs ++ arr.drop (a + xs.length)).drop o).take l = (arr.drop o).take l := by
  apply List.ext_getElem?
  intro i
  rw [read_get, read_get, write_get arr xs a h]
  by_cases hi : i < l
  · rw [if_pos hi, if_pos hi]
    rcases hd with hd | hd | hd
    · omega
    · rw [if_pos (by omega)]
    · rw [if_neg (by omega), if_neg (by omega)]
  · rw [if_neg hi, if_neg hi]

theorem write_read {α : Type} (arr xs : List α) (o l : Nat)
    (h : o + l + xs.length ≤ arr.length) :
    ((arr.take (o + l) ++ xs ++ arr.drop (o + l + xs.length)).drop o).take (l + xs.length)
      = (arr.drop o).take l ++ xs := by
  apply List.ext_getElem?
  intro i
  rw [read_get, write_get arr xs (o + l) h]
  have hl : ((arr.drop o).take l).length = l := by
    rw [List.length_take, List.length_drop]
    omega
  by_cases hi : i < l
  · rw [if_pos (by omega), if_pos (by omega), List.getElem?_append_left (by omega),
      read_get, if_pos hi]
  · rw [List.getElem?_append_right (by omega), hl]
    by_cases h2 : i < l + xs.length
    · rw [if_pos h2, if_neg (by omega), if_pos (by omega)]
      congr 1
      omega
    · rw [if_neg h2, List.getElem?_eq_none (by omega)]

theorem append_read (mem : Mem.Memory) (s : Mem.Slice) (xs : List GoString)
    (hv : s.Valid mem) :
    (Mem.append mem s xs).2.read (Mem.append mem s xs).1 = s.read mem ++ xs := by
  obtain ⟨h1, h2⟩ := hv
  unfold Mem.append
  by_cases hc : s.len + xs.length ≤ s.cap
  · rw [if_pos hc]
    simp only [Mem.Slice.read, getD_set_eq, true_and]
    by_cases hi : s.array < mem.length
    · rw [if_pos hi]
      exact write_read _ xs s.offset s.len (by omega)
    · rw [if_neg hi]
      have hnil : mem.getD s.array [] = [] := by
        rw [List.getD_eq_default]
        omega
      rw [hnil] at h2 ⊢
      simp only [List.length_nil] at h2
      have hx : xs = [] := List.length_eq_zero.1 (by omega)
      subst hx
      simp
  · rw [if_neg hc]
    simp only [Mem.Slice.read, List.drop_zero]
    have hg : (mem ++ [List.take s.len (List.drop s.offset (mem.getD s.array [])) ++ xs]).getD
        mem.length [] = List.take s.len (List.drop s.offset (mem.getD s.array [])) ++ xs := by
      rw [List.getD_append_right _ _ _ _ (le_refl _)]
      simp
    rw [hg]
    apply List.take_of_length_le
    simp only [List.length_append, List.length_take, List.length_drop]
    omega

theorem append_frame (mem : Mem.Memory) (s t : Mem.Slice) (xs : List GoString)
    (hs : s.Valid mem) (ht : t.Valid mem) (hp : s.Private t) :
    t.read (Mem.append mem s xs).1 = t.read mem ∧ t.Valid (Mem.append mem s xs).1 := by
  obtain ⟨s1, s2⟩ := hs
  obtain ⟨t1, t2⟩ := ht
  unfold Mem.append
  by_cases hc : s.len + xs.length ≤ s.cap
  · rw [if_pos hc]
    simp only [Mem.Slice.read, Mem.Slice.Valid, getD_set_eq]
    by_cases hi : s.array = t.array ∧ s.array < mem.length
    · rw [if_pos hi, ← hi.1]
      rw [← hi.1] at t2
      by_cases hn : xs = []
      · subst hn
        simp only [List.append_nil, List.length_nil, Nat.add_zero, List.take_append_drop]
        exact ⟨trivial, t1, t2⟩
      · have hpos : 0 < xs.length := List.length_pos.2 hn
        refine ⟨write_frame _ xs _ _ _ (by omega) ?_, t1, ?_⟩
        · rcases hp with hp | hp | hp | hp | hp
          · exact absurd hi.1 hp
          · omega
          · exact Or.inl hp
          · exact Or.inr (Or.inl hp)
          · exact Or.inr (Or.inr (by omega))
        · rw [write_length _ xs _ (by omega)]
          exact t2
    · rw [if_neg hi]
      exact ⟨rfl, t1, t2⟩
  · rw [if_neg hc]
    simp only [Mem.Slice.read, Mem.Slice.Valid]
    by_cases hi : t.array < mem.length
    · rw [List.getD_append _ _ _ _ hi]
      exact ⟨rfl, t1, t2⟩
    · have hnil : mem.getD t.array [] = [] := by
        rw [List.getD_eq_default]
        omega
      rw [hnil] at t2 ⊢
      simp only [List.length_nil] at t2
      have h0 : t.len = 0 := by omega
      have h1 : t.offset = 0 := by omega
      have h2 : t.cap = 0 := by omega
      rw [h0, h1, h2]
      simp

theorem append_keeps (mem : Mem.Memory) (jobs : List Mem.Job) (s : Mem.Slice)
    (xs : List GoString) (job : Mem.Job) (hj : job ∈ jobs) (hs : s ∈ job.slices)
    (hp : ∀ job ∈ jobs, ∀ s ∈ job.slices, ∀ job2 ∈ jobs, ∀ t ∈ job2.slices, s.Private t)
    (mem0 : Mem.Memory)
    (hv : ∀ job ∈ jobs, ∀ t ∈ job.slices, t.read mem = t.read mem0 ∧ t.Valid mem) :
    (Mem.append mem s xs).2.read (Mem.append mem s xs).1 = s.read mem0 ++ xs
      ∧ ∀ job ∈ jobs, ∀ t ∈ job.slices,
          t.read (Mem.append mem s xs).1 = t.read mem0 ∧ t.Valid (Mem.append mem s xs).1 := by
  constructor
  · rw [append_read mem s xs (hv job hj s hs).2, (hv job hj s hs).1]
  · intro job2 hj2 t ht
    obtain ⟨h1, h2⟩ := append_frame mem s t xs (hv job hj s hs).2 (hv job2 hj2 t ht).2
      (hp job hj s hs job2 hj2 t ht)
    exact ⟨h1.trans (hv job2 hj2 t ht).1, h2⟩

theorem text_keeps (mem : Mem.Memory) (jobs : List Mem.Job) (job : Mem.Job) (hj : job ∈ jobs)
    (hp : ∀ job ∈ jobs, ∀ s ∈ job.slices, ∀ job2 ∈ jobs, ∀ t ∈ job2.slices, s.Private t)
    (mem0 : Mem.Memory)
    (hv : ∀ job ∈ jobs, ∀ t ∈ job.slices, t.read mem = t.read mem0 ∧ t.Valid mem) :
    (Mem.FilterJobs.text mem job).2 = FilterJobs.text (job.read mem0)
      ∧ ∀ job2 ∈ jobs, ∀ t ∈ job2.slices,
          t.read (Mem.FilterJobs.text mem job).1 = t.read mem0
            ∧ t.Valid (Mem.FilterJobs.text mem job).1 := by
  have hS : job.Subjects ∈ job.slices :=
    List.mem_cons_of_mem _ (List.mem_cons_of_mem _ (List.mem_cons_of_mem _
      (List.mem_cons_self _ _)))
  have hC : job.Categories ∈ job.slices :=
    List.mem_cons_of_mem _ (List.mem_cons_of_mem _ (List.mem_cons_self _ _))
  have hL : job.Locations ∈ job.slices := List.mem_cons_of_mem _ (List.mem_cons_self _ _)
  have hP : job.Provinces ∈ job.slices := List.mem_cons_self _ _
  have k1 := append_keeps mem jobs job.Subjects [] job hj hS hp mem0 hv
  have t1 : Mem.FilterJobs.text mem job
      = (let subjects := Mem.append mem job.Subjects []
        let categories := Mem.append subjects.1 job.Categories (subjects.2.read subjects.1)
        let locations := Mem.append categories.1 job.Locations (categories.2.read categories.1)
        let provinces := Mem.append locations.1 job.Provinces (locations.2.read locations.1)
        (provinces.1, Join (provinces.2.read provinces.1) (utf8 " "))) := by
    unfold Mem.FilterJobs.text
    rfl
  rw [t1]
  dsimp only
  generalize Mem.append mem job.Subjects [] = a1 at k1 ⊢
  have k2 := append_keeps a1.1 jobs job.Categories (a1.2.read a1.1) job hj hC hp mem0 k1.2
  generalize Mem.append a1.1 job.Categories (a1.2.read a1.1) = a2 at k2 ⊢
  have k3 := append_keeps a2.1 jobs job.Locations (a2.2.read a2.1) job hj hL hp mem0 k2.2
  generalize Mem.append a2.1 job.Locations (a2.2.read a2.1) = a3 at k3 ⊢
  have k4 := append_keeps a3.1 jobs job.Provinces (a3.2.read a3.1) job hj hP hp mem0 k3.2
  generalize Mem.append a3.1 job.Provinces (a3.2.read a3.1) = a4 at k4 ⊢
  refine ⟨?_, k4.2⟩
  show Join (a4.2.read a4.1) (utf8 " ") = FilterJobs.text (job.read mem0)
  rw [k4.1, k3.1, k2.1, k1.1, List.append_nil]
  rfl

theorem FilterJobs_keeps (jobs : List Mem.Job) (keywords : List GoString)
    (hp : ∀ job ∈ jobs, ∀ s ∈ job.slices, ∀ job2 ∈ jobs, ∀ t ∈ job2.slices, s.Private t)
    (mem0 : Mem.Memory) :
    ∀ (rest : List Mem.Job) (mem : Mem.Memory) (acc : List Mem.Job),
      (∀ job ∈ rest, job ∈ jobs) →
      (∀ job ∈ jobs, ∀ t ∈ job.slices, t.read mem = t.read mem0 ∧ t.Valid mem) →
      (rest.foldl (fun (state : Mem.Memory × List Mem.Job) job =>
          let text := Mem.FilterJobs.text state.1 job
          (text.1, keywords.foldl (fun filteredJobs keyword =>
            if Contains text.2 keyword then filteredJobs ++ [job] else filteredJobs)
            state.2)) (mem, acc)).2
        = acc ++ rest.flatMap (fun job =>
            List.replicate
              (keywords.countP (fun keyword => decide (keyword <:+: Spec.blob (job.read mem0))))
              job)
      ∧ ∀ job ∈ jobs, ∀ t ∈ job.slices,
          t.read (rest.foldl (fun (state : Mem.Memory × List Mem.Job) job =>
            let text := Mem.FilterJobs.text state.1 job
            (text.1, keywords.foldl (fun filteredJobs keyword =>
              if Contains text.2 keyword then filteredJobs ++ [job] else filteredJobs)
              state.2)) (mem, acc)).1 = t.read mem0
  | [], mem, acc, _, hv => by
    simp only [List.foldl_nil, List.flatMap_nil, List.append_nil, true_and]
    exact fun job hj t ht => (hv job hj t ht).1
  | job :: rest, mem, acc, hr, hv => by
    obtain ⟨ht, hk⟩ := text_keeps mem jobs job (hr job (List.mem_cons_self _ _)) hp mem0 hv
    rw [List.foldl_cons]
    dsimp only
    rw [ht, FilterJobs_inner]
    have ih := FilterJobs_keeps jobs keywords hp mem0 rest (Mem.FilterJobs.text mem job).1
      (acc ++ List.replicate
        (keywords.countP (fun keyword => Contains (FilterJobs.text (job.read mem0)) keyword)) job)
      (fun j hj => hr j (List.mem_cons_of_mem _ hj)) hk
    refine ⟨?_, ih.2⟩
    rw [ih.1, List.flatMap_cons, List.append_assoc]
    simp only [Contains_eq_decide, FilterJobs_text_eq]

theorem map_flatMap_replicate {α β : Type} (f : α → β) (n : β → Nat) (jobs : List α) :
    (jobs.flatMap (fun j => List.replicate (n (f j)) j)).map f
      = (jobs.map f).flatMap (fun j => List.replicate (n j) j) := by
  induction jobs with
  | nil => simp
  | cons j js ih =>
    rw [List.flatMap_cons, List.map_append, ih, List.map_cons, List.flatMap_cons,
      List.map_replicate]

/-- X2 (C1 for job lists whose slices have room of their own). When no slice
of a job of the list has room that holds an element of a slice of a job of
the list, `FilterJobs` over the memory returns, for a
non-empty keyword list and in the order of the jobs, each job once per
keyword position whose keyword is a substring of the job's blob, as the
memory held it at the call; so a job matching `m` keyword positions appears
`m` times for each time it is in the list, and with a single keyword the
result is the sub-list of the jobs whose blob contains it. It is what
`FilterJobs` on the jobs as values returns, and the call leaves the elements
of every slice of the jobs as they were. -/
theorem FilterJobs_private_capacity (mem : Mem.Memory) (jobs : List Mem.Job)
    (keywords : List GoString) (hk : keywords ≠ [])
    (hv : ∀ job ∈ jobs, ∀ s ∈ job.slices, s.Valid mem)
    (hp : ∀ job ∈ jobs, ∀ s ∈ job.slices, ∀ job2 ∈ jobs, ∀ t ∈ job2.slices, s.Private t) :
    (Mem.FilterJobs mem jobs keywords).2
        = jobs.flatMap (fun job =>
            List.replicate
              (keywords.countP (fun keyword => decide (keyword <:+: Spec.blob (job.read mem))))
              job)
      ∧ (∀ job, (Mem.FilterJobs mem jobs keywords).2.count job
          = jobs.count job
              * keywords.countP (fun keyword => decide (keyword <:+: Spec.blob (job.read mem))))
      ∧ (∀ keyword, keywords = [keyword] →
          (Mem.FilterJobs mem jobs keywords).2
            = jobs.filter (fun job => decide (keyword <:+: Spec.blob (job.read mem))))
      ∧ (Mem.FilterJobs mem jobs keywords).2.map (Mem.Job.read mem)
          = FilterJobs (jobs.map (Mem.Job.read mem)) keywords
      ∧ ∀ job ∈ jobs, job.read (Mem.FilterJobs mem jobs keywords).1 = job.read mem := by
  have hl : ¬ keywords.length = 0 := fun h0 => hk (List.length_eq_zero.1 h0)
  obtain ⟨h1, h2⟩ := FilterJobs_keeps jobs keywords hp mem jobs mem [] (fun _ h => h)
    (fun job hj t ht => ⟨rfl, hv job hj t ht⟩)
  have e : (Mem.FilterJobs mem jobs keywords).2
      = jobs.flatMap (fun job =>
          List.replicate
            (keywords.countP (fun keyword => decide (keyword <:+: Spec.blob (job.read mem))))
            job) := by
    unfold Mem.FilterJobs
    rw [if_neg hl, h1, List.nil_append]
  refine ⟨e, ?_, ?_, ?_, ?_⟩
  · intro job
    rw [e]
    exact count_flatMap_replicate _ job jobs
  · intro keyword hkw
    subst hkw
    rw [e]
    exact flatMap_replicate_single (fun job => decide (keyword <:+: Spec.blob (job.read mem))) jobs
  · rw [e, FilterJobs_eq _ keywords hk]
    exact map_flatMap_replicate (Mem.Job.read mem)
      (fun job => keywords.countP (fun keyword => decide (keyword <:+: Spec.blob job))) jobs
  · intro job hj
    unfold Mem.FilterJobs
    rw [if_neg hl]
    unfold Mem.Job.read
    rw [h2 job hj job.Categories (List.mem_cons_of_mem _ (List.mem_cons_of_mem _
        (List.mem_cons_self _ _))),
      h2 job hj job.Subjects (List.mem_cons_of_mem _ (List.mem_cons_of_mem _
        (List.mem_cons_of_mem _ (List.mem_cons_self _ _)))),
      h2 job hj job.Provinces (List.mem_cons_self _ _),
      h2 job hj job.Locations (List.mem_cons_of_mem _ (List.mem_cons_self _ _))]

/-- X2 at the list of `Example.jobPrivate` twice and the keywords `Physics`,
`Law`, `Beijing`: the job comes twice for each time it is in the list, and
the call has written the subjects into the room after its categories. -/
theorem FilterJobs_private_capacity_witness :
    [utf8 "Physics", utf8 "Law", utf8 "Beijing"] ≠ []
      ∧ (∀ job ∈ [Example.jobPrivate, Example.jobPrivate], ∀ s ∈ job.slices,
          s.Valid Example.memoryPrivate)
      ∧ (∀ job ∈ [Example.jobPrivate, Example.jobPrivate], ∀ s ∈ job.slices,
          ∀ job2 ∈ [Example.jobPrivate, Example.jobPrivate], ∀ t ∈ job2.slices, s.Private t)
      ∧ (Mem.FilterJobs Example.memoryPrivate [Example.jobPrivate, Example.jobPrivate]
          [utf8 "Physics", utf8 "Law", utf8 "Beijing"]).2
          = [Example.jobPrivate, Example.jobPrivate, Example.jobPrivate, Example.jobPrivate]
      ∧ (Mem.FilterJobs Example.memoryPrivate [Example.jobPrivate, Example.jobPrivate]
          [utf8 "Physics", utf8 "Law", utf8 "Beijing"]).1.getD 0 []
          = [utf8 "Education", utf8 "Engineering", utf8 "Physics", utf8 "Chemistry"] :=
  ⟨by decide, by decide, by decide,
   ((FilterJobs_private_capacity Example.memoryPrivate [Example.jobPrivate, Example.jobPrivate]
      [utf8 "Physics", utf8 "Law", utf8 "Beijing"] (by decide) (by decide) (by decide)).1).trans
      (by decide),
   by decide⟩


/-- C1 fails where `append` writes into room that another slice uses. The job
`Example.jobShared` has the province `Hebei`, the location `Beijing` and the
subject `Physics`, so its blob is `Hebei Beijing Physics`, which holds the
keyword `Physics`; its `Provinces` and its `Subjects` point into one array,
`Provinces` with room for two more elements. `FilterJobs` of the list that
holds the job twice and of the keyword `Physics` returns the job once, not
twice: the first round searches `Hebei Beijing Physics` and writes `Beijing`
and `Physics` after `Hebei`, over the subject; the second round finds the
subject `Beijing` and searches `Hebei Beijing Beijing`. `FilterJobs` on the
jobs as values returns the job twice. -/
theorem FilterJobs_append_overwrites :
    Example.jobShared.Provinces.read Example.memory = [utf8 "Hebei"]
      ∧ Example.jobShared.Locations.read Example.memory = [utf8 "Beijing"]
      ∧ Example.jobShared.Categories.read Example.memory = []
      ∧ Example.jobShared.Subjects.read Example.memory = [utf8 "Physics"]
      ∧ Spec.blob (Example.jobShared.read Example.memory) = utf8 "Hebei Beijing Physics"
      ∧ Contains (utf8 "Hebei Beijing Physics") (utf8 "Physics") = true
      ∧ (Mem.FilterJobs Example.memory [Example.jobShared, Example.jobShared]
          [utf8 "Physics"]).2 = [Example.jobShared]
      ∧ (Mem.FilterJobs.text Example.memory Example.jobShared).2 = utf8 "Hebei Beijing Physics"
      ∧ (Mem.FilterJobs.text Example.memory Example.jobShared).1
          = [[utf8 "Hebei", utf8 "Beijing", utf8 "Physics"], [utf8 "Beijing"], [utf8 "Physics"],
              [utf8 "Beijing", utf8 "Physics"]]
      ∧ (Mem.FilterJobs.text (Mem.FilterJobs.text Example.memory Example.jobShared).1
            Example.jobShared).2 = utf8 "Hebei Beijing Beijing"
      ∧ FilterJobs [Example.jobShared.read Example.memory, Example.jobShared.read Example.memory]
          [utf8 "Physics"]
          = [Example.jobShared.read Example.memory, Example.jobShared.read Example.memory] := by
  decide

/-- X3 (C2 over the memory). With no keyword `FilterJobs` returns the jobs as
they are and writes nothing. -/
theorem FilterJobs_no_keywords_memory (mem : Mem.Memory) (jobs : List Mem.Job) :
    Mem.FilterJobs mem jobs [] = (mem, jobs) := by
  simp [Mem.FilterJobs]


/-! ## `Notify` -/

theorem sliceIndex_last {α : Type} (a : List α) (x : α) (h : a.getLast? = some x) :
    sliceIndex a ((a.length : Int) - 1) = Except.ok x := by
  have hne : a ≠ [] := by
    intro h0
    simp [h0] at h
  have hlen : 0 < a.length := List.length_pos.2 hne
  unfold sliceIndex
  have h1 : ¬ ((a.length : Int) - 1 < 0) := by omega
  have h2 : ((a.length : Int) - 1).toNat = a.length - 1 := by omega
  rw [if_neg h1, h2, List.get?_eq_getElem?, ← List.getLast?_eq_getElem?, h]

theorem sliceIndex_empty {α : Type} :
    sliceIndex ([] : List α) (((([] : List α).length : Nat) : Int) - 1)
      = Except.error (Panic.indexOutOfRange (-1) 0) := by
  simp [sliceIndex]

theorem DummyImage_400 (text : GoString) :
    DummyImage 400 400 (utf8 "1ff22a") (utf8 "0011ff") text (utf8 "png")
      = utf8 "https://dummyimage.com/400x400/1ff22a/0011ff.png&text=" ++ QueryEscape text := by
  have h : utf8 "https://dummyimage.com/" ++ formatInt 400 ++ utf8 "x" ++ formatInt 400
      ++ utf8 "/" ++ utf8 "1ff22a" ++ utf8 "/" ++ utf8 "0011ff" ++ utf8 "." ++ utf8 "png"
      ++ utf8 "&text="
      = utf8 "https://dummyimage.com/400x400/1ff22a/0011ff.png&text=" := by decide
  unfold DummyImage
  rw [h]

theorem feedCardLinks_ok (jobs : List Job) (h : ∀ job ∈ jobs, job.Categories ≠ []) :
    Notify.feedCardLinks jobs
      = Except.ok (jobs.map (fun job =>
          { Title := job.Title, MessageURL := job.URL,
            PictureURL := DummyImage 400 400 (utf8 "1ff22a") (utf8 "0011ff")
              (job.Categories.getLast?.getD []) (utf8 "png") })) := by
  induction jobs with
  | nil => rfl
  | cons job jobs ih =>
    have hne : job.Categories ≠ [] := h job (List.mem_cons_self _ _)
    obtain ⟨x, hx⟩ : ∃ x, job.Categories.getLast? = some x := by
      cases hc : job.Categories.getLast? with
      | none => exact absurd (List.getLast?_eq_none_iff.1 hc) hne
      | some x => exact ⟨x, rfl⟩
    have ih2 := ih (fun j hj => h j (List.mem_cons_of_mem _ hj))
    unfold Notify.feedCardLinks
    rw [sliceIndex_last _ x hx, ih2]
    simp only [List.map_cons, hx, Option.getD_some]
    rfl

theorem feedCardLinks_panic (jobs : List Job) (h : ∃ job ∈ jobs, job.Categories = []) :
    Notify.feedCardLinks jobs = Except.error (Panic.indexOutOfRange (-1) 0) := by
  induction jobs with
  | nil =>
    obtain ⟨job, hj, _⟩ := h
    cases hj
  | cons job jobs ih =>
    unfold Notify.feedCardLinks
    by_cases hc : job.Categories = []
    · rw [hc, sliceIndex_empty]
      rfl
    · obtain ⟨x, hx⟩ : ∃ x, job.Categories.getLast? = some x := by
        cases hc2 : job.Categories.getLast? with
        | none => exact absurd (List.getLast?_eq_none_iff.1 hc2) hc
        | some x => exact ⟨x, rfl⟩
      have ht : ∃ j ∈ jobs, j.Categories = [] := by
        obtain ⟨j, hj, hj0⟩ := h
        rcases List.mem_cons.1 hj with rfl | hj
        · exact absurd hj0 hc
        · exact ⟨j, hj, hj0⟩
      rw [sliceIndex_last _ x hx, ih ht]
      rfl

/-- The message `Notify` makes of the links. -/
theorem Notify_of_links {ε : Type} (Send : GoString → Message → Except ε Response)
    (webhookURL : GoString) (jobs : List Job) (links : List FeedCardLink)
    (h : Notify.feedCardLinks jobs = Except.ok links) :
    Notify Send webhookURL jobs
      = Notify.send Send webhookURL
          [{ MsgType := utf8 "feedCard", FeedCard := some { Links := links },
             At := some { IsAtAll := true } }] [] := by
  unfold Notify
  rw [h]

theorem Notify_send_one {ε : Type} (Send : GoString → Message → Except ε Response)
    (webhookURL : GoString) (message : Message) :
    (Notify.send Send webhookURL [message] []).sent = [(webhookURL, message)]
      ∧ (Notify.send Send webhookURL [message] []).result
          = (match Send webhookURL message with
             | Except.error err => Except.ok (some (NotifyError.transport err))
             | Except.ok resp =>
               if resp.ErrorCode ≠ 0 then
                 Except.ok (some (NotifyError.errorf
                   (formatInt resp.ErrorCode ++ [0x20] ++ resp.ErrorMessage)))
               else Except.ok none) := by
  unfold Notify.send
  cases hs : Send webhookURL message with
  | error err => simp
  | ok resp =>
    by_cases hc : resp.ErrorCode = 0
    · simp [hc, Notify.send]
    · simp [hc, utf8_space]



/-- C3. When every job has a category, the message `Notify` hands to the
transport is a `feedCard` with one link per job, in the order of the jobs:
the title is the job's `Title`, the target its `URL`, and the picture is
`https://dummyimage.com/400x400/1ff22a/0011ff.png&text=` followed by the
query-escaped last category, which is what `DummyImage(400, 400, "1ff22a",
"0011ff", last category, "png")` returns; for the categories `Education`,
`Engineering` the text parameter is `Engineering`. -/
theorem Notify_one_link_per_job {ε : Type} (Send : GoString → Message → Except ε Response)
    (webhookURL : GoString) (jobs : List Job) (h : ∀ job ∈ jobs, job.Categories ≠ []) :
    (Notify Send webhookURL jobs).sent
        = [(webhookURL,
            { MsgType := utf8 "feedCard",
              FeedCard := some { Links := jobs.map (fun job =>
                { Title := job.Title, MessageURL := job.URL,
                  PictureURL := utf8 "https://dummyimage.com/400x400/1ff22a/0011ff.png&text="
                    ++ QueryEscape (job.Categories.getLast?.getD []) }) },
              At := some { IsAtAll := true } })]
      ∧ (∀ text, DummyImage 400 400 (utf8 "1ff22a") (utf8 "0011ff") text (utf8 "png")
          = utf8 "https://dummyimage.com/400x400/1ff22a/0011ff.png&text=" ++ QueryEscape text)
      ∧ DummyImage 400 400 (utf8 "1ff22a") (utf8 "0011ff")
            ([utf8 "Education", utf8 "Engineering"].getLast?.getD []) (utf8 "png")
          = utf8 "https://dummyimage.com/400x400/1ff22a/0011ff.png&text=Engineering" := by
  refine ⟨?_, DummyImage_400, by decide⟩
  rw [Notify_of_links Send webhookURL jobs _ (feedCardLinks_ok jobs h)]
  rw [(Notify_send_one Send webhookURL _).1]
  simp only [DummyImage_400]

/-- C3 at two jobs, the first with the categories `Education`, `Engineering`. -/
theorem Notify_one_link_per_job_witness :
    (∀ job ∈ Example.jobs.take 2, job.Categories ≠ [])
      ∧ (Notify Example.SendOk (utf8 "https://oapi.dingtalk.com/robot/send")
            (Example.jobs.take 2)).sent
          = [(utf8 "https://oapi.dingtalk.com/robot/send",
              { MsgType := utf8 "feedCard",
                FeedCard := some { Links :=
                  [{ Title := utf8 "a", MessageURL := utf8 "http://www.gaoxiaojob.com/a",
                     PictureURL := utf8
                       "https://dummyimage.com/400x400/1ff22a/0011ff.png&text=Engineering" },
                   { Title := utf8 "b", MessageURL := utf8 "http://www.gaoxiaojob.com/b",
                     PictureURL := utf8
                       "https://dummyimage.com/400x400/1ff22a/0011ff.png&text=Research" }] },
                At := some { IsAtAll := true } })] :=
  ⟨by decide,
   ((Notify_one_link_per_job Example.SendOk (utf8 "https://oapi.dingtalk.com/robot/send")
      (Example.jobs.take 2) (by decide)).1).trans (by decide)⟩

/-- X1 (C4 for job lists whose links are built). When every job has a category,
`Notify` calls the transport exactly once. It returns the error of the
transport as it is when the call fails, an error with the text
`<decimal ErrorCode> <ErrorMessage>` when the response has a non-zero
`ErrorCode`, and nil otherwise; so it returns an error exactly when the
transport fails or the error code is not zero. -/
theorem Notify_surfaces_errors {ε : Type} (Send : GoString → Message → Except ε Response)
    (webhookURL : GoString) (jobs : List Job) (h : ∀ job ∈ jobs, job.Categories ≠ []) :
    ∃ message,
      (Notify Send webhookURL jobs).sent = [(webhookURL, message)]
        ∧ (Notify Send webhookURL jobs).result
            = (match Send webhookURL message with
               | Except.error err => Except.ok (some (NotifyError.transport err))
               | Except.ok resp =>
                 if resp.ErrorCode ≠ 0 then
                   Except.ok (some (NotifyError.errorf
                     (formatInt resp.ErrorCode ++ [0x20] ++ resp.ErrorMessage)))
                 else Except.ok none)
        ∧ ((Notify Send webhookURL jobs).result ≠ Except.ok none
            ↔ (∃ err, Send webhookURL message = Except.error err)
              ∨ ∃ resp, Send webhookURL message = Except.ok resp ∧ resp.ErrorCode ≠ 0) := by
  rw [Notify_of_links Send webhookURL jobs _ (feedCardLinks_ok jobs h)]
  refine ⟨_, (Notify_send_one Send webhookURL _).1, (Notify_send_one Send webhookURL _).2, ?_⟩
  rw [(Notify_send_one Send webhookURL _).2]
  cases hs : Send webhookURL _ with
  | error err => simp
  | ok resp =>
    by_cases hc : resp.ErrorCode = 0
    · simp [hc]
    · simp [hc]

/-- X1 at a transport that answers with the error code 310000: one call, and
the error `310000 keywords not in content`. -/
theorem Notify_surfaces_errors_witness :
    (∀ job ∈ Example.jobs.take 2, job.Categories ≠ [])
      ∧ ((Notify Example.SendRefused (utf8 "hook") (Example.jobs.take 2)).sent.length = 1
        ∧ (Notify Example.SendRefused (utf8 "hook") (Example.jobs.take 2)).result
            = Except.ok (some (NotifyError.errorf (utf8 "310000 keywords not in content")))) := by
  refine ⟨by decide, ?_⟩
  obtain ⟨message, hsent, hresult, _⟩ :=
    Notify_surfaces_errors Example.SendRefused (utf8 "hook") (Example.jobs.take 2) (by decide)
  refine ⟨by rw [hsent]; rfl, ?_⟩
  rw [hresult]
  show (if (310000 : Int) ≠ 0 then
      Except.ok (some (NotifyError.errorf
        (formatInt 310000 ++ [0x20] ++ utf8 "keywords not in content")))
    else Except.ok none)
    = (Except.ok (some (NotifyError.errorf (utf8 "310000 keywords not in content"))) :
        Except Panic (Option (NotifyError GoString)))
  decide



/-! ## `Index`, `SplitN` and `Split` -/

theorem Index_eq_none_iff (s substr : GoString) : Index s substr = none ↔ ¬ substr <:+: s := by
  rw [← Index_isSome_iff]
  cases Index s substr <;> simp

theorem Index_of_HasPrefix (s substr : GoString) (h : substr <+: s) : Index s substr = some 0 := by
  have h2 := (HasPrefix_iff s substr).2 h
  cases s with
  | nil => simp [Index, h2]
  | cons c s => simp [Index, h2]

theorem Index_cons_of_not_HasPrefix (c : Nat) (s substr : GoString) (h : ¬ substr <+: c :: s) :
    Index (c :: s) substr = (Index s substr).map (fun i => i + 1) := by
  have h2 : ¬ HasPrefix (c :: s) substr = true := fun hp => h ((HasPrefix_iff _ _).1 hp)
  simp [Index, h2]

/-- What a found index says: the separator stands at it, and not before it. -/
theorem Index_some (s sep : GoString) (m : Nat) (hsep : sep ≠ []) (h : Index s sep = some m) :
    s = s.take m ++ sep ++ s.drop (m + sep.length) ∧ ¬ sep <:+: s.take m := by
  induction s generalizing m with
  | nil =>
    unfold Index at h
    by_cases hp : HasPrefix [] sep = true
    · exact absurd (List.prefix_nil.1 ((HasPrefix_iff _ _).1 hp)) hsep
    · simp [hp] at h
  | cons c s ih =>
    by_cases hp : sep <+: c :: s
    · rw [Index_of_HasPrefix _ _ hp] at h
      have hm : m = 0 := by simpa using h.symm
      subst hm
      obtain ⟨t, ht⟩ := hp
      refine ⟨?_, ?_⟩
      · rw [← ht]
        simp
      · simpa using hsep
    · rw [Index_cons_of_not_HasPrefix _ _ _ hp] at h
      cases hi : Index s sep with
      | none => simp [hi] at h
      | some i =>
        have hm : m = i + 1 := by simpa [hi] using h.symm
        subst hm
        obtain ⟨h1, h2⟩ := ih i hi
        refine ⟨?_, ?_⟩
        · have : i + 1 + sep.length = (i + sep.length) + 1 := by omega
          rw [this, List.take_succ_cons, List.drop_succ_cons]
          simp only [List.cons_append]
          rw [← h1]
        · rw [List.take_succ_cons, List.infix_cons_iff]
          rintro (hpre | hin)
          · exact hp (hpre.trans (List.cons_prefix_cons.2 ⟨rfl, List.take_prefix _ _⟩))
          · exact h2 hin

theorem SplitN_two (s sep : GoString) (hsep : sep ≠ []) :
    SplitN s sep 2
      = (match Index s sep with
         | none => [s]
         | some m => [s.take m, s.drop (m + sep.length)]) := by
  unfold SplitN genSplit
  cases s with
  | nil =>
    have hn : Index [] sep = none := by
      rw [Index_eq_none_iff]
      intro hi
      exact hsep (List.infix_nil.1 hi)
    simp [hn, genSplit.loop]
  | cons c s =>
    have h1 : ¬ ((2 : Int) > (((c :: s).length : Nat) : Int) + 1) := by
      simp only [List.length_cons]
      omega
    simp only [if_neg h1]
    norm_num [genSplit.loop]

theorem colon_eq : colon = [0xEF, 0xBC, 0x9A] := by decide

/-- A full-width colon that follows text without one is the first. -/
theorem Index_colon (pre post : GoString) (h : ¬ colon <:+: pre) :
    Index (pre ++ colon ++ post) colon = some pre.length := by
  induction pre with
  | nil =>
    apply Index_of_HasPrefix
    simp
  | cons c pre ih =>
    have hpre : ¬ colon <:+: pre := fun hi => h (List.infix_cons hi)
    have hnp : ¬ colon <+: c :: (pre ++ colon ++ post) := by
      rw [colon_eq] at h ⊢
      intro hp
      rcases pre with _ | ⟨d, _ | ⟨e, pre⟩⟩
      · simp at hp
      · simp at hp
      · apply h
        simp only [List.cons_append, List.cons_prefix_cons] at hp
        obtain ⟨rfl, rfl, rfl, _⟩ := hp
        exact (List.prefix_append [239, 188, 154] pre).isInfix
    have := Index_cons_of_not_HasPrefix c (pre ++ colon ++ post) colon hnp
    simp only [List.cons_append, List.append_assoc] at this ⊢
    rw [this]
    simp only [List.append_assoc] at ih
    rw [ih hpre]
    rfl



theorem Index_some_length (s sep : GoString) (m : Nat) (hsep : sep ≠ [])
    (h : Index s sep = some m) : m + sep.length ≤ s.length := by
  have h1 := congrArg List.length (Index_some s sep m hsep h).1
  have h2 : 0 < sep.length := List.length_pos.2 hsep
  simp only [List.length_append, List.length_take, List.length_drop] at h1
  omega

theorem Count_loop_le (sep : GoString) (hsep : sep ≠ []) (fuel : Nat) (s : GoString) :
    Count.loop sep fuel s ≤ s.length := by
  induction fuel generalizing s with
  | zero => simp [Count.loop]
  | succ fuel ih =>
    unfold Count.loop
    cases hi : Index s sep with
    | none => simp
    | some i =>
      have h1 := Index_some_length s sep i hsep hi
      have h2 : 0 < sep.length := List.length_pos.2 hsep
      have h3 := ih (s.drop (i + sep.length))
      simp only [List.length_drop] at h3
      simp only
      omega

/-- Cutting at every separator: the pieces joined by the separator give the
string back, and no piece holds the separator. -/
theorem genSplit_loop_spec (sep : GoString) (hsep : sep ≠ []) (fuel : Nat) (s : GoString)
    (h : s.length < fuel) :
    Join (genSplit.loop sep 0 (Count.loop sep fuel s) s) sep = s
      ∧ (∀ piece ∈ genSplit.loop sep 0 (Count.loop sep fuel s) s, ¬ sep <:+: piece)
      ∧ genSplit.loop sep 0 (Count.loop sep fuel s) s ≠ [] := by
  induction fuel generalizing s with
  | zero => omega
  | succ fuel ih =>
    unfold Count.loop
    cases hi : Index s sep with
    | none =>
      have hn := (Index_eq_none_iff s sep).1 hi
      simp [genSplit.loop, Join, hn]
    | some i =>
      have h1 := Index_some_length s sep i hsep hi
      have h2 : 0 < sep.length := List.length_pos.2 hsep
      have hlen : (s.drop (i + sep.length)).length < fuel := by
        simp only [List.length_drop]
        omega
      obtain ⟨hj, hp, hne⟩ := ih (s.drop (i + sep.length)) hlen
      obtain ⟨hs1, hs2⟩ := Index_some s sep i hsep hi
      simp only [genSplit.loop, hi, Nat.add_zero]
      refine ⟨?_, ?_, by simp⟩
      · cases hL : genSplit.loop sep 0 (Count.loop sep fuel (s.drop (i + sep.length)))
            (s.drop (i + sep.length)) with
        | nil => exact absurd hL hne
        | cons a rest =>
          rw [Join, ← hL, hj]
          exact hs1.symm
      · intro piece hmem
        rcases List.mem_cons.1 hmem with rfl | hmem
        · exact hs2
        · exact hp piece hmem

theorem Split_spec (s sep : GoString) (hsep : sep ≠ []) :
    sep.intercalate (Split s sep) = s
      ∧ (∀ piece ∈ Split s sep, ¬ sep <:+: piece)
      ∧ Split s sep ≠ [] := by
  have hc := Count_loop_le sep hsep (s.length + 1) s
  have hk : Split s sep = genSplit.loop sep 0 (Count.loop sep (s.length + 1) s) s := by
    unfold Split genSplit Count
    have h1 : ¬ ((-1 : Int) = 0) := by omega
    have h2 : ((-1 : Int) < 0) := by omega
    have h3 : ¬ (((Count.loop sep (s.length + 1) s : Nat) : Int) + 1 > (s.length : Int) + 1) := by
      omega
    simp only [if_neg h1, if_pos h2, if_neg h3]
    congr 1
    omega
  rw [hk, ← Join_eq_intercalate]
  exact genSplit_loop_spec sep hsep (s.length + 1) s (by omega)

/-- Cutting at the space is cutting at every space, empty pieces kept. -/
theorem Split_space (s : GoString) : Split s (utf8 " ") = s.splitOn 0x20 := by
  rw [utf8_space]
  obtain ⟨h1, h2, h3⟩ := Split_spec s [0x20] (by simp)
  have h4 : ∀ piece ∈ Split s [0x20], (0x20 : Nat) ∉ piece := by
    intro piece hp hmem
    apply h2 piece hp
    obtain ⟨a, b, hab⟩ := List.append_of_mem hmem
    exact ⟨a, b, by simp [hab]⟩
  have h5 := List.splitOn_intercalate (Split s [0x20]) (0x20 : Nat) h4 h3
  rw [h1] at h5
  exact h5.symm



/-! ## `TrimSpace` -/

theorem whiteSpaceBytes_pos : ∀ w ∈ whiteSpaceBytes, 0 < w.length := by decide

theorem leadingSpace_eq_none (s : GoString) :
    leadingSpace s = none ↔ ∀ w ∈ whiteSpaceBytes, ¬ w <+: s := by
  simp [leadingSpace, List.find?_eq_none]

theorem trailingSpace_eq_none (s : GoString) :
    trailingSpace s = none ↔ ∀ w ∈ whiteSpaceBytes, ¬ w <:+ s := by
  simp [trailingSpace, List.find?_eq_none]

theorem leadingSpace_pos (s : GoString) (n : Nat) (h : leadingSpace s = some n) : 0 < n := by
  unfold leadingSpace at h
  cases hf : whiteSpaceBytes.find? (fun w => w.isPrefixOf s) with
  | none => simp [hf] at h
  | some w =>
    have hn : n = w.length := by simpa [hf] using h.symm
    rw [hn]
    exact whiteSpaceBytes_pos w (List.mem_of_find?_eq_some hf)

theorem trailingSpace_pos (s : GoString) (n : Nat) (h : trailingSpace s = some n) : 0 < n := by
  unfold trailingSpace at h
  cases hf : whiteSpaceBytes.find? (fun w => w.isSuffixOf s) with
  | none => simp [hf] at h
  | some w =>
    have hn : n = w.length := by simpa [hf] using h.symm
    rw [hn]
    exact whiteSpaceBytes_pos w (List.mem_of_find?_eq_some hf)

theorem leadingSpace_nil : leadingSpace [] = none := by decide

theorem trailingSpace_nil : trailingSpace [] = none := by decide

theorem TrimLeftSpace_done (fuel : Nat) (s : GoString) (h : s.length ≤ fuel) :
    leadingSpace (TrimLeftSpace.loop fuel s) = none := by
  induction fuel generalizing s with
  | zero =>
    have : s = [] := List.length_eq_zero.1 (by omega)
    subst this
    exact leadingSpace_nil
  | succ fuel ih =>
    unfold TrimLeftSpace.loop
    cases hl : leadingSpace s with
    | none => simpa using hl
    | some w =>
      have hw := leadingSpace_pos s w hl
      apply ih
      simp only [List.length_drop]
      omega

theorem TrimRightSpace_done (fuel : Nat) (s : GoString) (h : s.length ≤ fuel) :
    trailingSpace (TrimRightSpace.loop fuel s) = none := by
  induction fuel generalizing s with
  | zero =>
    have : s = [] := List.length_eq_zero.1 (by omega)
    subst this
    exact trailingSpace_nil
  | succ fuel ih =>
    unfold TrimRightSpace.loop
    cases hl : trailingSpace s with
    | none => simpa using hl
    | some w =>
      have hw := trailingSpace_pos s w hl
      apply ih
      simp only [List.length_take]
      omega

theorem TrimRightSpace_initial (fuel : Nat) (s : GoString) :
    TrimRightSpace.loop fuel s <+: s := by
  induction fuel generalizing s with
  | zero => exact List.prefix_refl s
  | succ fuel ih =>
    unfold TrimRightSpace.loop
    cases hl : trailingSpace s with
    | none => exact List.prefix_refl s
    | some w => exact (ih _).trans (List.take_prefix _ _)

/-- A trimmed string neither starts nor ends with white space. -/
theorem TrimSpace_trimmed (s : GoString) :
    ∀ w ∈ whiteSpaceBytes, ¬ w <+: TrimSpace s ∧ ¬ w <:+ TrimSpace s := by
  intro w hw
  unfold TrimSpace
  have hleft := (leadingSpace_eq_none _).1 (TrimLeftSpace_done s.length s (Nat.le_refl _)) w hw
  have hright := (trailingSpace_eq_none _).1
    (TrimRightSpace_done (TrimLeftSpace.loop s.length s).length
      (TrimLeftSpace.loop s.length s) (Nat.le_refl _)) w hw
  exact ⟨fun hp => hleft (hp.trans (TrimRightSpace_initial _ _)), hright⟩

theorem leadingSpace_some (s : GoString) (n : Nat) (h : leadingSpace s = some n) :
    ∃ w ∈ whiteSpaceBytes, s = w ++ s.drop n := by
  unfold leadingSpace at h
  cases hf : whiteSpaceBytes.find? (fun w => w.isPrefixOf s) with
  | none => simp [hf] at h
  | some w =>
    have hn : n = w.length := by simpa [hf] using h.symm
    have hp : w <+: s := by simpa using List.find?_some hf
    obtain ⟨t, ht⟩ := hp
    refine ⟨w, List.mem_of_find?_eq_some hf, ?_⟩
    rw [hn, ← ht]
    simp

theorem trailingSpace_some (s : GoString) (n : Nat) (h : trailingSpace s = some n) :
    ∃ w ∈ whiteSpaceBytes, s = s.take (s.length - n) ++ w := by
  unfold trailingSpace at h
  cases hf : whiteSpaceBytes.find? (fun w => w.isSuffixOf s) with
  | none => simp [hf] at h
  | some w =>
    have hn : n = w.length := by simpa [hf] using h.symm
    have hp : w <:+ s := by simpa using List.find?_some hf
    obtain ⟨t, ht⟩ := hp
    refine ⟨w, List.mem_of_find?_eq_some hf, ?_⟩
    rw [hn, ← ht]
    simp

theorem TrimLeftSpace_cut (fuel : Nat) (s : GoString) :
    ∃ l : List GoString, (∀ w ∈ l, w ∈ whiteSpaceBytes)
      ∧ s = l.flatten ++ TrimLeftSpace.loop fuel s := by
  induction fuel generalizing s with
  | zero => exact ⟨[], by simp, by simp [TrimLeftSpace.loop]⟩
  | succ fuel ih =>
    unfold TrimLeftSpace.loop
    cases hl : leadingSpace s with
    | none => exact ⟨[], by simp, by simp⟩
    | some n =>
      obtain ⟨w, hw, hs⟩ := leadingSpace_some s n hl
      obtain ⟨l, hl1, hl2⟩ := ih (s.drop n)
      refine ⟨w :: l, ?_, ?_⟩
      · intro x hx
        rcases List.mem_cons.1 hx with rfl | hx
        · exact hw
        · exact hl1 x hx
      · simp only [List.flatten_cons, List.append_assoc]
        rw [← hl2]
        exact hs

theorem TrimRightSpace_cut (fuel : Nat) (s : GoString) :
    ∃ r : List GoString, (∀ w ∈ r, w ∈ whiteSpaceBytes)
      ∧ s = TrimRightSpace.loop fuel s ++ r.flatten := by
  induction fuel generalizing s with
  | zero => exact ⟨[], by simp, by simp [TrimRightSpace.loop]⟩
  | succ fuel ih =>
    unfold TrimRightSpace.loop
    cases hl : trailingSpace s with
    | none => exact ⟨[], by simp, by simp⟩
    | some n =>
      obtain ⟨w, hw, hs⟩ := trailingSpace_some s n hl
      obtain ⟨r, hr1, hr2⟩ := ih (s.take (s.length - n))
      refine ⟨r ++ [w], ?_, ?_⟩
      · intro x hx
        rcases List.mem_append.1 hx with hx | hx
        · exact hr1 x hx
        · rw [List.mem_singleton.1 hx]
          exact hw
      · simp only [List.flatten_append, List.flatten_cons, List.flatten_nil, List.append_nil,
          ← List.append_assoc]
        rw [← hr2]
        exact hs

/-- Trimming cuts white space off and nothing else. -/
theorem TrimSpace_cut (s : GoString) :
    ∃ l r : List GoString, (∀ w ∈ l, w ∈ whiteSpaceBytes) ∧ (∀ w ∈ r, w ∈ whiteSpaceBytes)
      ∧ s = l.flatten ++ TrimSpace s ++ r.flatten := by
  obtain ⟨l, hl1, hl2⟩ := TrimLeftSpace_cut s.length s
  obtain ⟨r, hr1, hr2⟩ := TrimRightSpace_cut (TrimLeftSpace.loop s.length s).length
    (TrimLeftSpace.loop s.length s)
  refine ⟨l, r, hl1, hr1, ?_⟩
  unfold TrimSpace
  simp only [List.append_assoc]
  rw [← hr2]
  exact hl2

/-! ## The map -/

theorem GoMap_get_set (m : GoMap) (k v k2 : GoString) :
    (m.set k v).get k2 = if k2 = k then some v else m.get k2 := by
  unfold GoMap.get GoMap.set
  by_cases h : k2 = k
  · subst h
    simp
  · have h2 : (k == k2) = false := by simpa using fun e : k = k2 => h e.symm
    have hf : (fun a : GoString × GoString => decide ((a.1 != k) = true ∧ (a.1 == k2) = true))
        = fun e => e.1 == k2 := by
      funext e
      by_cases he : e.1 = k2
      · have : ¬ e.1 = k := fun e2 => h (he.symm.trans e2)
        simp [he, h]
      · simp [he]
    simp only [List.find?_cons, h2, if_neg h, List.find?_filter]
    rw [hf]

theorem lookup_append_single (l : List (GoString × GoString)) (k v k2 : GoString) :
    (l ++ [(k, v)]).lookup k2
      = (match l.lookup k2 with
         | some x => some x
         | none => if k2 = k then some v else none) := by
  induction l with
  | nil =>
    by_cases h : k2 = k
    · simp [List.lookup, h]
    · have : (k2 == k) = false := by simpa using h
      simp [List.lookup, h, this]
  | cons e l ih =>
    obtain ⟨a, b⟩ := e
    by_cases h : k2 = a
    · simp [List.lookup, h]
    · have : (k2 == a) = false := by simpa using h
      simp only [List.cons_append, List.lookup, this]
      exact ih



/-! ## The metadata list -/

/-- The cut at the first colon: the text before it and the text after it. -/
theorem SplitN_colon (pre post : GoString) (h : ¬ colon <:+: pre) :
    SplitN (pre ++ colon ++ post) colon 2 = [pre, post] := by
  rw [SplitN_two _ _ (by decide), Index_colon pre post h]
  have h1 : (pre ++ colon ++ post).take pre.length = pre := by
    rw [List.append_assoc, List.take_left']
    rfl
  have h2 : (pre ++ colon ++ post).drop (pre.length + colon.length) = post := by
    rw [← List.length_append, List.drop_left']
    rfl
  simp only [h1, h2]

theorem fenlei_ok (Meta : GoMap) (pre post : GoString) (h : ¬ colon <:+: pre) :
    FetchJobs.fenlei Meta (pre ++ colon ++ post)
      = Except.ok (Meta.set (TrimSpace pre) (TrimSpace post)) := by
  unfold FetchJobs.fenlei
  rw [SplitN_colon pre post h]
  rfl

theorem fenlei_panic (Meta : GoMap) (text : GoString) (h : ¬ colon <:+: text) :
    FetchJobs.fenlei Meta text = Except.error (Panic.indexOutOfRange 1 1) := by
  unfold FetchJobs.fenlei
  rw [SplitN_two _ _ (by decide), (Index_eq_none_iff _ _).2 h]
  rfl

theorem exists_cut (text : GoString) (h : colon <:+: text) :
    ∃ pre post, text = pre ++ colon ++ post ∧ ¬ colon <:+: pre := by
  cases hi : Index text colon with
  | none => exact absurd h ((Index_eq_none_iff _ _).1 hi)
  | some m =>
    obtain ⟨h1, h2⟩ := Index_some text colon m (by decide) hi
    exact ⟨_, _, h1, h2⟩

theorem exists_cuts (entries : List GoString) (h : ∀ e ∈ entries, colon <:+: e) :
    ∃ cuts : List (GoString × GoString),
      entries = cuts.map (fun c => c.1 ++ colon ++ c.2) ∧ ∀ c ∈ cuts, ¬ colon <:+: c.1 := by
  induction entries with
  | nil => exact ⟨[], rfl, by simp⟩
  | cons e entries ih =>
    obtain ⟨cuts, h1, h2⟩ := ih (fun x hx => h x (List.mem_cons_of_mem _ hx))
    obtain ⟨pre, post, h3, h4⟩ := exists_cut e (h e (List.mem_cons_self _ _))
    refine ⟨(pre, post) :: cuts, by simp [h1, h3], ?_⟩
    intro c hc
    rcases List.mem_cons.1 hc with rfl | hc
    · exact h4
    · exact h2 c hc

theorem Meta_ok (cuts : List (GoString × GoString)) (Meta : GoMap)
    (h : ∀ c ∈ cuts, ¬ colon <:+: c.1) :
    FetchJobs.Meta (cuts.map (fun c => c.1 ++ colon ++ c.2)) Meta
      = Except.ok (cuts.foldl (fun m c => m.set (TrimSpace c.1) (TrimSpace c.2)) Meta) := by
  induction cuts generalizing Meta with
  | nil => rfl
  | cons c cuts ih =>
    simp only [List.map_cons, List.foldl_cons]
    unfold FetchJobs.Meta
    rw [fenlei_ok Meta c.1 c.2 (h c (List.mem_cons_self _ _))]
    exact ih _ (fun x hx => h x (List.mem_cons_of_mem _ hx))

theorem Meta_panic (entries : List GoString) (Meta : GoMap)
    (h : ∃ e ∈ entries, ¬ colon <:+: e) :
    FetchJobs.Meta entries Meta = Except.error (Panic.indexOutOfRange 1 1) := by
  induction entries generalizing Meta with
  | nil =>
    obtain ⟨e, he, _⟩ := h
    cases he
  | cons e entries ih =>
    unfold FetchJobs.Meta
    by_cases hc : colon <:+: e
    · obtain ⟨pre, post, h3, h4⟩ := exists_cut e hc
      rw [h3, fenlei_ok Meta pre post h4]
      apply ih
      obtain ⟨x, hx, hx2⟩ := h
      rcases List.mem_cons.1 hx with rfl | hx
      · exact absurd hc hx2
      · exact ⟨x, hx, hx2⟩
    · rw [fenlei_panic Meta e hc]
      rfl

theorem foldl_set_get (cuts : List (GoString × GoString)) (Meta : GoMap) (k : GoString) :
    (cuts.foldl (fun m c => m.set (TrimSpace c.1) (TrimSpace c.2)) Meta).get k
      = (match (cuts.map (fun c => (TrimSpace c.1, TrimSpace c.2))).reverse.lookup k with
         | some v => some v
         | none => Meta.get k) := by
  induction cuts generalizing Meta with
  | nil => rfl
  | cons c cuts ih =>
    simp only [List.foldl_cons, List.map_cons, List.reverse_cons]
    rw [ih, lookup_append_single, GoMap_get_set]
    cases (cuts.map (fun c => (TrimSpace c.1, TrimSpace c.2))).reverse.lookup k with
    | some v => rfl
    | none =>
      by_cases hk : k = TrimSpace c.1 <;> simp [hk]

theorem GoMap_get_nil (k : GoString) : GoMap.get [] k = none := rfl

theorem mem_of_lookup (l : List (GoString × GoString)) (k v : GoString)
    (h : l.lookup k = some v) : (k, v) ∈ l := by
  induction l with
  | nil => simp [List.lookup] at h
  | cons e l ih =>
    obtain ⟨a, b⟩ := e
    by_cases hk : k = a
    · subst hk
      simp only [List.lookup, beq_self_eq_true, Option.some.injEq] at h
      subst h
      exact List.mem_cons_self _ _
    · have : (k == a) = false := by simpa using hk
      simp only [List.lookup, this] at h
      exact List.mem_cons_of_mem _ (ih h)

/-- The whole of C6 for a list given by its cuts. -/
theorem Meta_of_cuts (cuts : List (GoString × GoString)) (h : ∀ c ∈ cuts, ¬ colon <:+: c.1) :
    ∃ Meta, FetchJobs.Meta (cuts.map (fun c => c.1 ++ colon ++ c.2)) [] = Except.ok Meta
      ∧ (∀ k, Meta.get k
          = (cuts.map (fun c => (TrimSpace c.1, TrimSpace c.2))).reverse.lookup k)
      ∧ (∀ k v, Meta.get k = some v →
          ∀ w ∈ whiteSpaceBytes, ¬ w <+: k ∧ ¬ w <:+ k) := by
  refine ⟨_, Meta_ok cuts [] h, ?_, ?_⟩
  · intro k
    rw [foldl_set_get, GoMap_get_nil]
    cases (cuts.map (fun c => (TrimSpace c.1, TrimSpace c.2))).reverse.lookup k <;> rfl
  · intro k v hkv
    rw [foldl_set_get, GoMap_get_nil] at hkv
    cases hl : (cuts.map (fun c => (TrimSpace c.1, TrimSpace c.2))).reverse.lookup k with
    | none => simp [hl] at hkv
    | some x =>
      have hm := mem_of_lookup _ k x hl
      simp only [List.mem_reverse, List.mem_map, Prod.mk.injEq] at hm
      obtain ⟨c, _, hc, _⟩ := hm
      rw [← hc]
      exact TrimSpace_trimmed c.1



/-! ## `time.ParseInLocation` -/

theorem skip_iff (value pre rest : GoString) : skip value pre = some rest ↔ value = pre ++ rest := by
  induction pre generalizing value with
  | nil =>
    cases value <;> simp [skip, eq_comm]
  | cons p pre ih =>
    cases value with
    | nil => simp [skip]
    | cons v value =>
      by_cases hv : v = p
      · subst hv
        simp [skip, ih]
      · simp [skip, hv]

theorem isDigit_zero (c : Nat) (s : GoString) :
    isDigit (c :: s) 0 = decide (0x30 ≤ c ∧ c ≤ 0x39) := rfl

theorem isDigit_succ (c : Nat) (s : GoString) (i : Nat) :
    isDigit (c :: s) (i + 1) = isDigit s i := rfl

theorem isDigit_nil (i : Nat) : isDigit [] i = false := rfl

/-- The value of two digit bytes. -/
theorem getnum_fixed_iff (s rest : GoString) (n : Int) :
    getnum s true = some (n, rest)
      ↔ ∃ a b : Nat, 0x30 ≤ a ∧ a ≤ 0x39 ∧ 0x30 ≤ b ∧ b ≤ 0x39 ∧ s = a :: b :: rest
          ∧ n = (((a - 0x30) * 10 + (b - 0x30) : Nat) : Int) := by
  rcases s with _ | ⟨a, _ | ⟨b, s⟩⟩
  · simp [getnum, isDigit_nil]
  · by_cases ha : 0x30 ≤ a ∧ a ≤ 0x39 <;>
      simp [getnum, isDigit_zero, isDigit_succ, isDigit_nil, ha]
  · by_cases ha : 0x30 ≤ a ∧ a ≤ 0x39
    · by_cases hb : 0x30 ≤ b ∧ b ≤ 0x39
      · simp only [getnum, isDigit_zero, isDigit_succ, ha, hb, and_self, decide_True,
          Bool.not_true, Bool.false_eq_true, if_false, List.getD_cons_zero, List.getD_cons_succ,
          List.drop_succ_cons, List.drop_zero, Option.some.injEq, Prod.mk.injEq]
        constructor
        · rintro ⟨rfl, rfl⟩
          exact ⟨a, b, ha.1, ha.2, hb.1, hb.2, rfl, rfl⟩
        · rintro ⟨a2, b2, _, _, _, _, hs, hn⟩
          simp only [List.cons.injEq] at hs
          obtain ⟨rfl, rfl, rfl⟩ := hs
          exact ⟨hn.symm, rfl⟩
      · simp only [getnum, isDigit_zero, isDigit_succ, ha, hb, and_self, decide_True,
          decide_False, Bool.not_true, Bool.not_false, Bool.false_eq_true, if_false, if_true]
        constructor
        · intro h
          cases h
        · rintro ⟨a2, b2, _, _, h3, h4, hs, _⟩
          simp only [List.cons.injEq] at hs
          obtain ⟨rfl, rfl, rfl⟩ := hs
          exact absurd ⟨h3, h4⟩ hb
    · simp only [getnum, isDigit_zero, ha, decide_False, Bool.not_false, if_true]
      constructor
      · intro h
        cases h
      · rintro ⟨a2, b2, h1, h2, _, _, hs, _⟩
        simp only [List.cons.injEq] at hs
        obtain ⟨rfl, rfl, rfl⟩ := hs
        exact absurd ⟨h1, h2⟩ ha



theorem leadingInt_digit (c : Nat) (s : GoString) (x : Nat) (hc : 0x30 ≤ c ∧ c ≤ 0x39)
    (hx : x ≤ 999) : leadingInt (c :: s) x = leadingInt s (x * 10 + c - 0x30) := by
  have h1 : ¬ (c < 0x30 ∨ c > 0x39) := by omega
  have h2 : ¬ (x > 2 ^ 63 / 10) := by norm_num; omega
  have h3 : ¬ (x * 10 + c - 0x30 > 2 ^ 63) := by norm_num; omega
  rw [leadingInt, if_neg h1, if_neg h2, if_neg h3]

theorem leadingInt_other (c : Nat) (s : GoString) (x : Nat) (hc : ¬ (0x30 ≤ c ∧ c ≤ 0x39)) :
    leadingInt (c :: s) x = some (x, c :: s) := by
  have h1 : c < 0x30 ∨ c > 0x39 := by omega
  rw [leadingInt, if_pos h1]

/-- The function `atoi` on four bytes of which the first is a digit: the
number the four digits write, or nothing when one is no digit. -/
theorem atoi_four (a b c d : Nat) (ha : 0x30 ≤ a ∧ a ≤ 0x39) (year : Int) :
    atoi [a, b, c, d] = some year
      ↔ (0x30 ≤ b ∧ b ≤ 0x39) ∧ (0x30 ≤ c ∧ c ≤ 0x39) ∧ (0x30 ≤ d ∧ d ≤ 0x39)
          ∧ year = ((((a - 0x30) * 10 + (b - 0x30)) * 10 + (c - 0x30)) * 10 + (d - 0x30) : Nat) := by
  have hneg : ¬ (([a, b, c, d] : GoString).head? = some 0x2D) := by
    simp only [List.head?_cons, Option.some.injEq]
    omega
  have hsign : ¬ (([a, b, c, d] : GoString).head? = some 0x2D
      ∨ ([a, b, c, d] : GoString).head? = some 0x2B) := by
    simp only [List.head?_cons, Option.some.injEq]
    omega
  unfold atoi
  simp only [if_neg hsign]
  simp only [hneg, decide_False]
  rw [leadingInt_digit a _ 0 ha (by omega)]
  by_cases hb : 0x30 ≤ b ∧ b ≤ 0x39
  · rw [leadingInt_digit b _ _ hb (by omega)]
    by_cases hc : 0x30 ≤ c ∧ c ≤ 0x39
    · rw [leadingInt_digit c _ _ hc (by omega)]
      by_cases hd : 0x30 ≤ d ∧ d ≤ 0x39
      · rw [leadingInt_digit d _ _ hd (by omega)]
        have hlt : (0 * 10 + a - 48) * 10 + b - 48 < 1000 := by omega
        have hq : ((((0 * 10 + a - 48) * 10 + b - 48) * 10 + c - 48) * 10 + d - 48) < 2 ^ 63 := by
          norm_num
          omega
        simp only [leadingInt, ne_eq, not_true_eq_false, if_false, hq, if_true,
          Bool.false_eq_true, Option.some.injEq]
        constructor
        · intro h
          refine ⟨hb, hc, hd, ?_⟩
          omega
        · rintro ⟨_, _, _, h⟩
          omega
      · rw [leadingInt_other d _ _ hd]
        simp only [ne_eq, List.cons_ne_self, not_false_eq_true, if_true, reduceCtorEq,
          false_iff]
        tauto
    · rw [leadingInt_other c _ _ hc]
      simp only [ne_eq, reduceCtorEq, not_false_eq_true, if_true, false_iff]
      tauto
  · rw [leadingInt_other b _ _ hb]
    simp only [ne_eq, reduceCtorEq, not_false_eq_true, if_true, false_iff]
    tauto

/-- The year element reads four digits. -/
theorem element_year_iff (value rest : GoString) (f f2 : Fields) :
    parse.element StdChunk.stdLongYear value f = some (f2, rest)
      ↔ ∃ a b c d : Nat, (0x30 ≤ a ∧ a ≤ 0x39) ∧ (0x30 ≤ b ∧ b ≤ 0x39) ∧ (0x30 ≤ c ∧ c ≤ 0x39)
          ∧ (0x30 ≤ d ∧ d ≤ 0x39) ∧ value = a :: b :: c :: d :: rest
          ∧ f2 = { f with year :=
              ((((a - 0x30) * 10 + (b - 0x30)) * 10 + (c - 0x30)) * 10 + (d - 0x30) : Nat) } := by
  unfold parse.element
  rcases value with _ | ⟨a, _ | ⟨b, _ | ⟨c, _ | ⟨d, value⟩⟩⟩⟩
  · simp
  · simp
  · simp
  · simp
  · by_cases ha : 0x30 ≤ a ∧ a ≤ 0x39
    · have hlen : ¬ ((a :: b :: c :: d :: value).length < 4 ∨
          (!isDigit (a :: b :: c :: d :: value) 0) = true) := by
        simp [isDigit_zero, ha]
      simp only [hlen, if_false, List.take_succ_cons, List.take_zero, List.drop_succ_cons,
        List.drop_zero]
      cases hy : atoi [a, b, c, d] with
      | none =>
        simp only [reduceCtorEq, false_iff, not_exists, not_and]
        intro a2 b2 c2 d2 _ hb hc hd hv
        simp only [List.cons.injEq] at hv
        obtain ⟨rfl, rfl, rfl, rfl, rfl⟩ := hv
        have := (atoi_four a b c d ha _).2 ⟨hb, hc, hd, rfl⟩
        rw [hy] at this
        cases this
      | some year =>
        obtain ⟨hb, hc, hd, hyear⟩ := (atoi_four a b c d ha year).1 hy
        simp only [Option.some.injEq, Prod.mk.injEq]
        constructor
        · rintro ⟨rfl, rfl⟩
          exact ⟨a, b, c, d, ha, hb, hc, hd, rfl, by rw [hyear]⟩
        · rintro ⟨a2, b2, c2, d2, _, _, _, _, hv, hf⟩
          simp only [List.cons.injEq] at hv
          obtain ⟨rfl, rfl, rfl, rfl, rfl⟩ := hv
          exact ⟨by rw [hf, hyear], rfl⟩
    · have hlen : ((a :: b :: c :: d :: value).length < 4 ∨
          (!isDigit (a :: b :: c :: d :: value) 0) = true) := by
        right
        simp [isDigit_zero, ha]
      simp only [hlen, if_true, reduceCtorEq, false_iff, not_exists, not_and]
      intro a2 b2 c2 d2 ha2 _ _ _ hv
      simp only [List.cons.injEq] at hv
      obtain ⟨rfl, rfl, rfl, rfl, rfl⟩ := hv
      exact absurd ha2 ha



theorem element_zeroMonth_iff (value rest : GoString) (f f2 : Fields) :
    parse.element StdChunk.stdZeroMonth value f = some (f2, rest)
      ↔ ∃ a b : Nat, 0x30 ≤ a ∧ a ≤ 0x39 ∧ 0x30 ≤ b ∧ b ≤ 0x39 ∧ value = a :: b :: rest
          ∧ 1 ≤ (a - 0x30) * 10 + (b - 0x30) ∧ (a - 0x30) * 10 + (b - 0x30) ≤ 12
          ∧ f2 = { f with month := (((a - 0x30) * 10 + (b - 0x30) : Nat) : Int) } := by
  unfold parse.element
  simp only [decide_True]
  cases hg : getnum value true with
  | none =>
    simp only [reduceCtorEq, false_iff, not_exists, not_and]
    intro a b h1 h2 h3 h4 hv
    have := (getnum_fixed_iff value rest _).2 ⟨a, b, h1, h2, h3, h4, hv, rfl⟩
    rw [hg] at this
    cases this
  | some r =>
    obtain ⟨n, value2⟩ := r
    obtain ⟨a, b, h1, h2, h3, h4, hv, hn⟩ := (getnum_fixed_iff value value2 n).1 hg
    subst hv
    subst hn
    by_cases hr : (((a - 0x30) * 10 + (b - 0x30) : Nat) : Int) ≤ 0
        ∨ 12 < (((a - 0x30) * 10 + (b - 0x30) : Nat) : Int)
    · simp only [hr, if_true, reduceCtorEq, false_iff, not_exists, not_and]
      intro a2 b2 _ _ _ _ hv h5 h6
      simp only [List.cons.injEq] at hv
      obtain ⟨rfl, rfl, rfl⟩ := hv
      omega
    · simp only [hr, if_false, Option.some.injEq, Prod.mk.injEq]
      constructor
      · rintro ⟨rfl, rfl⟩
        exact ⟨a, b, h1, h2, h3, h4, rfl, by omega, by omega, rfl⟩
      · rintro ⟨a2, b2, _, _, _, _, hv, _, _, hf⟩
        simp only [List.cons.injEq] at hv
        obtain ⟨rfl, rfl, rfl⟩ := hv
        exact ⟨hf.symm, rfl⟩

theorem element_zeroDay_iff (value rest : GoString) (f f2 : Fields) :
    parse.element StdChunk.stdZeroDay value f = some (f2, rest)
      ↔ ∃ a b : Nat, 0x30 ≤ a ∧ a ≤ 0x39 ∧ 0x30 ≤ b ∧ b ≤ 0x39 ∧ value = a :: b :: rest
          ∧ f2 = { f with day := (((a - 0x30) * 10 + (b - 0x30) : Nat) : Int) } := by
  unfold parse.element
  simp only [decide_True]
  cases hg : getnum value true with
  | none =>
    simp only [reduceCtorEq, false_iff, not_exists, not_and]
    intro a b h1 h2 h3 h4 hv
    have := (getnum_fixed_iff value rest _).2 ⟨a, b, h1, h2, h3, h4, hv, rfl⟩
    rw [hg] at this
    cases this
  | some r =>
    obtain ⟨n, value2⟩ := r
    obtain ⟨a, b, h1, h2, h3, h4, hv, hn⟩ := (getnum_fixed_iff value value2 n).1 hg
    subst hv
    subst hn
    simp only [Option.some.injEq, Prod.mk.injEq]
    constructor
    · rintro ⟨rfl, rfl⟩
      exact ⟨a, b, h1, h2, h3, h4, rfl, rfl⟩
    · rintro ⟨a2, b2, _, _, _, _, hv, hf⟩
      simp only [List.cons.injEq] at hv
      obtain ⟨rfl, rfl, rfl⟩ := hv
      exact ⟨hf.symm, rfl⟩

theorem loop_cons_eq (pre : GoString) (std : StdChunk) (chunks : List (GoString × StdChunk))
    (value : GoString) (f : Fields) :
    parse.loop ((pre, std) :: chunks) value f
      = (match skip value pre with
         | none => none
         | some value =>
           match parse.element std value f with
           | none => none
           | some (f, value) => parse.loop chunks value f) := rfl

theorem loop_cons_iff (pre : GoString) (std : StdChunk) (chunks : List (GoString × StdChunk))
    (value : GoString) (f : Fields) (r : Fields × GoString) :
    parse.loop ((pre, std) :: chunks) value f = some r
      ↔ ∃ v1 f1 v2, value = pre ++ v1 ∧ parse.element std v1 f = some (f1, v2)
          ∧ parse.loop chunks v2 f1 = some r := by
  rw [loop_cons_eq]
  cases hs : skip value pre with
  | none =>
    simp only [reduceCtorEq, false_iff, not_exists, not_and]
    intro v1 f1 v2 hv
    have := (skip_iff value pre v1).2 hv
    rw [hs] at this
    cases this
  | some v1 =>
    have hv := (skip_iff value pre v1).1 hs
    cases he : parse.element std v1 f with
    | none =>
      simp only [he, reduceCtorEq, false_iff, not_exists, not_and]
      intro v1b f1 v2 hvb heb _
      have : v1b = v1 := List.append_cancel_left (hvb.symm.trans hv)
      subst this
      rw [he] at heb
      cases heb
    | some x =>
      obtain ⟨f1, v2⟩ := x
      simp only [he]
      constructor
      · intro h
        exact ⟨v1, f1, v2, hv, he, h⟩
      · rintro ⟨v1b, f1b, v2b, hvb, heb, h⟩
        have : v1b = v1 := List.append_cancel_left (hvb.symm.trans hv)
        subst this
        rw [he] at heb
        simp only [Option.some.injEq, Prod.mk.injEq] at heb
        obtain ⟨rfl, rfl⟩ := heb
        exact h

theorem loop_nil (value : GoString) (f : Fields) : parse.loop [] value f = some (f, value) := rfl

theorem pad_four (y : Nat) :
    Spec.pad 4 y = [0x30 + y / 10 / 10 / 10 % 10, 0x30 + y / 10 / 10 % 10, 0x30 + y / 10 % 10,
      0x30 + y % 10] := by
  simp [Spec.pad]

theorem pad_two (m : Nat) : Spec.pad 2 m = [0x30 + m / 10 % 10, 0x30 + m % 10] := by
  simp [Spec.pad]

theorem isLeap_eq (y : Nat) : isLeap (y : Int) = Spec.isLeapYear y := by
  unfold isLeap Spec.isLeapYear
  have h4 : ((y : Int) % 4 = 0) ↔ (y % 4 = 0) := by omega
  have h100 : ((y : Int) % 100 = 0) ↔ (y % 100 = 0) := by omega
  have h400 : ((y : Int) % 400 = 0) ↔ (y % 400 = 0) := by omega
  by_cases a : y % 4 = 0 <;> by_cases b : y % 100 = 0 <;> by_cases c : y % 400 = 0 <;>
    simp [h4, h100, h400, a, b, c] <;> omega

theorem daysIn_eq (y m : Nat) (h1 : 1 ≤ m) (h2 : m ≤ 12) :
    daysIn (m : Int) (y : Int) = (Spec.daysInMonth y m : Int) := by
  unfold daysIn
  rw [isLeap_eq]
  interval_cases m <;> cases hl : Spec.isLeapYear y <;> simp [Spec.daysInMonth, hl]



theorem layoutISO_chunks :
    layoutISO.chunks
      = [([], StdChunk.stdLongYear), ([0x2D], StdChunk.stdZeroMonth), ([0x2D], StdChunk.stdZeroDay)] := by
  decide

theorem layoutISO_suffix : layoutISO.suffix = [] := rfl

/-- What the loop of `parse` accepts for `2006-01-02`. -/
theorem loop_ISO_iff (value rest : GoString) (f0 f : Fields) :
    parse.loop layoutISO.chunks value f0 = some (f, rest)
      ↔ ∃ a b c d e g h i : Nat,
          (0x30 ≤ a ∧ a ≤ 0x39) ∧ (0x30 ≤ b ∧ b ≤ 0x39) ∧ (0x30 ≤ c ∧ c ≤ 0x39)
          ∧ (0x30 ≤ d ∧ d ≤ 0x39) ∧ (0x30 ≤ e ∧ e ≤ 0x39) ∧ (0x30 ≤ g ∧ g ≤ 0x39)
          ∧ (0x30 ≤ h ∧ h ≤ 0x39) ∧ (0x30 ≤ i ∧ i ≤ 0x39)
          ∧ value = a :: b :: c :: d :: 0x2D :: e :: g :: 0x2D :: h :: i :: rest
          ∧ 1 ≤ (e - 0x30) * 10 + (g - 0x30) ∧ (e - 0x30) * 10 + (g - 0x30) ≤ 12
          ∧ f = { year :=
                    ((((a - 0x30) * 10 + (b - 0x30)) * 10 + (c - 0x30)) * 10 + (d - 0x30) : Nat),
                  month := (((e - 0x30) * 10 + (g - 0x30) : Nat) : Int),
                  day := (((h - 0x30) * 10 + (i - 0x30) : Nat) : Int) } := by
  rw [layoutISO_chunks]
  constructor
  · intro hl
    obtain ⟨v1, f1, v2, hv1, he1, hl⟩ := (loop_cons_iff _ _ _ _ _ _).1 hl
    obtain ⟨v3, f2, v4, hv3, he2, hl⟩ := (loop_cons_iff _ _ _ _ _ _).1 hl
    obtain ⟨v5, f3, v6, hv5, he3, hl⟩ := (loop_cons_iff _ _ _ _ _ _).1 hl
    rw [loop_nil] at hl
    simp only [Option.some.injEq, Prod.mk.injEq] at hl
    obtain ⟨rfl, rfl⟩ := hl
    obtain ⟨a, b, c, d, ha, hb, hc, hd, hv, hf1⟩ := (element_year_iff _ _ _ _).1 he1
    obtain ⟨e, g, he, he', hg, hg', hvm, hm1, hm2, hf2⟩ := (element_zeroMonth_iff _ _ _ _).1 he2
    obtain ⟨h, i, hh, hh', hi, hi', hvd, hf3⟩ := (element_zeroDay_iff _ _ _ _).1 he3
    refine ⟨a, b, c, d, e, g, h, i, ha, hb, hc, hd, ⟨he, he'⟩, ⟨hg, hg'⟩, ⟨hh, hh'⟩, ⟨hi, hi'⟩,
      ?_, hm1, hm2, ?_⟩
    · rw [hv1, List.nil_append, hv, hv3, hvm, hv5, hvd]
      rfl
    · rw [hf3, hf2, hf1]
  · rintro ⟨a, b, c, d, e, g, h, i, ha, hb, hc, hd, he, hg, hh, hi, hv, hm1, hm2, hf⟩
    refine (loop_cons_iff _ _ _ _ _ _).2 ⟨value, _, 0x2D :: e :: g :: 0x2D :: h :: i :: rest,
      by simp, (element_year_iff _ _ _ _).2 ⟨a, b, c, d, ha, hb, hc, hd, hv, rfl⟩, ?_⟩
    refine (loop_cons_iff _ _ _ _ _ _).2 ⟨e :: g :: 0x2D :: h :: i :: rest, _,
      0x2D :: h :: i :: rest, by simp,
      (element_zeroMonth_iff _ _ _ _).2 ⟨e, g, he.1, he.2, hg.1, hg.2, rfl, hm1, hm2, rfl⟩, ?_⟩
    refine (loop_cons_iff _ _ _ _ _ _).2 ⟨h :: i :: rest, _, rest, by simp,
      (element_zeroDay_iff _ _ _ _).2 ⟨h, i, hh.1, hh.2, hi.1, hi.2, rfl, rfl⟩, ?_⟩
    rw [loop_nil, hf]

/-- The values `time.ParseInLocation("2006-01-02", value, loc)` accepts are the
texts `YYYY-MM-DD` of the dates of the calendar, and the time is that date. -/
theorem ParseInLocation_ISO_iff (value : GoString) (loc : Location) (t : Time) :
    ParseInLocation layoutISO value loc = Except.ok t
      ↔ ∃ y m d, Spec.IsDate y m d ∧ value = Spec.ymd y m d ∧ t = Date y m d 0 0 0 0 loc := by
  unfold ParseInLocation
  rw [layoutISO_suffix]
  constructor
  · intro hp
    cases hl : parse.loop layoutISO.chunks value { year := 0, month := -1, day := -1 } with
    | none => simp [hl] at hp
    | some r =>
      obtain ⟨f, rest⟩ := r
      obtain ⟨a, b, c, d, e, g, h, i, ha, hb, hc, hd, he, hg, hh, hi, hv, hm1, hm2, hf⟩ :=
        (loop_ISO_iff _ _ _ _).1 hl
      simp only [hl, skip] at hp
      by_cases hrest : rest = []
      · subst hrest
        subst hf
        have hmonth : ¬ ((((e - 0x30) * 10 + (g - 0x30) : Nat) : Int) < 0) := by omega
        have hday : ¬ ((((h - 0x30) * 10 + (i - 0x30) : Nat) : Int) < 0) := by omega
        simp only [ne_eq, not_true_eq_false, if_false, hmonth, hday] at hp
        rw [daysIn_eq _ _ hm1 hm2] at hp
        by_cases hrange : (((h - 0x30) * 10 + (i - 0x30) : Nat) : Int) < 1
            ∨ (((h - 0x30) * 10 + (i - 0x30) : Nat) : Int)
                > (Spec.daysInMonth ((((a - 0x30) * 10 + (b - 0x30)) * 10 + (c - 0x30)) * 10
                    + (d - 0x30)) ((e - 0x30) * 10 + (g - 0x30)) : Int)
        · rw [if_pos hrange] at hp
          cases hp
        · rw [if_neg hrange] at hp
          simp only [Except.ok.injEq] at hp
          refine ⟨(((a - 0x30) * 10 + (b - 0x30)) * 10 + (c - 0x30)) * 10 + (d - 0x30),
            (e - 0x30) * 10 + (g - 0x30), (h - 0x30) * 10 + (i - 0x30),
            ⟨?_, hm1, hm2, ?_, ?_⟩, ?_, hp.symm⟩
          · omega
          · omega
          · omega
          · rw [hv, Spec.ymd, pad_four, pad_two, pad_two]
            simp only [List.cons_append, List.nil_append, List.cons.injEq, and_true]
            refine ⟨?_, ?_, ?_, ?_, trivial, ?_, ?_, trivial, ?_, ?_⟩ <;> omega
      · simp [hrest] at hp
  · rintro ⟨y, m, d, ⟨hy, hm1, hm2, hd1, hd2⟩, hv, ht⟩
    have hdm : Spec.daysInMonth y m ≤ 31 := by
      unfold Spec.daysInMonth
      interval_cases m <;> simp only [] <;> first | omega | (split <;> omega)
    have hl : parse.loop layoutISO.chunks value { year := 0, month := -1, day := -1 }
        = some ({ year := (y : Int), month := (m : Int), day := (d : Int) }, []) := by
      refine (loop_ISO_iff _ _ _ _).2 ⟨0x30 + y / 10 / 10 / 10 % 10, 0x30 + y / 10 / 10 % 10,
        0x30 + y / 10 % 10, 0x30 + y % 10, 0x30 + m / 10 % 10, 0x30 + m % 10,
        0x30 + d / 10 % 10, 0x30 + d % 10, by omega, by omega, by omega, by omega, by omega,
        by omega, by omega, by omega, ?_, by omega, by omega, ?_⟩
      · rw [hv, Spec.ymd, pad_four, pad_two, pad_two]
        rfl
      · have e1 : (((0x30 + y / 10 / 10 / 10 % 10 - 0x30) * 10 + (0x30 + y / 10 / 10 % 10 - 0x30))
            * 10 + (0x30 + y / 10 % 10 - 0x30)) * 10 + (0x30 + y % 10 - 0x30) = y := by omega
        have e2 : (0x30 + m / 10 % 10 - 0x30) * 10 + (0x30 + m % 10 - 0x30) = m := by omega
        have e3 : (0x30 + d / 10 % 10 - 0x30) * 10 + (0x30 + d % 10 - 0x30) = d := by omega
        rw [e1, e2, e3]
    have hmonth : ¬ ((m : Int) < 0) := by omega
    have hday : ¬ ((d : Int) < 0) := by omega
    have hrange : ¬ ((d : Int) < 1 ∨ (d : Int) > (Spec.daysInMonth y m : Int)) := by omega
    simp only [hl, skip, ne_eq, not_true_eq_false, if_false, hmonth, hday,
      daysIn_eq y m hm1 hm2, hrange]
    rw [ht]



/-! ## The extraction of a page -/

/-- Once the metadata list has built `Meta`, extraction ends as the block for
`"发布时间"` ends. -/
theorem articleview_of_Meta (e : Document) (Meta : GoMap)
    (hM : FetchJobs.Meta e.fenlei [] = Except.ok Meta) :
    FetchJobs.articleview e
      = (match FetchJobs.PublishedAt Meta with
         | Except.error p => Except.error p
         | Except.ok PublishedAt =>
           Except.ok
             { URL := e.url, Title := e.title, Meta := Meta,
               Categories :=
                 (e.position.filter (fun a => decide (2 ≤ a.nthChild))).map (fun a => a.text),
               Subjects := FetchJobs.labels Meta (utf8 "需求学科"),
               Provinces := FetchJobs.labels Meta (utf8 "所属省份"),
               Locations := FetchJobs.labels Meta (utf8 "工作地点"),
               PublishedAt := PublishedAt, ExpireAt := FetchJobs.ExpireAt Meta,
               Body := e.body }) := by
  unfold FetchJobs.articleview
  rw [hM]
  simp only [bind, Except.bind, pure, Except.pure]
  cases FetchJobs.PublishedAt Meta <;> rfl

theorem articleview_of_Meta_error (e : Document) (p : Panic)
    (hM : FetchJobs.Meta e.fenlei [] = Except.error p) :
    FetchJobs.articleview e = Except.error p := by
  unfold FetchJobs.articleview
  rw [hM]
  rfl

/-- A value is the text of a date. -/
theorem PublishedAt_ok (Meta : GoMap)
    (hP : ∀ v, Meta.get (utf8 "发布时间") = some v →
      ∃ y m d, Spec.IsDate y m d ∧ v = Spec.ymd y m d) :
    ∃ PublishedAt, FetchJobs.PublishedAt Meta = Except.ok PublishedAt := by
  unfold FetchJobs.PublishedAt
  cases hv : Meta.get (utf8 "发布时间") with
  | none => exact ⟨none, rfl⟩
  | some v =>
    obtain ⟨y, m, d, hd, hvd⟩ := hP v hv
    have := (ParseInLocation_ISO_iff v LOCATION _).2 ⟨y, m, d, hd, hvd, rfl⟩
    simp only [this]
    exact ⟨_, rfl⟩

theorem PublishedAt_error_iff (Meta : GoMap) :
    (∃ p, FetchJobs.PublishedAt Meta = Except.error p)
      ↔ ∃ v, Meta.get (utf8 "发布时间") = some v
          ∧ ¬ ∃ y m d, Spec.IsDate y m d ∧ v = Spec.ymd y m d := by
  constructor
  · rintro ⟨p, hp⟩
    unfold FetchJobs.PublishedAt at hp
    cases hv : Meta.get (utf8 "发布时间") with
    | none => simp [hv] at hp
    | some v =>
      refine ⟨v, rfl, ?_⟩
      rintro ⟨y, m, d, hd, hvd⟩
      have := (ParseInLocation_ISO_iff v LOCATION _).2 ⟨y, m, d, hd, hvd, rfl⟩
      simp [hv, this] at hp
  · rintro ⟨v, hv, hno⟩
    unfold FetchJobs.PublishedAt
    simp only [hv]
    cases hp : ParseInLocation layoutISO v LOCATION with
    | error err => exact ⟨_, rfl⟩
    | ok t =>
      obtain ⟨y, m, d, hd, hvd, _⟩ := (ParseInLocation_ISO_iff v LOCATION t).1 hp
      exact absurd ⟨y, m, d, hd, hvd⟩ hno

theorem Meta_ok_or_panic (entries : List GoString) :
    ((∀ text ∈ entries, colon <:+: text) ∧ ∃ Meta, FetchJobs.Meta entries [] = Except.ok Meta)
      ∨ ((∃ text ∈ entries, ¬ colon <:+: text)
          ∧ FetchJobs.Meta entries [] = Except.error (Panic.indexOutOfRange 1 1)) := by
  by_cases h : ∀ text ∈ entries, colon <:+: text
  · left
    obtain ⟨cuts, hc, hf⟩ := exists_cuts entries h
    exact ⟨h, _, hc ▸ Meta_ok cuts [] hf⟩
  · right
    have h2 : ∃ text ∈ entries, ¬ colon <:+: text := by
      by_contra hne
      apply h
      intro text ht
      by_contra hc
      exact hne ⟨text, ht, hc⟩
    exact ⟨h2, Meta_panic entries [] h2⟩



/-- C6. When every entry of the metadata list holds a full-width colon, the
list builds a map. With each entry cut at its first colon (`cuts` gives the
text before it, which holds no colon, and the text after it, which may; this
is the cut `SplitN` makes), the map gives for a key the trimmed text after the
colon of the last entry whose trimmed text before the colon is that key, and
nothing for other keys; no key of the map starts or ends with white space;
and trimming takes white space off the two ends of a text and nothing else. -/
theorem Meta_first_colon_trimmed_last_wins (entries : List GoString)
    (h : ∀ text ∈ entries, colon <:+: text) :
    ∃ (cuts : List (GoString × GoString)) (Meta : GoMap),
      entries = cuts.map (fun c => c.1 ++ colon ++ c.2)
        ∧ (∀ c ∈ cuts, ¬ colon <:+: c.1)
        ∧ FetchJobs.Meta entries [] = Except.ok Meta
        ∧ (∀ k, Meta.get k
            = (cuts.map (fun c => (TrimSpace c.1, TrimSpace c.2))).reverse.lookup k)
        ∧ (∀ k v, Meta.get k = some v → ∀ w ∈ whiteSpaceBytes, ¬ w <+: k ∧ ¬ w <:+ k)
        ∧ (∀ pre post, ¬ colon <:+: pre → SplitN (pre ++ colon ++ post) colon 2 = [pre, post])
        ∧ (∀ s, ∃ l r : List GoString, (∀ w ∈ l, w ∈ whiteSpaceBytes)
            ∧ (∀ w ∈ r, w ∈ whiteSpaceBytes) ∧ s = l.flatten ++ TrimSpace s ++ r.flatten) := by
  obtain ⟨cuts, hc, hf⟩ := exists_cuts entries h
  obtain ⟨Meta, hM, hget, hkeys⟩ := Meta_of_cuts cuts hf
  exact ⟨cuts, Meta, hc, hf, hc ▸ hM, hget, hkeys, SplitN_colon, TrimSpace_cut⟩

/-- C6 at three entries: white space around the label and the value, a value
with a colon of its own, and the first label again. -/
theorem Meta_first_colon_trimmed_last_wins_witness :
    (∀ text ∈ Example.entries, colon <:+: text)
      ∧ ∃ (cuts : List (GoString × GoString)) (Meta : GoMap),
          Example.entries = cuts.map (fun c => c.1 ++ colon ++ c.2)
            ∧ (∀ c ∈ cuts, ¬ colon <:+: c.1)
            ∧ FetchJobs.Meta Example.entries [] = Except.ok Meta
            ∧ (∀ k, Meta.get k
                = (cuts.map (fun c => (TrimSpace c.1, TrimSpace c.2))).reverse.lookup k)
            ∧ (∀ k v, Meta.get k = some v → ∀ w ∈ whiteSpaceBytes, ¬ w <+: k ∧ ¬ w <:+ k)
            ∧ (∀ pre post, ¬ colon <:+: pre →
                SplitN (pre ++ colon ++ post) colon 2 = [pre, post])
            ∧ (∀ s, ∃ l r : List GoString, (∀ w ∈ l, w ∈ whiteSpaceBytes)
                ∧ (∀ w ∈ r, w ∈ whiteSpaceBytes) ∧ s = l.flatten ++ TrimSpace s ++ r.flatten) :=
  ⟨by decide, Meta_first_colon_trimmed_last_wins Example.entries (by decide)⟩

/-- The map of the three entries: the value with the colon is kept whole, the
label that came twice has its last value. -/
theorem Meta_example :
    FetchJobs.Meta Example.entries []
      = Except.ok [(utf8 "所属省份", utf8 "Hainan"), (utf8 "备注", utf8 "a：b")] := by
  decide

theorem labels_eq (Meta : GoMap) (label : GoString) :
    FetchJobs.labels Meta label
      = (match Meta.get label with
         | some v => v.splitOn 0x20
         | none => []) := by
  unfold FetchJobs.labels
  cases Meta.get label with
  | none => rfl
  | some v => exact Split_space v

/-- C5, amended. When the metadata list has built `Meta` and the value of
`"发布时间"` is absent or the text of a date, extraction yields a job, and for
each of the labels `"所属省份"`, `"工作地点"`, `"需求学科"` its sequence is the
value of the label cut at every space (empty pieces kept) when `Meta` has the
label and empty when it has not. -/
theorem labels_split_at_spaces (e : Document) (Meta : GoMap)
    (hM : FetchJobs.Meta e.fenlei [] = Except.ok Meta)
    (hP : ∀ v, Meta.get (utf8 "发布时间") = some v →
      ∃ y m d, Spec.IsDate y m d ∧ v = Spec.ymd y m d) :
    ∃ job, FetchJobs.articleview e = Except.ok job
      ∧ job.Meta = Meta
      ∧ job.Provinces
          = (match Meta.get (utf8 "所属省份") with
             | some v => v.splitOn 0x20
             | none => [])
      ∧ job.Locations
          = (match Meta.get (utf8 "工作地点") with
             | some v => v.splitOn 0x20
             | none => [])
      ∧ job.Subjects
          = (match Meta.get (utf8 "需求学科") with
             | some v => v.splitOn 0x20
             | none => []) := by
  obtain ⟨pub, hpub⟩ := PublishedAt_ok Meta hP
  rw [articleview_of_Meta e Meta hM, hpub]
  exact ⟨_, rfl, rfl, labels_eq _ _, labels_eq _ _, labels_eq _ _⟩

theorem Example_pageMeta : FetchJobs.Meta Example.page.fenlei [] = Except.ok Example.pageMeta := by
  decide

theorem Example_pageMeta_date (v : GoString)
    (h : Example.pageMeta.get (utf8 "发布时间") = some v) :
    ∃ y m d, Spec.IsDate y m d ∧ v = Spec.ymd y m d := by
  have h2 : Example.pageMeta.get (utf8 "发布时间") = some (utf8 "2023-05-01") := by decide
  rw [h2] at h
  simp only [Option.some.injEq] at h
  subst h
  exact ⟨2023, 5, 1, by decide, by decide⟩

/-- C5 at a page with the entry `所属省份：Guangdong Fujian`, an entry for
`工作地点` and none for `需求学科`. -/
theorem labels_split_at_spaces_witness :
    FetchJobs.Meta Example.page.fenlei [] = Except.ok Example.pageMeta
      ∧ (∀ v, Example.pageMeta.get (utf8 "发布时间") = some v →
          ∃ y m d, Spec.IsDate y m d ∧ v = Spec.ymd y m d)
      ∧ ∃ job, FetchJobs.articleview Example.page = Except.ok job
          ∧ job.Provinces = [utf8 "Guangdong", utf8 "Fujian"]
          ∧ job.Locations = [utf8 "Shenzhen"]
          ∧ job.Subjects = [] := by
  refine ⟨Example_pageMeta, Example_pageMeta_date, ?_⟩
  obtain ⟨job, h1, _, h3, h4, h5⟩ :=
    labels_split_at_spaces Example.page Example.pageMeta Example_pageMeta Example_pageMeta_date
  refine ⟨job, h1, h3.trans (by decide), h4.trans (by decide), h5.trans (by decide)⟩

/-- C5 as it is written fails: the page with the one entry `发布时间：soon` has
a `Meta` without the label `所属省份`, and extraction panics. -/
theorem labels_counterexample :
    FetchJobs.Meta Example.pageBadDate.fenlei [] = Except.ok [(utf8 "发布时间", utf8 "soon")]
      ∧ GoMap.get [(utf8 "发布时间", utf8 "soon")] (utf8 "所属省份") = none
      ∧ FetchJobs.articleview Example.pageBadDate
          = Except.error (Panic.parseError { layout := utf8 "2006-01-02", value := utf8 "soon" }) := by
  decide



/-! ## The layout `2006年1月2日` -/

/-- One or two digit bytes, two when two are there. -/
theorem getnum_free_iff (s rest : GoString) (n : Int) :
    getnum s false = some (n, rest)
      ↔ (∃ a b : Nat, 0x30 ≤ a ∧ a ≤ 0x39 ∧ 0x30 ≤ b ∧ b ≤ 0x39 ∧ s = a :: b :: rest
            ∧ n = (((a - 0x30) * 10 + (b - 0x30) : Nat) : Int))
        ∨ (∃ a : Nat, 0x30 ≤ a ∧ a ≤ 0x39 ∧ s = a :: rest ∧ isDigit rest 0 = false
            ∧ n = ((a - 0x30 : Nat) : Int)) := by
  rcases s with _ | ⟨a, s⟩
  · simp [getnum, isDigit_nil]
  · by_cases ha : 0x30 ≤ a ∧ a ≤ 0x39
    · by_cases hb : isDigit s 0 = true
      · rcases s with _ | ⟨b, s⟩
        · simp [isDigit_nil] at hb
        · have hb2 : 0x30 ≤ b ∧ b ≤ 0x39 := by simpa [isDigit_zero] using hb
          simp only [getnum, isDigit_zero, isDigit_succ, ha, hb2, and_self, decide_True,
            Bool.not_true, Bool.false_eq_true, if_false, List.getD_cons_zero,
            List.getD_cons_succ, List.drop_succ_cons, List.drop_zero, Option.some.injEq,
            Prod.mk.injEq]
          constructor
          · rintro ⟨rfl, rfl⟩
            exact Or.inl ⟨a, b, ha.1, ha.2, hb2.1, hb2.2, rfl, rfl⟩
          · rintro (⟨a2, b2, _, _, _, _, hs, hn⟩ | ⟨a2, _, _, hs, hnd, _⟩)
            · simp only [List.cons.injEq] at hs
              obtain ⟨rfl, rfl, rfl⟩ := hs
              exact ⟨hn.symm, rfl⟩
            · simp only [List.cons.injEq] at hs
              obtain ⟨rfl, rfl⟩ := hs
              simp [isDigit_zero, hb2] at hnd
      · have hb3 : isDigit s 0 = false := by simpa using hb
        simp only [getnum, isDigit_zero, isDigit_succ, ha, hb3, and_self, decide_True,
          Bool.not_true, Bool.not_false, Bool.false_eq_true, if_false, if_true,
          List.getD_cons_zero, List.drop_succ_cons, List.drop_zero, Option.some.injEq,
          Prod.mk.injEq]
        constructor
        · rintro ⟨rfl, rfl⟩
          exact Or.inr ⟨a, ha.1, ha.2, rfl, hb3, rfl⟩
        · rintro (⟨a2, b2, _, _, h3, h4, hs, _⟩ | ⟨a2, _, _, hs, _, hn⟩)
          · simp only [List.cons.injEq] at hs
            obtain ⟨rfl, rfl⟩ := hs
            simp [isDigit_zero, h3, h4] at hb3
          · simp only [List.cons.injEq] at hs
            obtain ⟨rfl, rfl⟩ := hs
            exact ⟨hn.symm, rfl⟩
    · simp only [getnum, isDigit_zero, ha, decide_False, Bool.not_false, if_true]
      constructor
      · intro h
        cases h
      · rintro (⟨a2, b2, h1, h2, _, _, hs, _⟩ | ⟨a2, h1, h2, hs, _, _⟩)
        · simp only [List.cons.injEq] at hs
          obtain ⟨rfl, rfl⟩ := hs
          exact absurd ⟨h1, h2⟩ ha
        · simp only [List.cons.injEq] at hs
          obtain ⟨rfl, rfl⟩ := hs
          exact absurd ⟨h1, h2⟩ ha

/-- The digits `getnum` reads write the number it returns. -/
theorem getnum_free_numeral (s rest : GoString) (n : Int)
    (h : getnum s false = some (n, rest)) :
    ∃ (k : Nat) (ns : GoString), n = (k : Int) ∧ k ≤ 99 ∧ Spec.IsNumeral ns k ∧ s = ns ++ rest := by
  rcases (getnum_free_iff s rest n).1 h with ⟨a, b, h1, h2, h3, h4, hs, hn⟩ | ⟨a, h1, h2, hs, _, hn⟩
  · refine ⟨(a - 0x30) * 10 + (b - 0x30), [a, b], hn, by omega, Or.inl ?_, by simp [hs]⟩
    rw [pad_two]
    simp only [List.cons.injEq, and_true]
    constructor <;> omega
  · refine ⟨a - 0x30, [a], hn, by omega, Or.inr ⟨by omega, ?_⟩, by simp [hs]⟩
    simp only [Spec.pad, List.nil_append, List.cons.injEq, and_true]
    omega

/-- A numeral before a byte that is no digit is read whole. -/
theorem getnum_free_of_numeral (ns rest : GoString) (k : Nat) (hk : Spec.IsNumeral ns k)
    (hk99 : k ≤ 99) (hrest : isDigit rest 0 = false) :
    getnum (ns ++ rest) false = some ((k : Int), rest) := by
  rcases hk with h2 | ⟨h9, h1⟩
  · rw [h2, pad_two]
    refine (getnum_free_iff _ _ _).2 (Or.inl ⟨0x30 + k / 10 % 10, 0x30 + k % 10, by omega,
      by omega, by omega, by omega, rfl, ?_⟩)
    have : (0x30 + k / 10 % 10 - 0x30) * 10 + (0x30 + k % 10 - 0x30) = k := by omega
    rw [this]
  · rw [h1]
    refine (getnum_free_iff _ _ _).2 (Or.inr ⟨0x30 + k % 10, by omega, by omega, ?_, hrest, ?_⟩)
    · simp [Spec.pad]
    · have : 0x30 + k % 10 - 0x30 = k := by omega
      rw [this]



theorem element_numMonth_iff (value rest : GoString) (f f2 : Fields) :
    parse.element StdChunk.stdNumMonth value f = some (f2, rest)
      ↔ ∃ n : Int, getnum value false = some (n, rest) ∧ 1 ≤ n ∧ n ≤ 12
          ∧ f2 = { f with month := n } := by
  unfold parse.element
  have hd : decide (StdChunk.stdNumMonth = StdChunk.stdZeroMonth) = false := by decide
  simp only [hd]
  cases hg : getnum value false with
  | none => simp
  | some r =>
    obtain ⟨n, value2⟩ := r
    by_cases hr : n ≤ 0 ∨ 12 < n
    · simp only [hr, if_true, reduceCtorEq, Option.some.injEq, Prod.mk.injEq, false_iff,
        not_exists, not_and]
      rintro n2 ⟨rfl, rfl⟩ h1 h2
      omega
    · simp only [hr, if_false, Option.some.injEq, Prod.mk.injEq]
      constructor
      · rintro ⟨rfl, rfl⟩
        exact ⟨n, ⟨rfl, rfl⟩, by omega, by omega, rfl⟩
      · rintro ⟨n2, ⟨rfl, rfl⟩, _, _, hf⟩
        exact ⟨hf.symm, rfl⟩

theorem element_day_iff (value rest : GoString) (f f2 : Fields) :
    parse.element StdChunk.stdDay value f = some (f2, rest)
      ↔ ∃ n : Int, getnum value false = some (n, rest) ∧ f2 = { f with day := n } := by
  unfold parse.element
  have hd : decide (StdChunk.stdDay = StdChunk.stdZeroDay) = false := by decide
  simp only [hd]
  cases hg : getnum value false with
  | none => simp
  | some r =>
    obtain ⟨n, value2⟩ := r
    simp only [Option.some.injEq, Prod.mk.injEq]
    constructor
    · rintro ⟨rfl, rfl⟩
      exact ⟨n, ⟨rfl, rfl⟩, rfl⟩
    · rintro ⟨n2, ⟨rfl, rfl⟩, hf⟩
      exact ⟨hf.symm, rfl⟩

theorem layoutCN_chunks :
    layoutCN.chunks
      = [([], StdChunk.stdLongYear), (utf8 "年", StdChunk.stdNumMonth), (utf8 "月", StdChunk.stdDay)] := rfl

theorem layoutCN_suffix : layoutCN.suffix = utf8 "日" := rfl

theorem isDigit_yue (rest : GoString) : isDigit (utf8 "月" ++ rest) 0 = false := by
  have : utf8 "月" = [0xE6, 0x9C, 0x88] := by decide
  rw [this]
  rfl

theorem isDigit_ri (rest : GoString) : isDigit (utf8 "日" ++ rest) 0 = false := by
  have : utf8 "日" = [0xE6, 0x97, 0xA5] := by decide
  rw [this]
  rfl

theorem daysInMonth_le (y m : Nat) : Spec.daysInMonth y m ≤ 31 := by
  unfold Spec.daysInMonth
  split <;> first | omega | (split <;> omega)

/-- The values `time.ParseInLocation("2006年1月2日", value, loc)` accepts are the
texts `<year>年<month>月<day>日` of the dates of the calendar, and the time is
that date. -/
theorem ParseInLocation_CN_iff (value : GoString) (loc : Location) (t : Time) :
    ParseInLocation layoutCN value loc = Except.ok t
      ↔ ∃ y m d, Spec.IsDate y m d ∧ Spec.IsCNDate value y m d
          ∧ t = Date y m d 0 0 0 0 loc := by
  unfold ParseInLocation
  rw [layoutCN_suffix, layoutCN_chunks]
  constructor
  · intro hp
    cases hl : parse.loop [([], StdChunk.stdLongYear), (utf8 "年", StdChunk.stdNumMonth),
        (utf8 "月", StdChunk.stdDay)] value { year := 0, month := -1, day := -1 } with
    | none => simp [hl] at hp
    | some r =>
      obtain ⟨f, rest⟩ := r
      simp only [hl] at hp
      obtain ⟨v1, f1, v2, hv1, he1, hl2⟩ := (loop_cons_iff _ _ _ _ _ _).1 hl
      obtain ⟨v3, f2, v4, hv3, he2, hl3⟩ := (loop_cons_iff _ _ _ _ _ _).1 hl2
      obtain ⟨v5, f3, v6, hv5, he3, hl4⟩ := (loop_cons_iff _ _ _ _ _ _).1 hl3
      rw [loop_nil] at hl4
      simp only [Option.some.injEq, Prod.mk.injEq] at hl4
      obtain ⟨rfl, rfl⟩ := hl4
      obtain ⟨a, b, c, d, ha, hb, hc, hd, hv, hf1⟩ := (element_year_iff _ _ _ _).1 he1
      obtain ⟨mn, hgm, hm1, hm2, hf2⟩ := (element_numMonth_iff _ _ _ _).1 he2
      obtain ⟨dn, hgd, hf3⟩ := (element_day_iff _ _ _ _).1 he3
      obtain ⟨m, ms, hmn, _, hms, hv3s⟩ := getnum_free_numeral _ _ _ hgm
      obtain ⟨dd, ds, hdn, hd99, hds, hv5s⟩ := getnum_free_numeral _ _ _ hgd
      subst hmn
      subst hdn
      cases hs : skip v6 (utf8 "日") with
      | none => simp [hs] at hp
      | some rest2 =>
        have hv6 := (skip_iff _ _ _).1 hs
        simp only [hs] at hp
        by_cases hrest : rest2 = []
        · subst hrest
          subst hf3
          subst hf2
          subst hf1
          have hmonth : ¬ ((m : Int) < 0) := by omega
          have hday : ¬ ((dd : Int) < 0) := by omega
          simp only [ne_eq, not_true_eq_false, if_false, hmonth, hday] at hp
          rw [daysIn_eq _ _ (by omega) (by omega)] at hp
          by_cases hrange : (dd : Int) < 1
              ∨ (dd : Int) > (Spec.daysInMonth ((((a - 0x30) * 10 + (b - 0x30)) * 10
                  + (c - 0x30)) * 10 + (d - 0x30)) m : Int)
          · rw [if_pos hrange] at hp
            cases hp
          · rw [if_neg hrange] at hp
            simp only [Except.ok.injEq] at hp
            refine ⟨(((a - 0x30) * 10 + (b - 0x30)) * 10 + (c - 0x30)) * 10 + (d - 0x30),
              m, dd, ⟨?_, by omega, by omega, ?_, ?_⟩, ⟨ms, ds, hms, hds, ?_⟩, hp.symm⟩
            · omega
            · omega
            · omega
            · rw [hv1, List.nil_append, hv, hv3, hv3s, hv5, hv5s, hv6, pad_four]
              have e1 : 0x30 + ((((a - 0x30) * 10 + (b - 0x30)) * 10 + (c - 0x30)) * 10
                  + (d - 0x30)) / 10 / 10 / 10 % 10 = a := by omega
              have e2 : 0x30 + ((((a - 0x30) * 10 + (b - 0x30)) * 10 + (c - 0x30)) * 10
                  + (d - 0x30)) / 10 / 10 % 10 = b := by omega
              have e3 : 0x30 + ((((a - 0x30) * 10 + (b - 0x30)) * 10 + (c - 0x30)) * 10
                  + (d - 0x30)) / 10 % 10 = c := by omega
              have e4 : 0x30 + ((((a - 0x30) * 10 + (b - 0x30)) * 10 + (c - 0x30)) * 10
                  + (d - 0x30)) % 10 = d := by omega
              rw [e1, e2, e3, e4]
              simp
        · simp [hrest] at hp
  · rintro ⟨y, m, d, ⟨hy, hm1, hm2, hd1, hd2⟩, ⟨ms, ds, hms, hds, hv⟩, ht⟩
    have hdm := daysInMonth_le y m
    have hl : parse.loop [([], StdChunk.stdLongYear), (utf8 "年", StdChunk.stdNumMonth),
        (utf8 "月", StdChunk.stdDay)] value { year := 0, month := -1, day := -1 }
        = some ({ year := (y : Int), month := (m : Int), day := (d : Int) }, utf8 "日") := by
      refine (loop_cons_iff _ _ _ _ _ _).2 ⟨value, { year := (y : Int), month := -1, day := -1 },
        utf8 "年" ++ (ms ++ (utf8 "月" ++ (ds ++ utf8 "日"))), by simp,
        (element_year_iff _ _ _ _).2 ⟨0x30 + y / 10 / 10 / 10 % 10, 0x30 + y / 10 / 10 % 10,
          0x30 + y / 10 % 10, 0x30 + y % 10, by omega, by omega, by omega, by omega, ?_, ?_⟩, ?_⟩
      · rw [hv, pad_four]
        simp
      · have e1 : (((0x30 + y / 10 / 10 / 10 % 10 - 0x30) * 10 + (0x30 + y / 10 / 10 % 10 - 0x30))
            * 10 + (0x30 + y / 10 % 10 - 0x30)) * 10 + (0x30 + y % 10 - 0x30) = y := by omega
        rw [e1]
      · refine (loop_cons_iff _ _ _ _ _ _).2 ⟨ms ++ (utf8 "月" ++ (ds ++ utf8 "日")),
          { year := (y : Int), month := (m : Int), day := -1 }, utf8 "月" ++ (ds ++ utf8 "日"),
          rfl, (element_numMonth_iff _ _ _ _).2 ⟨(m : Int),
            getnum_free_of_numeral ms _ m hms (by omega) (isDigit_yue _), by omega, by omega,
            rfl⟩, ?_⟩
        refine (loop_cons_iff _ _ _ _ _ _).2 ⟨ds ++ utf8 "日",
          { year := (y : Int), month := (m : Int), day := (d : Int) }, utf8 "日", rfl,
          (element_day_iff _ _ _ _).2 ⟨(d : Int),
            ?_, rfl⟩, ?_⟩
        · have := getnum_free_of_numeral ds (utf8 "日" ++ []) d hds (by omega) (isDigit_ri _)
          simpa using this
        · rw [loop_nil]
    have hs : skip (utf8 "日") (utf8 "日") = some [] := (skip_iff _ _ _).2 (by simp)
    have hmonth : ¬ ((m : Int) < 0) := by omega
    have hday : ¬ ((d : Int) < 0) := by omega
    have hrange : ¬ ((d : Int) < 1 ∨ (d : Int) > (Spec.daysInMonth y m : Int)) := by omega
    simp only [hl, hs, ne_eq, not_true_eq_false, if_false, hmonth, hday,
      daysIn_eq y m hm1 hm2, hrange]
    rw [ht]



theorem search_bounds : ∀ (tx : List (Int × Int)) (sec offset start : Int),
    start ≤ sec → sec < omegaSec →
      (Location.lookup.search tx sec offset start).2.1 ≤ sec
        ∧ sec < (Location.lookup.search tx sec offset start).2.2
  | [], sec, offset, start, h1, h2 => ⟨h1, h2⟩
  | (w, o) :: tx, sec, offset, start, h1, h2 => by
    unfold Location.lookup.search
    by_cases h : sec < w
    · rw [if_pos h]
      exact ⟨h1, h⟩
    · rw [if_neg h]
      exact search_bounds tx sec o w (not_lt.1 h) h2

theorem search_mem : ∀ (tx : List (Int × Int)) (sec offset start : Int),
    ((Location.lookup.search tx sec offset start).1 = offset
        ∧ (Location.lookup.search tx sec offset start).2.1 = start)
      ∨ ((Location.lookup.search tx sec offset start).2.1,
          (Location.lookup.search tx sec offset start).1) ∈ tx
  | [], _, _, _ => Or.inl ⟨rfl, rfl⟩
  | (w, o) :: tx, sec, offset, start => by
    unfold Location.lookup.search
    by_cases h : sec < w
    · rw [if_pos h]
      exact Or.inl ⟨rfl, rfl⟩
    · rw [if_neg h]
      rcases search_mem tx sec o w with ⟨h1, h2⟩ | h1
      · right
        rw [h1, h2]
        exact List.mem_cons_self _ _
      · right
        exact List.mem_cons_of_mem _ h1

theorem search_start : ∀ (tx : List (Int × Int)) (sec offset start : Int),
    List.Chain (fun a b => a ≤ b) start (tx.map Prod.fst) →
      start ≤ (Location.lookup.search tx sec offset start).2.1
  | [], _, _, _, _ => le_refl _
  | (w, o) :: tx, sec, offset, start, hc => by
    unfold Location.lookup.search
    rw [List.map_cons, List.chain_cons] at hc
    by_cases h : sec < w
    · rw [if_pos h]
    · rw [if_neg h]
      exact le_trans hc.1 (search_start tx sec o w hc.2)

theorem search_stable : ∀ (tx : List (Int × Int)) (sec offset start v : Int),
    List.Chain (fun a b => a ≤ b) start (tx.map Prod.fst) →
      (Location.lookup.search tx sec offset start).2.1 ≤ v →
      v < (Location.lookup.search tx sec offset start).2.2 →
      Location.lookup.search tx v offset start = Location.lookup.search tx sec offset start
  | [], _, _, _, _, _, _, _ => rfl
  | (w, o) :: tx, sec, offset, start, v, hc, h1, h2 => by
    unfold Location.lookup.search at h1 h2 ⊢
    rw [List.map_cons, List.chain_cons] at hc
    by_cases h : sec < w
    · rw [if_pos h] at h1 h2 ⊢
      rw [if_pos h2]
    · rw [if_neg h] at h1 h2 ⊢
      have hw : w ≤ v := le_trans (search_start tx sec o w hc.2) h1
      rw [if_neg (not_lt.2 hw)]
      exact search_stable tx sec o w v hc.2 h1 h2

theorem LOCATION_chain :
    List.Chain (fun a b => a ≤ b) alphaSec (LOCATION.tx.map Prod.fst) := by
  simp only [LOCATION, List.map, List.chain_cons, alphaSec]
  norm_num

theorem LOCATION_offsets : ∀ p ∈ LOCATION.tx, 0 < p.2 ∧ p.2 ≤ 32400 := by
  decide

theorem LOCATION_near (u : Int) (hu : u % 86400 = 0) :
    ∀ p ∈ LOCATION.tx, p.1 ≤ u → u < p.1 + p.2 →
      u ∈ [(-1600646400 : Int), -933638400, -908841600, -881020800, -745804800, -716860800,
        -683856000, -652320000, 515548800, 527040000, 545184000, 558489600, 577238400, 589939200,
        608688000, 621993600, 640137600, 653443200, 671587200, 684892800] := by
  intro p hp h1 h2
  simp only [LOCATION, List.mem_cons, List.mem_singleton, List.not_mem_nil, or_false] at hp ⊢
  rcases hp with h | h | h | h | h | h | h | h | h | h | h | h | h | h | h | h | h | h | h | h
    | h | h | h | h | h | h | h | h | h <;> subst h <;> simp only at h1 h2
  all_goals omega

theorem LOCATION_lookup (u : Int) (h1 : alphaSec ≤ u) (h2 : u < omegaSec) :
    (LOCATION.lookup u).2.1 ≤ u ∧ u < (LOCATION.lookup u).2.2
      ∧ 0 < (LOCATION.lookup u).1
      ∧ (((LOCATION.lookup u).2.1 = alphaSec ∧ (LOCATION.lookup u).1 = 29143)
        ∨ ((LOCATION.lookup u).2.1, (LOCATION.lookup u).1) ∈ LOCATION.tx) := by
  obtain ⟨b1, b2⟩ := search_bounds LOCATION.tx u LOCATION.first alphaSec h1 h2
  refine ⟨b1, b2, ?_, ?_⟩
  · rcases search_mem LOCATION.tx u LOCATION.first alphaSec with ⟨e1, _⟩ | hm
    · unfold Location.lookup
      rw [e1]
      decide
    · exact (LOCATION_offsets _ hm).1
  · rcases search_mem LOCATION.tx u LOCATION.first alphaSec with ⟨e1, e2⟩ | hm
    · exact Or.inl ⟨e2, e1⟩
    · exact Or.inr hm

theorem Date_utc_midnight (u : Int) (hu : u % 86400 = 0) (hlo : -4611686018427387904 ≤ u)
    (hhi : u ≤ 4611686018427387904) :
    Date.utc u LOCATION + (LOCATION.lookup (Date.utc u LOCATION)).1
      = u + (if u ∈ [(-1600646400 : Int), -933638400, -908841600, -881020800, -745804800,
          -716860800, -683856000, -652320000] then 3600 else 0) := by
  by_cases hc : u ∈ [(-1600646400 : Int), -933638400, -908841600, -881020800, -745804800,
      -716860800, -683856000, -652320000, 515548800, 527040000, 545184000, 558489600, 577238400,
      589939200, 608688000, 621993600, 640137600, 653443200, 671587200, 684892800]
  · simp only [List.mem_cons, List.mem_singleton, List.not_mem_nil, or_false] at hc
    rcases hc with h | h | h | h | h | h | h | h | h | h | h | h | h | h | h | h | h | h | h | h
      <;> subst h <;> decide
  · have hns : u ∉ [(-1600646400 : Int), -933638400, -908841600, -881020800, -745804800,
        -716860800, -683856000, -652320000] := by
      intro h
      apply hc
      simp only [List.mem_cons, List.mem_singleton, List.not_mem_nil, or_false] at h ⊢
      omega
    rw [if_neg hns, add_zero]
    have ha : alphaSec ≤ u := by
      unfold alphaSec
      omega
    have ho : u < omegaSec := by
      unfold omegaSec
      omega
    obtain ⟨b1, b2, hpos, hmem⟩ := LOCATION_lookup u ha ho
    have hA : ¬ (u - (LOCATION.lookup u).1 < (LOCATION.lookup u).2.1
        ∨ u - (LOCATION.lookup u).1 ≥ (LOCATION.lookup u).2.2) := by
      rintro (h | h)
      · rcases hmem with ⟨e1, e2⟩ | hm
        · rw [e1, e2] at h
          unfold alphaSec at h
          omega
        · exact hc (LOCATION_near u hu _ hm b1 (by omega))
      · omega
    have hst : LOCATION.lookup (u - (LOCATION.lookup u).1) = LOCATION.lookup u := by
      unfold Location.lookup
      apply search_stable _ _ _ _ _ LOCATION_chain
      · have := not_lt.1 (fun h => hA (Or.inl h))
        exact this
      · have : u - (LOCATION.lookup u).1 < (LOCATION.lookup u).2.2 := by omega
        exact this
    have hut : Date.utc u LOCATION = u - (LOCATION.lookup u).1 := by
      unfold Date.utc
      simp only [if_pos (ne_of_gt hpos), if_neg hA]
    rw [hut, hst]
    omega


theorem norm_id (hi lo base : Int) (h0 : 0 ≤ lo) (h1 : lo < base) :
    norm hi lo base = (hi, lo) := by
  unfold norm
  simp only [if_neg (not_lt.2 h0), ge_iff_le, if_neg (not_le.2 h1)]

theorem daysSinceEpoch_eq (y : Nat) (hy : y ≤ 9999) :
    ∃ q b c e : Int, 0 ≤ q ∧ 0 ≤ b ∧ b ≤ 3 ∧ 0 ≤ c ∧ c ≤ 24 ∧ 0 ≤ e ∧ e ≤ 3
      ∧ (y : Int) + 292277022399 = 400 * q + 100 * b + 4 * c + e
      ∧ daysSinceEpoch y = 146097 * q + 36524 * b + 1461 * c + 365 * e := by
  refine ⟨((y : Int) + 292277022399) / 400, ((y : Int) + 292277022399) % 400 / 100,
    ((y : Int) + 292277022399) % 100 / 4, ((y : Int) + 292277022399) % 4, ?_, ?_, ?_, ?_, ?_, ?_,
    ?_, ?_, ?_⟩
  all_goals
    try simp only [daysSinceEpoch, uint64, absoluteZeroYear, daysPer400Years, daysPer100Years,
      daysPer4Years]
    omega

theorem isLeap_iff (y : Nat) (q b c e : Int) (hb0 : 0 ≤ b) (hb : b ≤ 3) (hc0 : 0 ≤ c) (hc : c ≤ 24)
    (he0 : 0 ≤ e) (he : e ≤ 3) (h : (y : Int) + 292277022399 = 400 * q + 100 * b + 4 * c + e) :
    isLeap y = true ↔ e = 3 ∧ (c ≠ 24 ∨ b = 3) := by
  simp only [isLeap, Bool.decide_and, Bool.decide_or, Bool.and_eq_true, Bool.or_eq_true,
    decide_eq_true_eq, decide_not, Bool.not_eq_true', decide_eq_false_iff_not, ne_eq]
  omega

theorem absDate_yday (y : Nat) (hy : y ≤ 9999) (yd s : Int) (h0 : 0 ≤ yd)
    (h1 : yd < (if isLeap y then 366 else 365)) (hs0 : 0 ≤ s) (hs : s < 86400) :
    absDate.yday ((daysSinceEpoch y + yd) * 86400 + s) = ((y : Int), yd) := by
  obtain ⟨q, b, c, e, hq0, hb0, hb, hc0, hc, he0, he, hY, hD⟩ := daysSinceEpoch_eq y hy
  have hl := isLeap_iff y q b c e hb0 hb hc0 hc he0 he hY
  have hyd : yd ≤ 364 ∨ (yd = 365 ∧ e = 3 ∧ (c ≠ 24 ∨ b = 3)) := by
    by_cases hleap : isLeap y = true
    · rw [if_pos hleap] at h1
      have := hl.1 hleap
      omega
    · rw [if_neg hleap] at h1
      omega
  simp only [absDate.yday, hD, int64, absoluteZeroYear, daysPer400Years, daysPer100Years,
    daysPer4Years, secondsPerDay, secondsPerHour, secondsPerMinute]
  have e0 : ((146097 * q + 36524 * b + 1461 * c + 365 * e + yd) * 86400 + s) / (24 * (60 * 60))
      = 146097 * q + 36524 * b + 1461 * c + 365 * e + yd := by omega
  rw [e0]
  have e1 : (146097 * q + 36524 * b + 1461 * c + 365 * e + yd) / (365 * 400 + 97) = q := by omega
  rw [e1]
  have e2 : (146097 * q + 36524 * b + 1461 * c + 365 * e + yd - (365 * 400 + 97) * q)
      = 36524 * b + 1461 * c + 365 * e + yd := by ring
  rw [e2]
  have e3 : (36524 * b + 1461 * c + 365 * e + yd) / (365 * 100 + 24)
      - (36524 * b + 1461 * c + 365 * e + yd) / (365 * 100 + 24) / 4 = b := by
    rcases (show b = 0 ∨ b = 1 ∨ b = 2 ∨ b = 3 by omega) with h | h | h | h <;> subst h <;> omega
  rw [e3]
  have e4 : 36524 * b + 1461 * c + 365 * e + yd - (365 * 100 + 24) * b
      = 1461 * c + 365 * e + yd := by ring
  rw [e4]
  have e5 : (1461 * c + 365 * e + yd) / (365 * 4 + 1) = c := by omega
  rw [e5]
  have e6 : 1461 * c + 365 * e + yd - (365 * 4 + 1) * c = 365 * e + yd := by ring
  rw [e6]
  have e7 : (365 * e + yd) / 365 - (365 * e + yd) / 365 / 4 = e := by
    rcases (show e = 0 ∨ e = 1 ∨ e = 2 ∨ e = 3 by omega) with h | h | h | h <;> subst h <;> omega
  rw [e7]
  refine Prod.ext ?_ ?_
  · show (400 * q + 100 * b + 4 * c + e + 9223372036854775808) % 18446744073709551616
      - 9223372036854775808 + -292277022399 = y
    omega
  · show 365 * e + yd - 365 * e = yd
    omega


theorem month_of_day (year : Int) (m : Nat) (x : Int) (h1 : 1 ≤ m) (h2 : m ≤ 12)
    (hx1 : daysBefore.getD (m - 1) 0 ≤ x) (hx2 : x < daysBefore.getD m 0) :
    (if x ≥ daysBefore.getD (x / 31 + 1).toNat 0
      then (year, x / 31 + 1 + 1, x - daysBefore.getD (x / 31 + 1).toNat 0 + 1)
      else (year, x / 31 + 1, x - daysBefore.getD (x / 31).toNat 0 + 1))
      = (year, (m : Int), x - daysBefore.getD (m - 1) 0 + 1) := by
  have hk : x / 31 = (m : Int) - 1 ∨ x / 31 = (m : Int) - 2 := by
    interval_cases m <;> simp [daysBefore] at hx1 hx2 <;> omega
  rcases hk with hk | hk <;> rw [hk] <;> interval_cases m <;>
    simp [daysBefore] at hx1 hx2 hk ⊢ <;> omega

theorem yday_of_date (y m d : Nat) (hd : Spec.IsDate y m d) :
    0 ≤ daysBefore.getD ((m : Int) - 1).toNat 0
        + (if isLeap y = true ∧ (m : Int) ≥ 3 then 1 else 0) + ((d : Int) - 1)
      ∧ daysBefore.getD ((m : Int) - 1).toNat 0
        + (if isLeap y = true ∧ (m : Int) ≥ 3 then 1 else 0) + ((d : Int) - 1)
          < (if isLeap y then 366 else 365) := by
  obtain ⟨_, h1, h2, h3, h4⟩ := hd
  rw [isLeap_eq]
  interval_cases m <;> cases hl : Spec.isLeapYear y <;>
    simp [Spec.daysInMonth, hl, daysBefore] at h4 ⊢ <;> omega

theorem absDate_month (y m d : Nat) (hd : Spec.IsDate y m d) (yd : Int)
    (hyd : yd = daysBefore.getD ((m : Int) - 1).toNat 0
        + (if isLeap y = true ∧ (m : Int) ≥ 3 then 1 else 0) + ((d : Int) - 1)) :
    (if isLeap y = true ∧ yd = 31 + 29 - 1 then ((y : Int), (2 : Int), (29 : Int))
    else
      let day := if isLeap y = true ∧ yd > 31 + 29 - 1 then yd - 1 else yd
      let month := day / 31
      let end_ := daysBefore.getD (month + 1).toNat 0
      if day ≥ end_ then ((y : Int), month + 1 + 1, day - end_ + 1)
      else ((y : Int), month + 1, day - daysBefore.getD month.toNat 0 + 1))
      = ((y : Int), (m : Int), (d : Int)) := by
  obtain ⟨_, h1, h2, h3, h4⟩ := hd
  have hidx : ((m : Int) - 1).toNat = m - 1 := by omega
  rw [hidx] at hyd
  by_cases hfeb : isLeap y = true ∧ yd = 31 + 29 - 1
  · rw [if_pos hfeb]
    have hl : Spec.isLeapYear y = true := by
      rw [← isLeap_eq]
      exact hfeb.1
    have : m = 2 ∧ d = 29 := by
      have h5 := hfeb.2
      rw [hyd, isLeap_eq, hl] at h5
      interval_cases m <;> simp [Spec.daysInMonth, hl, daysBefore] at h4 h5 ⊢ <;> omega
    rw [this.1, this.2]
    rfl
  · rw [if_neg hfeb]
    have hx : daysBefore.getD (m - 1) 0
          ≤ (if isLeap y = true ∧ yd > 31 + 29 - 1 then yd - 1 else yd)
        ∧ (if isLeap y = true ∧ yd > 31 + 29 - 1 then yd - 1 else yd) < daysBefore.getD m 0
        ∧ (if isLeap y = true ∧ yd > 31 + 29 - 1 then yd - 1 else yd)
            - daysBefore.getD (m - 1) 0 + 1 = d := by
      rw [isLeap_eq] at hfeb hyd ⊢
      interval_cases m <;> cases hl : Spec.isLeapYear y <;>
        simp [Spec.daysInMonth, hl, daysBefore] at h4 hyd hfeb ⊢ <;> omega
    have h := month_of_day y m _ h1 h2 hx.1 hx.2.1
    rw [hx.2.2] at h
    exact h

theorem absDate_of_date (y m d : Nat) (hd : Spec.IsDate y m d) (s : Int) (hs0 : 0 ≤ s)
    (hs : s < 86400) :
    absDate ((daysSinceEpoch y + (daysBefore.getD ((m : Int) - 1).toNat 0
        + (if isLeap y = true ∧ (m : Int) ≥ 3 then 1 else 0) + ((d : Int) - 1))) * 86400 + s)
      = ((y : Int), (m : Int), (d : Int)) := by
  obtain ⟨hy0, hy1⟩ := yday_of_date y m d hd
  unfold absDate
  rw [absDate_yday y hd.1 _ s hy0 hy1 hs0 hs]
  exact absDate_month y m d hd _ rfl

theorem absolute_unix : absoluteToInternal + internalToUnix = -9223372028715321600 := by
  decide

theorem unix_absolute : unixToInternal + internalToAbsolute = 9223372028715321600 := by
  decide

theorem Date_of_date (y m d : Nat) (hd : Spec.IsDate y m d) (loc : Location) :
    Date y m d 0 0 0 0 loc
      = { unix := Date.utc (Date.unix y m d 0 0 0) loc, nsec := 0, loc := loc } := by
  obtain ⟨_, h1, h2, h3, h4⟩ := hd
  unfold Date
  simp only [norm_id (y : Int) ((m : Int) - 1) 12 (by omega) (by omega),
    norm_id 0 0 1000000000 (by omega) (by omega), norm_id 0 0 60 (by omega) (by omega),
    norm_id (d : Int) 0 24 (by omega) (by omega), sub_add_cancel]





theorem uint64_id (x : Int) (h0 : 0 ≤ x) (h1 : x < 18446744073709551616) : uint64 x = x := by
  unfold uint64
  exact Int.emod_eq_of_lt h0 h1

theorem int64_id (x : Int) (h0 : -9223372036854775808 ≤ x) (h1 : x < 9223372036854775808) :
    int64 x = x := by
  unfold int64
  rw [Int.emod_eq_of_lt (by linarith) (by linarith)]
  ring

theorem int64_add (a k : Int) : int64 (int64 a + k) = int64 (a + k) := by
  unfold int64
  have h : ((a + 9223372036854775808) % 18446744073709551616 - 9223372036854775808 + k
      + 9223372036854775808) % 18446744073709551616
      = (a + k + 9223372036854775808) % 18446744073709551616 := by
    have e : (a + 9223372036854775808) % 18446744073709551616 - 9223372036854775808 + k
        + 9223372036854775808 = (a + 9223372036854775808) % 18446744073709551616 + k := by ring
    rw [e, Int.emod_add_emod]
    congr 1
    ring
  rw [h]

theorem daysBefore_bounds (m : Nat) (h1 : 1 ≤ m) (h2 : m ≤ 12) :
    0 ≤ daysBefore.getD ((m : Int) - 1).toNat 0 ∧ daysBefore.getD ((m : Int) - 1).toNat 0 ≤ 365 := by
  have hidx : ((m : Int) - 1).toNat = m - 1 := by omega
  rw [hidx]
  interval_cases m <;> simp [daysBefore]

theorem day_le (y m d : Nat) (hd : Spec.IsDate y m d) : d ≤ 31 := by
  have h4 := hd.2.2.2.2
  have h1 := hd.2.1
  have h2 := hd.2.2.1
  interval_cases m <;> simp [Spec.daysInMonth] at h4 <;> (try split_ifs at h4) <;> omega

theorem days_bounds (y : Nat) (hy : y ≤ 9999) (x : Int) (h0 : 0 ≤ x) (h1 : x ≤ 400) :
    9223371000000000000 ≤ (daysSinceEpoch y + x) * 86400
      ∧ (daysSinceEpoch y + x) * 86400 ≤ 9223373000000000000 := by
  obtain ⟨q, b, c, e, hq0, hb0, hb, hc0, hc, he0, he, hY, hD⟩ := daysSinceEpoch_eq y hy
  rw [hD]
  omega

theorem Date_unix_of_date (y m d : Nat) (hd : Spec.IsDate y m d) :
    ∃ N : Int, Date.unix y m d 0 0 0 = N * 86400 - 9223372028715321600
      ∧ 9223371000000000000 ≤ N * 86400 ∧ N * 86400 ≤ 9223373000000000000
      ∧ ∀ s : Int, 0 ≤ s → s < 86400 → absDate (N * 86400 + s) = ((y : Int), (m : Int), (d : Int)) := by
  obtain ⟨hy0, hy1⟩ := yday_of_date y m d hd
  obtain ⟨hm0, hm1⟩ := daysBefore_bounds m hd.2.1 hd.2.2.1
  have hd1 := hd.2.2.2.1
  have hdm := day_le y m d hd
  have hyd : (if isLeap (y : Int) = true then (366 : Int) else 365) ≤ 366 := by
    split_ifs <;> omega
  have hN := days_bounds y hd.1 _ hy0 (by omega)
  refine ⟨daysSinceEpoch y + (daysBefore.getD ((m : Int) - 1).toNat 0
    + (if isLeap y = true ∧ (m : Int) ≥ 3 then 1 else 0) + ((d : Int) - 1)), ?_, hN.1, hN.2,
    fun s hs0 hs => absDate_of_date y m d hd s hs0 hs⟩
  have e1 : uint64 (daysBefore.getD ((m : Int) - 1).toNat 0)
      = daysBefore.getD ((m : Int) - 1).toNat 0 := by
    unfold uint64
    omega
  have e2 : uint64 ((d : Int) - 1) = (d : Int) - 1 := by
    unfold uint64
    omega
  have e3 : (if isLeap (y : Int) = true ∧ (m : Int) ≥ 3
      then daysSinceEpoch y + daysBefore.getD ((m : Int) - 1).toNat 0 + 1
      else daysSinceEpoch y + daysBefore.getD ((m : Int) - 1).toNat 0) + ((d : Int) - 1)
      = daysSinceEpoch y + (daysBefore.getD ((m : Int) - 1).toNat 0
        + (if isLeap y = true ∧ (m : Int) ≥ 3 then 1 else 0) + ((d : Int) - 1)) := by
    split_ifs <;> ring
  unfold Date.unix
  simp only [e1, e2, e3, absolute_unix]
  generalize (daysSinceEpoch y + (daysBefore.getD ((m : Int) - 1).toNat 0
        + (if isLeap y = true ∧ (m : Int) ≥ 3 then 1 else 0) + ((d : Int) - 1))) = N at hN ⊢
  have hs : secondsPerDay = 86400 := by decide
  have h0 : (0 : Int) * secondsPerHour + 0 * secondsPerMinute + 0 = 0 := by ring
  rw [hs, h0, uint64_id 0 (le_refl _) (by norm_num), add_zero,
    uint64_id (N * 86400) (by linarith [hN.1]) (by linarith [hN.2]),
    uint64_id (N * 86400) (by linarith [hN.1]) (by linarith [hN.2]), int64_add,
    int64_id _ (by linarith [hN.1]) (by linarith [hN.2])]
  ring

theorem Date_unix_noMidnight (y m d : Nat) (hd : Spec.IsDate y m d) :
    Date.unix y m d 0 0 0 ∈ [(-1600646400 : Int), -933638400, -908841600, -881020800,
      -745804800, -716860800, -683856000, -652320000] ↔ (y, m, d) ∈ noMidnight := by
  obtain ⟨N, hU, hN1, hN2, hR⟩ := Date_unix_of_date y m d hd
  have key : ∀ (c : Int) (a b e : Nat),
      absDate (c + 9223372028715321600) = ((a : Int), (b : Int), (e : Int)) →
      Date.unix y m d 0 0 0 = c → (y, m, d) = (a, b, e) := by
    intro c a b e hc hu
    have h := hR 0 (le_refl _) (by norm_num)
    have hN : N * 86400 + 0 = c + 9223372028715321600 := by
      rw [hU] at hu
      linarith
    rw [hN, hc] at h
    simp only [Prod.mk.injEq, Nat.cast_inj] at h
    obtain ⟨h1, h2, h3⟩ := h
    rw [h1, h2, h3]
  constructor
  · intro h
    simp only [List.mem_cons, List.mem_singleton, List.not_mem_nil, or_false] at h
    rcases h with h | h | h | h | h | h | h | h
    · rw [key _ 1919 4 13 (by decide) h]
      decide
    · rw [key _ 1940 6 1 (by decide) h]
      decide
    · rw [key _ 1941 3 15 (by decide) h]
      decide
    · rw [key _ 1942 1 31 (by decide) h]
      decide
    · rw [key _ 1946 5 15 (by decide) h]
      decide
    · rw [key _ 1947 4 15 (by decide) h]
      decide
    · rw [key _ 1948 5 1 (by decide) h]
      decide
    · rw [key _ 1949 5 1 (by decide) h]
      decide
  · intro h
    simp only [noMidnight, List.mem_cons, List.mem_singleton, List.not_mem_nil, or_false,
      Prod.mk.injEq] at h
    rcases h with ⟨h1, h2, h3⟩ | ⟨h1, h2, h3⟩ | ⟨h1, h2, h3⟩ | ⟨h1, h2, h3⟩ | ⟨h1, h2, h3⟩
      | ⟨h1, h2, h3⟩ | ⟨h1, h2, h3⟩ | ⟨h1, h2, h3⟩ <;> subst h1 <;> subst h2 <;> subst h3 <;> decide

theorem Date_midnight (y m d : Nat) (hd : Spec.IsDate y m d) :
    (Date y m d 0 0 0 0 LOCATION).Date = ((y : Int), (m : Int), (d : Int))
      ∧ (Date y m d 0 0 0 0 LOCATION).Clock
          = (if (y, m, d) ∈ noMidnight then (1 : Int) else 0, (0 : Int), (0 : Int)) := by
  obtain ⟨N, hU, hN1, hN2, hR⟩ := Date_unix_of_date y m d hd
  have hmod : (N * 86400 - 9223372028715321600) % 86400 = 0 := by
    have e : N * 86400 - 9223372028715321600 = (N - 106751991073094) * 86400 := by ring
    rw [e]
    exact Int.mul_emod_left _ _
  have hz := Date_utc_midnight (Date.unix y m d 0 0 0) (by rw [hU]; exact hmod)
    (by rw [hU]; linarith) (by rw [hU]; linarith)
  have habs : (Date y m d 0 0 0 0 LOCATION).abs
      = N * 86400 + (if (y, m, d) ∈ noMidnight then 3600 else 0) := by
    rw [Date_of_date y m d hd]
    unfold Time.abs
    simp only []
    rw [hz, unix_absolute, hU]
    have e : ∀ c : Int, N * 86400 - 9223372028715321600 + c + 9223372028715321600
        = N * 86400 + c := by
      intro c
      ring
    rw [e]
    by_cases hn : (y, m, d) ∈ noMidnight
    · rw [if_pos hn, if_pos]
      · exact uint64_id _ (by linarith) (by linarith)
      · rw [← hU]
        exact (Date_unix_noMidnight y m d hd).2 hn
    · rw [if_neg hn, if_neg]
      · exact uint64_id _ (by linarith) (by linarith)
      · rw [← hU]
        exact fun h => hn ((Date_unix_noMidnight y m d hd).1 h)
  unfold Time.Date Time.Clock
  rw [habs]
  constructor
  · apply hR <;> split_ifs <;> norm_num
  · unfold absClock
    have hs : secondsPerDay = 86400 := by decide
    have hh : secondsPerHour = 3600 := by decide
    have hm : secondsPerMinute = 60 := by decide
    rw [hs, hh, hm]
    by_cases hn : (y, m, d) ∈ noMidnight
    · simp only [if_pos hn]
      have e : (N * 86400 + 3600) % 86400 = 3600 := by
        rw [Int.add_emod, Int.mul_emod_left]
        decide
      rw [e]
      decide
    · simp only [if_neg hn]
      have e : (N * 86400 + 0) % 86400 = 0 := by
        rw [add_zero]
        exact Int.mul_emod_left _ _
      rw [e]
      decide


/-- C7, amended. When every entry of the metadata list holds the colon, so
that the list has built `Meta`, and `Meta` gives `"发布时间"` the text
`YYYY-MM-DD` of a date of the calendar, extraction yields a job whose
`PublishedAt` is set, to `time.Date` of that date at 0:00 in `LOCATION`, the
zone named `Asia/Shanghai`. In that zone the time shows the date of the text,
and the clock 0:00:00; but on the eight days whose midnight the zone skipped
(`noMidnight`) it shows 1:00:00. -/
theorem PublishedAt_of_date (e : Document) (Meta : GoMap) (y m d : Nat)
    (hM : FetchJobs.Meta e.fenlei [] = Except.ok Meta)
    (hv : Meta.get (utf8 "发布时间") = some (Spec.ymd y m d))
    (hd : Spec.IsDate y m d) :
    ∃ job t, FetchJobs.articleview e = Except.ok job
      ∧ job.PublishedAt = some t
      ∧ t = Date y m d 0 0 0 0 LOCATION
      ∧ t.loc = LOCATION
      ∧ LOCATION.name = utf8 "Asia/Shanghai"
      ∧ t.Date = ((y : Int), (m : Int), (d : Int))
      ∧ t.Clock = (if (y, m, d) ∈ noMidnight then (1 : Int) else 0, (0 : Int), (0 : Int))
      ∧ t.nsec = 0 := by
  have hp : FetchJobs.PublishedAt Meta = Except.ok (some (Date y m d 0 0 0 0 LOCATION)) := by
    unfold FetchJobs.PublishedAt
    simp only [hv, (ParseInLocation_ISO_iff _ LOCATION _).2 ⟨y, m, d, hd, rfl, rfl⟩]
  rw [articleview_of_Meta e Meta hM, hp]
  refine ⟨_, Date y m d 0 0 0 0 LOCATION, rfl, rfl, rfl, ?_, rfl, (Date_midnight y m d hd).1,
    (Date_midnight y m d hd).2, ?_⟩
  · rw [Date_of_date y m d hd]
  · rw [Date_of_date y m d hd]

/-- C7 at the page with the entry `发布时间： 2023-05-01`: the job is published
on 1 May 2023 at 0:00:00 of Asia/Shanghai, 8 hours ahead of UTC. -/
theorem PublishedAt_of_date_witness :
    FetchJobs.Meta Example.page.fenlei [] = Except.ok Example.pageMeta
      ∧ Example.pageMeta.get (utf8 "发布时间") = some (Spec.ymd 2023 5 1)
      ∧ Spec.ymd 2023 5 1 = utf8 "2023-05-01"
      ∧ Spec.IsDate 2023 5 1
      ∧ (2023, 5, 1) ∉ noMidnight
      ∧ (Date 2023 5 1 0 0 0 0 LOCATION).unix = 1682870400
      ∧ (Date 2023 5 1 0 0 0 0 LOCATION).Zone = 8 * 3600
      ∧ ∃ job t, FetchJobs.articleview Example.page = Except.ok job
          ∧ job.PublishedAt = some t
          ∧ t = Date 2023 5 1 0 0 0 0 LOCATION
          ∧ t.loc = LOCATION
          ∧ LOCATION.name = utf8 "Asia/Shanghai"
          ∧ t.Date = (((2023 : Nat) : Int), ((5 : Nat) : Int), ((1 : Nat) : Int))
          ∧ t.Clock = (if (2023, 5, 1) ∈ noMidnight then (1 : Int) else 0, (0 : Int), (0 : Int))
          ∧ t.nsec = 0 :=
  ⟨Example_pageMeta, by decide, by decide, by decide, by decide, by decide, by decide,
   PublishedAt_of_date Example.page Example.pageMeta 2023 5 1 Example_pageMeta (by decide)
     (by decide)⟩

/-- C7 as it is written fails: the page with the one entry
`发布时间：1940-06-01` gives a job whose `PublishedAt` shows, in Asia/Shanghai,
1 June 1940 at 1:00:00, 9 hours ahead of UTC, not 0:00: at 0:00 of that day
the clock of the zone was set to 1:00. -/
theorem PublishedAt_counterexample :
    FetchJobs.Meta Example.pageNoMidnight.fenlei []
        = Except.ok [(utf8 "发布时间", utf8 "1940-06-01")]
      ∧ utf8 "1940-06-01" = Spec.ymd 1940 6 1
      ∧ Spec.IsDate 1940 6 1
      ∧ (FetchJobs.articleview Example.pageNoMidnight).map
          (fun job => job.PublishedAt.map (fun t => (t.Date, t.Clock, t.Zone, t.unix)))
        = Except.ok (some ((1940, 6, 1), (1, 0, 0), 9 * 3600, -933667200)) := by
  decide

theorem ExpireAt_eq_some_iff (Meta : GoMap) (t : Time) :
    FetchJobs.ExpireAt Meta = some t
      ↔ ∃ v y m d, Meta.get (utf8 "截止日期") = some v ∧ Spec.IsDate y m d
          ∧ Spec.IsCNDate v y m d ∧ t = Date y m d 0 0 0 0 LOCATION := by
  unfold FetchJobs.ExpireAt
  cases hv : Meta.get (utf8 "截止日期") with
  | none => simp
  | some v =>
    cases hp : ParseInLocation layoutCN v LOCATION with
    | error err =>
      simp only [hp, reduceCtorEq, Option.some.injEq, false_iff, not_exists, not_and]
      intro v2 y m d hv2 hd hc ht
      subst hv2
      have := (ParseInLocation_CN_iff v LOCATION t).2 ⟨y, m, d, hd, hc, ht⟩
      rw [hp] at this
      cases this
    | ok t2 =>
      simp only [hp, Option.some.injEq]
      constructor
      · intro ht2
        subst ht2
        obtain ⟨y, m, d, hd, hc, ht⟩ := (ParseInLocation_CN_iff v LOCATION t2).1 hp
        exact ⟨v, y, m, d, rfl, hd, hc, ht⟩
      · rintro ⟨v2, y, m, d, hv2, hd, hc, ht⟩
        subst hv2
        have := (ParseInLocation_CN_iff v LOCATION t).2 ⟨y, m, d, hd, hc, ht⟩
        rw [hp] at this
        simpa using this

/-- C8, amended. When every entry of the metadata list holds the colon, so
that the list has built `Meta`, and the value of `"发布时间"` is absent or the
text of a date, extraction yields a job. Its `ExpireAt` is nil when `Meta` has
no `"截止日期"`, and nil when the value of `"截止日期"` is not
`<year>年<month>月<day>日` for a date of the calendar; it is set exactly when
the value is such a text, and then to the parsed date: `time.Date` of that
date at 0:00 in `LOCATION`, a time that shows that date in Asia/Shanghai. -/
theorem ExpireAt_nil_or_date (e : Document) (Meta : GoMap)
    (hM : FetchJobs.Meta e.fenlei [] = Except.ok Meta)
    (hP : ∀ v, Meta.get (utf8 "发布时间") = some v →
      ∃ y m d, Spec.IsDate y m d ∧ v = Spec.ymd y m d) :
    ∃ job, FetchJobs.articleview e = Except.ok job
      ∧ (Meta.get (utf8 "截止日期") = none → job.ExpireAt = none)
      ∧ (∀ v, Meta.get (utf8 "截止日期") = some v →
          (¬ ∃ y m d, Spec.IsDate y m d ∧ Spec.IsCNDate v y m d) → job.ExpireAt = none)
      ∧ (∀ t, job.ExpireAt = some t
          ↔ ∃ v y m d, Meta.get (utf8 "截止日期") = some v ∧ Spec.IsDate y m d
              ∧ Spec.IsCNDate v y m d ∧ t = Date y m d 0 0 0 0 LOCATION)
      ∧ (∀ t, job.ExpireAt = some t
          → ∃ v y m d, Meta.get (utf8 "截止日期") = some v ∧ Spec.IsDate y m d
              ∧ Spec.IsCNDate v y m d ∧ t.Date = ((y : Int), (m : Int), (d : Int))
              ∧ t.loc = LOCATION) := by
  obtain ⟨pub, hpub⟩ := PublishedAt_ok Meta hP
  rw [articleview_of_Meta e Meta hM, hpub]
  refine ⟨_, rfl, ?_, ?_, fun t => ExpireAt_eq_some_iff Meta t, ?_⟩
  rotate_left 2
  · intro t ht
    obtain ⟨v, y, m, d, hv, hd, hc, hD⟩ := (ExpireAt_eq_some_iff Meta t).1 ht
    refine ⟨v, y, m, d, hv, hd, hc, ?_, ?_⟩
    · rw [hD]
      exact (Date_midnight y m d hd).1
    · rw [hD, Date_of_date y m d hd]
  · intro hnone
    show FetchJobs.ExpireAt Meta = none
    unfold FetchJobs.ExpireAt
    rw [hnone]
  · intro v hv hno
    show FetchJobs.ExpireAt Meta = none
    cases hx : FetchJobs.ExpireAt Meta with
    | none => rfl
    | some t =>
      obtain ⟨v2, y, m, d, hv2, hd, hc, _⟩ := (ExpireAt_eq_some_iff Meta t).1 hx
      rw [hv] at hv2
      simp only [Option.some.injEq] at hv2
      subst hv2
      exact absurd ⟨y, m, d, hd, hc⟩ hno



theorem CN_not_date (v : GoString) (err : ParseError)
    (h : ParseInLocation layoutCN v LOCATION = Except.error err) :
    ¬ ∃ y m d, Spec.IsDate y m d ∧ Spec.IsCNDate v y m d := by
  rintro ⟨y, m, d, hd, hc⟩
  have := (ParseInLocation_CN_iff v LOCATION _).2 ⟨y, m, d, hd, hc, rfl⟩
  rw [h] at this
  cases this

theorem Example_date (Meta : GoMap)
    (h : Meta.get (utf8 "发布时间") = some (utf8 "2023-05-01")) (v : GoString)
    (hv : Meta.get (utf8 "发布时间") = some v) :
    ∃ y m d, Spec.IsDate y m d ∧ v = Spec.ymd y m d := by
  rw [h] at hv
  simp only [Option.some.injEq] at hv
  subst hv
  exact ⟨2023, 5, 1, by decide, by decide⟩

/-- C8 at two pages published on 1 May 2023: with the closing date `详见正文`
the job has no `ExpireAt`, with `2023年6月30日` it expires on 30 June 2023, at
0:00:00 of Asia/Shanghai. -/
theorem ExpireAt_nil_or_date_witness :
    (FetchJobs.Meta Example.pageBadExpiry.fenlei []
          = Except.ok [(utf8 "截止日期", utf8 "详见正文"), (utf8 "发布时间", utf8 "2023-05-01")]
        ∧ ∃ job, FetchJobs.articleview Example.pageBadExpiry = Except.ok job
            ∧ job.ExpireAt = none)
      ∧ (FetchJobs.Meta Example.pageExpiry.fenlei []
          = Except.ok [(utf8 "截止日期", utf8 "2023年6月30日"), (utf8 "发布时间", utf8 "2023-05-01")]
        ∧ ∃ job, FetchJobs.articleview Example.pageExpiry = Except.ok job
            ∧ job.ExpireAt = some (Date 2023 6 30 0 0 0 0 LOCATION)
            ∧ (Date 2023 6 30 0 0 0 0 LOCATION).Date = (2023, 6, 30)
            ∧ (Date 2023 6 30 0 0 0 0 LOCATION).Clock = (0, 0, 0)
            ∧ (Date 2023 6 30 0 0 0 0 LOCATION).Zone = 8 * 3600) := by
  have hM1 : FetchJobs.Meta Example.pageBadExpiry.fenlei []
      = Except.ok [(utf8 "截止日期", utf8 "详见正文"), (utf8 "发布时间", utf8 "2023-05-01")] := by
    decide
  have hM2 : FetchJobs.Meta Example.pageExpiry.fenlei []
      = Except.ok [(utf8 "截止日期", utf8 "2023年6月30日"), (utf8 "发布时间", utf8 "2023-05-01")] := by
    decide
  refine ⟨⟨hM1, ?_⟩, ⟨hM2, ?_⟩⟩
  · obtain ⟨job, h1, _, h3, _⟩ :=
      ExpireAt_nil_or_date Example.pageBadExpiry _ hM1 (Example_date _ (by decide))
    have hbad : ParseInLocation layoutCN (utf8 "详见正文") LOCATION
        = Except.error { layout := utf8 "2006年1月2日", value := utf8 "详见正文" } := by decide
    exact ⟨job, h1, h3 (utf8 "详见正文") (by decide) (CN_not_date _ _ hbad)⟩
  · obtain ⟨job, h1, _, _, h4, _⟩ :=
      ExpireAt_nil_or_date Example.pageExpiry _ hM2 (Example_date _ (by decide))
    refine ⟨job, h1, (h4 _).2 ⟨utf8 "2023年6月30日", 2023, 6, 30, by decide, by decide,
      ⟨Spec.pad 1 6, Spec.pad 2 30, Or.inr ⟨by decide, rfl⟩, Or.inl rfl, by decide⟩, rfl⟩,
      (Date_midnight 2023 6 30 (by decide)).1, by decide, by decide⟩

/-- C8 as it is written fails: the page with the one entry `发布时间：soon` has
no entry for `截止日期`, the page with the entries `发布时间：soon` and
`截止日期：详见正文` has one that does not parse, and extraction of either panics. -/
theorem ExpireAt_counterexample :
    (FetchJobs.Meta Example.pageBadDate.fenlei [] = Except.ok [(utf8 "发布时间", utf8 "soon")]
        ∧ GoMap.get [(utf8 "发布时间", utf8 "soon")] (utf8 "截止日期") = none
        ∧ FetchJobs.articleview Example.pageBadDate
            = Except.error
                (Panic.parseError { layout := utf8 "2006-01-02", value := utf8 "soon" }))
      ∧ (FetchJobs.Meta Example.pageBadBoth.fenlei []
            = Except.ok [(utf8 "截止日期", utf8 "详见正文"), (utf8 "发布时间", utf8 "soon")]
        ∧ ParseInLocation layoutCN (utf8 "详见正文") LOCATION
            = Except.error { layout := utf8 "2006年1月2日", value := utf8 "详见正文" }
        ∧ FetchJobs.articleview Example.pageBadBoth
            = Except.error
                (Panic.parseError { layout := utf8 "2006-01-02", value := utf8 "soon" })) := by
  decide

theorem ParseInLocation_error (layout : Layout) (value : GoString) (loc : Location)
    (err : ParseError) (h : ParseInLocation layout value loc = Except.error err) :
    err = { layout := layout.text, value := value } := by
  unfold ParseInLocation at h
  cases hl : parse.loop layout.chunks value { year := 0, month := -1, day := -1 } with
  | none =>
    simp only [hl, Except.error.injEq] at h
    exact h.symm
  | some r =>
    obtain ⟨f, rest⟩ := r
    simp only [hl] at h
    cases hs : skip rest layout.suffix with
    | none =>
      simp only [hs, Except.error.injEq] at h
      exact h.symm
    | some rest2 =>
      simp only [hs] at h
      split_ifs at h <;> exact (Except.error.inj h).symm

/-- C9. Extraction of a page panics exactly when an entry of the metadata list
holds no full-width colon, or the list builds a `Meta` whose value for
`"发布时间"` is not the text `YYYY-MM-DD` of a date of the calendar; in every
other case it yields a job. The first panic is the index `1` out of range for
the one piece of the entry, the second carries the parse error. -/
theorem articleview_panics_iff (e : Document) :
    ((∃ p, FetchJobs.articleview e = Except.error p)
        ↔ (∃ text ∈ e.fenlei, ¬ colon <:+: text)
          ∨ ∃ Meta v, FetchJobs.Meta e.fenlei [] = Except.ok Meta
              ∧ Meta.get (utf8 "发布时间") = some v
              ∧ ¬ ∃ y m d, Spec.IsDate y m d ∧ v = Spec.ymd y m d)
      ∧ ((∃ job, FetchJobs.articleview e = Except.ok job)
        ↔ ¬ ((∃ text ∈ e.fenlei, ¬ colon <:+: text)
          ∨ ∃ Meta v, FetchJobs.Meta e.fenlei [] = Except.ok Meta
              ∧ Meta.get (utf8 "发布时间") = some v
              ∧ ¬ ∃ y m d, Spec.IsDate y m d ∧ v = Spec.ymd y m d))
      ∧ ((∃ text ∈ e.fenlei, ¬ colon <:+: text) →
          FetchJobs.articleview e = Except.error (Panic.indexOutOfRange 1 1))
      ∧ (∀ Meta v, FetchJobs.Meta e.fenlei [] = Except.ok Meta →
          Meta.get (utf8 "发布时间") = some v →
          (¬ ∃ y m d, Spec.IsDate y m d ∧ v = Spec.ymd y m d) →
          FetchJobs.articleview e
            = Except.error (Panic.parseError { layout := utf8 "2006-01-02", value := v })) := by
  have hkey : (∃ p, FetchJobs.articleview e = Except.error p)
      ↔ (∃ text ∈ e.fenlei, ¬ colon <:+: text)
        ∨ ∃ Meta v, FetchJobs.Meta e.fenlei [] = Except.ok Meta
            ∧ Meta.get (utf8 "发布时间") = some v
            ∧ ¬ ∃ y m d, Spec.IsDate y m d ∧ v = Spec.ymd y m d := by
    rcases Meta_ok_or_panic e.fenlei with ⟨hall, Meta, hM⟩ | ⟨hex, hM⟩
    · rw [articleview_of_Meta e Meta hM]
      constructor
      · rintro ⟨p, hp⟩
        right
        cases hpub : FetchJobs.PublishedAt Meta with
        | ok pub => simp [hpub] at hp
        | error q =>
          obtain ⟨v, hv, hno⟩ := (PublishedAt_error_iff Meta).1 ⟨q, hpub⟩
          exact ⟨Meta, v, hM, hv, hno⟩
      · rintro (⟨text, ht, hno⟩ | ⟨Meta2, v, hM2, hv, hno⟩)
        · exact absurd (hall text ht) hno
        · rw [hM] at hM2
          simp only [Except.ok.injEq] at hM2
          subst hM2
          obtain ⟨q, hq⟩ := (PublishedAt_error_iff Meta).2 ⟨v, hv, hno⟩
          rw [hq]
          exact ⟨q, rfl⟩
    · rw [articleview_of_Meta_error e _ hM]
      exact ⟨fun _ => Or.inl hex, fun _ => ⟨_, rfl⟩⟩
  refine ⟨hkey, ?_, ?_, ?_⟩
  · rw [← hkey]
    cases FetchJobs.articleview e with
    | error p => simp
    | ok job => simp
  · intro hex
    exact articleview_of_Meta_error e _ (Meta_panic e.fenlei [] hex)
  · intro Meta v hM hv hno
    rw [articleview_of_Meta e Meta hM]
    unfold FetchJobs.PublishedAt
    simp only [hv]
    cases hp : ParseInLocation layoutISO v LOCATION with
    | error err =>
      have herr : err = { layout := utf8 "2006-01-02", value := v } :=
        ParseInLocation_error layoutISO v LOCATION err hp
      rw [herr]
    | ok t =>
      obtain ⟨y, m, d, hd, hvd, _⟩ := (ParseInLocation_ISO_iff v LOCATION t).1 hp
      exact absurd ⟨y, m, d, hd, hvd⟩ hno



/-! ## Jobs without a category -/

theorem Notify_panic {ε : Type} (Send : GoString → Message → Except ε Response)
    (webhookURL : GoString) (jobs : List Job) (h : ∃ job ∈ jobs, job.Categories = []) :
    Notify Send webhookURL jobs
      = { sent := [], result := Except.error (Panic.indexOutOfRange (-1) 0) } := by
  unfold Notify
  rw [feedCardLinks_panic jobs h]

theorem mem_FilterJobs (jobs : List Job) (job : Job) (keywords : List GoString)
    (hj : job ∈ jobs)
    (hk : keywords = [] ∨ ∃ keyword ∈ keywords, keyword <:+: Spec.blob job) :
    job ∈ FilterJobs jobs keywords := by
  by_cases h0 : keywords = []
  · subst h0
    rw [FilterJobs_no_keywords_aux]
    exact hj
  · rcases hk with h | ⟨keyword, hmem, hin⟩
    · exact absurd h h0
    · rw [FilterJobs_eq jobs keywords h0, List.mem_flatMap]
      refine ⟨job, hj, ?_⟩
      rw [List.mem_replicate]
      refine ⟨?_, rfl⟩
      have : 0 < keywords.countP (fun keyword => decide (keyword <:+: Spec.blob job)) :=
        List.countP_pos_iff.2 ⟨keyword, hmem, by simpa using hin⟩
      omega

/-- C10. `Notify` panics with the index `-1` out of range, before anything is
sent, for every job list that holds a job without a category. Such a job can
reach `Notify`: a page none of whose breadcrumb anchors is a second or later
child yields a job without a category; that job passes `FilterJobs` when there
is no keyword or a keyword is in the text of its provinces, locations and
subjects; and `Run` then ends in the panic without a call of the transport.
When every job has a category, the links are built. -/
theorem Notify_panics_without_category :
    (∀ (ε : Type) (Send : GoString → Message → Except ε Response) (webhookURL : GoString)
        (jobs : List Job), (∃ job ∈ jobs, job.Categories = []) →
        Notify Send webhookURL jobs
          = { sent := [], result := Except.error (Panic.indexOutOfRange (-1) 0) })
      ∧ (∀ (e : Document) (job : Job), FetchJobs.articleview e = Except.ok job →
          (∀ a ∈ e.position, a.nthChild < 2) → job.Categories = [])
      ∧ (∀ (jobs : List Job) (job : Job) (keywords : List GoString), job ∈ jobs →
          job.Categories = [] →
          (keywords = [] ∨ ∃ keyword ∈ keywords,
            keyword <:+: List.intercalate [0x20] (job.Provinces ++ job.Locations ++ job.Subjects)) →
          job ∈ FilterJobs jobs keywords)
      ∧ (∀ (ε : Type) (Send : GoString → Message → Except ε Response) (webhookURL : GoString)
          (pages : List Document) (jobs : List Job) (keywords : List GoString),
          FetchJobs pages = Except.ok jobs →
          (∃ job ∈ FilterJobs jobs keywords, job.Categories = []) →
          Run pages Send webhookURL keywords
            = { sent := [], result := Except.error (Panic.indexOutOfRange (-1) 0) })
      ∧ (∀ jobs : List Job, (∀ job ∈ jobs, job.Categories ≠ []) →
          ∃ links, Notify.feedCardLinks jobs = Except.ok links) := by
  refine ⟨fun ε Send webhookURL jobs h => Notify_panic Send webhookURL jobs h, ?_, ?_, ?_, ?_⟩
  · intro e job hjob hpos
    rcases Meta_ok_or_panic e.fenlei with ⟨_, Meta, hM⟩ | ⟨_, hM⟩
    · rw [articleview_of_Meta e Meta hM] at hjob
      cases hpub : FetchJobs.PublishedAt Meta with
      | error p => simp [hpub] at hjob
      | ok pub =>
        simp only [hpub, Except.ok.injEq] at hjob
        rw [← hjob]
        have : e.position.filter (fun a => decide (2 ≤ a.nthChild)) = [] := by
          rw [List.filter_eq_nil_iff]
          intro a ha
          have := hpos a ha
          simp only [decide_eq_true_eq]
          omega
        simp [this]
    · rw [articleview_of_Meta_error e _ hM] at hjob
      cases hjob
  · intro jobs job keywords hj hc hk
    apply mem_FilterJobs jobs job keywords hj
    have hb : Spec.blob job
        = List.intercalate [0x20] (job.Provinces ++ job.Locations ++ job.Subjects) := by
      unfold Spec.blob
      rw [hc]
      simp
    rw [hb]
    exact hk
  · intro ε Send webhookURL pages jobs keywords hf hex
    unfold Run
    rw [hf]
    obtain ⟨job, hj, hc⟩ := hex
    have hlen : (FilterJobs jobs keywords).length > 0 := List.length_pos_of_mem hj
    simp only [hlen, if_true]
    exact Notify_panic Send webhookURL _ ⟨job, hj, hc⟩
  · intro jobs h
    exact ⟨_, feedCardLinks_ok jobs h⟩

/-- C10 at a page whose breadcrumb has the home link only, with the keyword
`Shenzhen`: the job has no category, passes the filter, and the run ends in
the panic without a call of the transport. -/
theorem Notify_panics_without_category_witness :
    FetchJobs [Example.pageNoCategory] = Except.ok [Example.jobNoCategory]
      ∧ Example.jobNoCategory.Categories = []
      ∧ Example.jobNoCategory ∈ FilterJobs [Example.jobNoCategory] [utf8 "Shenzhen"]
      ∧ Run [Example.pageNoCategory] Example.SendOk (utf8 "hook") [utf8 "Shenzhen"]
          = { sent := [], result := Except.error (Panic.indexOutOfRange (-1) 0) } := by
  have hf : FetchJobs [Example.pageNoCategory] = Except.ok [Example.jobNoCategory] := by decide
  have hmem : Example.jobNoCategory ∈ FilterJobs [Example.jobNoCategory] [utf8 "Shenzhen"] :=
    Notify_panics_without_category.2.2.1 [Example.jobNoCategory] Example.jobNoCategory
      [utf8 "Shenzhen"] (List.mem_singleton.2 rfl) rfl
      (Or.inr ⟨utf8 "Shenzhen", List.mem_singleton.2 rfl, by decide⟩)
  exact ⟨hf, rfl, hmem,
    Notify_panics_without_category.2.2.2.1 _ Example.SendOk (utf8 "hook")
      [Example.pageNoCategory] [Example.jobNoCategory] [utf8 "Shenzhen"] hf
      ⟨Example.jobNoCategory, hmem, rfl⟩⟩

/-- C4 at a job list that holds a job without a category: `Notify` makes no
call of the transport and does not return; it panics. -/
theorem Notify_no_call_on_panic :
    (Notify Example.SendOk (utf8 "hook") Example.jobs).sent = []
      ∧ (Notify Example.SendOk (utf8 "hook") Example.jobs).result
          = Except.error (Panic.indexOutOfRange (-1) 0)
      ∧ (Notify Example.SendOk (utf8 "hook") [Example.jobNoCategory]).sent = []
      ∧ (Notify Example.SendOk (utf8 "hook") [Example.jobNoCategory]).result
          = Except.error (Panic.indexOutOfRange (-1) 0) := by
  decide

end Gaoxiaojob
